import Mathlib

/-!
Verification of the markdown/math tokenizing-and-rendering pipeline of the
Omnilearn repository (the `MarkdownRenderer` component).  The source code is
embedded shallowly: strings are `List Char`, the regex-driven passes of the
source are modelled as executable recursive functions with the same scanning
semantics (leftmost match, non-greedy contents, global replace continuing
after each match), and the KaTeX adapter is an explicit record holding the
readiness flag and a possibly-failing rendering function.
-/

set_option maxHeartbeats 1000000

namespace Omnilearn

/-! ## Character classes

Models of the JavaScript character classes used by the source regexes:
`\s` (whitespace, as used by `trim` and `/^\d+\.\s/`), `\d` (ASCII digits),
and the line terminators excluded by `.` in `/(\*\*.*?\*\*)/`. -/

/-- Whitespace as matched by the JavaScript `\s` class (ASCII part). -/
def isWS (c : Char) : Bool :=
  c == ' ' || c == '\t' || c == '\n' || c == '\r' || c == '\x0b' || c == '\x0c'

/-- ASCII digit, the JavaScript `\d` class. -/
def isDigitC (c : Char) : Bool :=
  '0' ≤ c && c ≤ '9'

/-- Line terminators not matched by `.` in a JavaScript regex. -/
def isNlTerm (c : Char) : Bool :=
  c == '\n' || c == '\r'

/-! ## Placeholder ids

The source mints placeholder ids as `` `__MATH_TOKEN_${tokenCounter++}__` ``. -/

/-- Decimal digit character for a value below ten. -/
def digitChar (d : Nat) : Char := Char.ofNat (48 + d)

/-- Fuel-bounded body of `natDigits`; the supplied fuel always suffices. -/
def natDigitsAux : Nat → Nat → List Char
  | 0, _ => []
  | fuel + 1, n =>
    if n < 10 then [digitChar n]
    else natDigitsAux fuel (n / 10) ++ [digitChar (n % 10)]

/-- Decimal representation of a natural number, most significant digit first,
as produced by JavaScript template interpolation of a counter. -/
def natDigits (n : Nat) : List Char := natDigitsAux (n + 1) n

theorem natDigitsAux_irrel : ∀ f1 f2 n : Nat, n < f1 → n < f2 →
    natDigitsAux f1 n = natDigitsAux f2 n := by
  intro f1
  induction f1 with
  | zero => intro f2 n h1 _h2; omega
  | succ f ih =>
    intro f2 n h1 h2
    cases f2 with
    | zero => omega
    | succ g =>
      rw [natDigitsAux, natDigitsAux]
      by_cases hn : n < 10
      · simp [hn]
      · have hd : n / 10 < n := Nat.div_lt_self (by omega) (by omega)
        simp only [hn, if_false]
        rw [ih g (n / 10) (by omega) (by omega)]

theorem natDigits_eq (n : Nat) : natDigits n =
    if n < 10 then [digitChar n] else natDigits (n / 10) ++ [digitChar (n % 10)] := by
  by_cases hn : n < 10
  · simp [natDigits, natDigitsAux, hn]
  · have hd : n / 10 < n := Nat.div_lt_self (by omega) (by omega)
    rw [natDigits, natDigits, natDigitsAux]
    simp only [hn, if_false]
    rw [natDigitsAux_irrel n (n / 10 + 1) (n / 10) (by omega) (by omega)]

/-- The fixed sentinel `__MATH_TOKEN_` beginning every placeholder id. -/
def sentinel : List Char :=
  ['_', '_', 'M', 'A', 'T', 'H', '_', 'T', 'O', 'K', 'E', 'N', '_']

/-- The placeholder id `__MATH_TOKEN_<n>__` minted by `storeMath`. -/
def tokenId (n : Nat) : List Char :=
  sentinel ++ natDigits n ++ ['_', '_']

/-! ## Tokens (source: the `Token` interface and `storeMath`) -/

/-- The source's `TokenType`: `'text' | 'math-inline' | 'math-display'`. -/
inductive TokenType
  | text
  | mathInline
  | mathDisplay
deriving DecidableEq, Repr

/-- The source's `Token` record: `{ type, content, id }`. -/
structure Token where
  type : TokenType
  content : List Char
  id : List Char
deriving DecidableEq, Repr

/-! ## Block math extraction

Source: `content.replace(/\$\$([\s\S]+?)\$\$/g, ...)`.  The global replace
scans left to right; a match needs `$$`, a shortest nonempty content, then
`$$`, and scanning resumes after the match.  `splitTwo ch` finds the first
occurrence of the two-character run `ch ch` and splits around it;
`splitTwoSkip` does the same but always counts the first character as
content, which is exactly the non-greedy closer with nonempty content. -/

/-- Splits a list around the first occurrence of the pair `ch ch`. -/
def splitTwo (ch : Char) : List Char → Option (List Char × List Char)
  | [] => none
  | [_] => none
  | c :: c2 :: rest =>
    if c = ch ∧ c2 = ch then some ([], rest)
    else
      match splitTwo ch (c2 :: rest) with
      | none => none
      | some (a, b) => some (c :: a, b)

/-- Splits around the first occurrence of `ch ch` that starts at index one or
later, modelling the non-greedy `([\s\S]+?)` whose content is nonempty. -/
def splitTwoSkip (ch : Char) : List Char → Option (List Char × List Char)
  | [] => none
  | c :: rest =>
    match splitTwo ch rest with
    | none => none
    | some (a, b) => some (c :: a, b)

theorem splitTwo_eq {ch : Char} {l a b : List Char} (h : splitTwo ch l = some (a, b)) :
    l = a ++ ch :: ch :: b := by
  induction l generalizing a b with
  | nil => simp [splitTwo] at h
  | cons c rest ih =>
    cases rest with
    | nil => simp [splitTwo] at h
    | cons c2 rest2 =>
      rw [splitTwo] at h
      split at h
      · rename_i hcc
        obtain ⟨h1, h2⟩ := hcc
        simp only [Option.some.injEq, Prod.mk.injEq] at h
        obtain ⟨ha, hb⟩ := h
        subst ha hb h1 h2
        simp
      · rename_i hcc
        cases hs : splitTwo ch (c2 :: rest2) with
        | none => rw [hs] at h; cases h
        | some p =>
          obtain ⟨a', b'⟩ := p
          rw [hs] at h
          simp only [Option.some.injEq, Prod.mk.injEq] at h
          obtain ⟨ha, hb⟩ := h
          subst ha hb
          simpa using ih hs

theorem splitTwoSkip_eq {ch : Char} {l a b : List Char}
    (h : splitTwoSkip ch l = some (a, b)) : l = a ++ ch :: ch :: b ∧ a ≠ [] := by
  cases l with
  | nil => simp [splitTwoSkip] at h
  | cons c rest =>
    rw [splitTwoSkip] at h
    cases hs : splitTwo ch rest with
    | none => rw [hs] at h; cases h
    | some p =>
      obtain ⟨a', b'⟩ := p
      rw [hs] at h
      simp only [Option.some.injEq, Prod.mk.injEq] at h
      obtain ⟨ha, hb⟩ := h
      subst ha hb
      exact ⟨by simpa using splitTwo_eq hs, by simp⟩

/-- Fuel-bounded body of the block-math pass; the supplied fuel always
suffices. -/
def extractBlockMathAux : Nat → List (List Char × Token) → Nat → List Char →
    List Char × List (List Char × Token) × Nat
  | 0, toks, cnt, l => (l, toks, cnt)
  | fuel + 1, toks, cnt, l =>
    match splitTwo '$' l with
    | none => (l, toks, cnt)
    | some (pre, rest) =>
      match splitTwoSkip '$' rest with
      | none => (l, toks, cnt)
      | some (body, after) =>
        let r := extractBlockMathAux fuel
          (toks ++ [(tokenId cnt, ⟨.mathDisplay, body, tokenId cnt⟩)]) (cnt + 1) after
        (pre ++ tokenId cnt ++ r.1, r.2.1, r.2.2)

/-- The block-math pass.  `toks` is the shared token map being filled by
`storeMath` and `cnt` the shared `tokenCounter`; the result is the text with
each `$$...$$` match replaced by a fresh placeholder id, together with the
updated map and counter. -/
def extractBlockMath (toks : List (List Char × Token)) (cnt : Nat) (l : List Char) :
    List Char × List (List Char × Token) × Nat :=
  extractBlockMathAux (l.length + 1) toks cnt l

theorem extractBlockMathAux_irrel : ∀ f1 f2 : Nat, ∀ toks cnt, ∀ l : List Char,
    l.length < f1 → l.length < f2 →
    extractBlockMathAux f1 toks cnt l = extractBlockMathAux f2 toks cnt l := by
  intro f1
  induction f1 with
  | zero => intro f2 toks cnt l h1 _h2; omega
  | succ f ih =>
    intro f2 toks cnt l h1 h2
    cases f2 with
    | zero => omega
    | succ g =>
      cases hs : splitTwo '$' l with
      | none => simp only [extractBlockMathAux, hs]
      | some p =>
        obtain ⟨pre, rest⟩ := p
        cases hs2 : splitTwoSkip '$' rest with
        | none => simp only [extractBlockMathAux, hs, hs2]
        | some q =>
          obtain ⟨body, after⟩ := q
          have e1 := splitTwo_eq hs
          have e2 := (splitTwoSkip_eq hs2).1
          have hlen : after.length < l.length := by
            rw [e1, e2]; simp; omega
          simp only [extractBlockMathAux, hs, hs2]
          rw [ih g _ _ after (by omega) (by omega)]

theorem extractBlockMath_none {l : List Char} (toks : List (List Char × Token))
    (cnt : Nat) (h : splitTwo '$' l = none) :
    extractBlockMath toks cnt l = (l, toks, cnt) := by
  rw [extractBlockMath]
  simp only [extractBlockMathAux, h]

theorem extractBlockMath_noClose {l pre rest : List Char}
    (toks : List (List Char × Token)) (cnt : Nat)
    (h : splitTwo '$' l = some (pre, rest)) (h2 : splitTwoSkip '$' rest = none) :
    extractBlockMath toks cnt l = (l, toks, cnt) := by
  rw [extractBlockMath]
  simp only [extractBlockMathAux, h, h2]

theorem extractBlockMath_step {l pre rest body after : List Char}
    (toks : List (List Char × Token)) (cnt : Nat)
    (h : splitTwo '$' l = some (pre, rest))
    (h2 : splitTwoSkip '$' rest = some (body, after)) :
    extractBlockMath toks cnt l =
      (pre ++ tokenId cnt ++
          (extractBlockMath (toks ++ [(tokenId cnt, ⟨.mathDisplay, body, tokenId cnt⟩)])
            (cnt + 1) after).1,
        (extractBlockMath (toks ++ [(tokenId cnt, ⟨.mathDisplay, body, tokenId cnt⟩)])
          (cnt + 1) after).2.1,
        (extractBlockMath (toks ++ [(tokenId cnt, ⟨.mathDisplay, body, tokenId cnt⟩)])
          (cnt + 1) after).2.2) := by
  have e1 := splitTwo_eq h
  have e2 := (splitTwoSkip_eq h2).1
  have hlen : after.length < l.length := by
    rw [e1, e2]; simp; omega
  rw [extractBlockMath]
  simp only [extractBlockMathAux, h, h2]
  simp only [extractBlockMath]
  rw [extractBlockMathAux_irrel l.length (after.length + 1) _ _ after (by omega) (by omega)]

/-! ## Inline math extraction

Source: `text.replace(/\$([^$\n]+?)\$/g, ...)`.  At a `$` the non-greedy
class-restricted content is the run of characters other than `$` and `\n`;
the match succeeds exactly when that run is nonempty and is followed by `$`.
On failure the scan advances one character, as the regex engine does. -/

/-- Character allowed inside an inline math span: the class `[^$\n]`. -/
def inlineChar (c : Char) : Bool := !(c == '$' || c == '\n')

/-- Attempts to close an inline match directly after an opening `$` whose
remaining input is `rest`. -/
def inlineClose (rest : List Char) : Option (List Char × List Char) :=
  if rest.takeWhile inlineChar ≠ [] ∧ (rest.dropWhile inlineChar).head? = some '$' then
    some (rest.takeWhile inlineChar, (rest.dropWhile inlineChar).tail)
  else none

/-- Finds the leftmost inline-math match `(before, content, after)`. -/
def findInlineMath : List Char → Option (List Char × List Char × List Char)
  | [] => none
  | c :: rest =>
    if c = '$' then
      match inlineClose rest with
      | some (run, after) => some ([], run, after)
      | none =>
        match findInlineMath rest with
        | none => none
        | some (pre, run, after) => some (c :: pre, run, after)
    else
      match findInlineMath rest with
      | none => none
      | some (pre, run, after) => some (c :: pre, run, after)

theorem inlineClose_eq {rest run after : List Char}
    (h : inlineClose rest = some (run, after)) :
    rest = run ++ '$' :: after ∧ run ≠ [] ∧ ∀ c ∈ run, inlineChar c = true := by
  rw [inlineClose] at h
  split at h
  · rename_i hcond
    obtain ⟨hne, hhd⟩ := hcond
    simp only [Option.some.injEq, Prod.mk.injEq] at h
    obtain ⟨hr, ha⟩ := h
    subst hr ha
    refine ⟨?_, hne, fun c hc => List.mem_takeWhile_imp hc⟩
    cases hdw : rest.dropWhile inlineChar with
    | nil => rw [hdw] at hhd; simp at hhd
    | cons c0 t =>
      rw [hdw] at hhd
      simp only [List.head?_cons, Option.some.injEq] at hhd
      subst hhd
      conv_lhs => rw [← @List.takeWhile_append_dropWhile Char inlineChar rest]
      rw [hdw]
      simp
  · cases h

theorem findInlineMath_eq {l pre run after : List Char}
    (h : findInlineMath l = some (pre, run, after)) :
    l = pre ++ '$' :: (run ++ '$' :: after) ∧ run ≠ [] ∧
      ∀ c ∈ run, inlineChar c = true := by
  induction l generalizing pre run after with
  | nil => simp [findInlineMath] at h
  | cons c rest ih =>
    rw [findInlineMath] at h
    split at h
    · rename_i hc
      subst hc
      cases hcl : inlineClose rest with
      | some p =>
        obtain ⟨run', after'⟩ := p
        rw [hcl] at h
        simp only [Option.some.injEq, Prod.mk.injEq] at h
        obtain ⟨hp, hr, ha⟩ := h
        subst hp hr ha
        obtain ⟨e, hne, hall⟩ := inlineClose_eq hcl
        exact ⟨by simp [e], hne, hall⟩
      | none =>
        rw [hcl] at h
        cases hf : findInlineMath rest with
        | none => rw [hf] at h; cases h
        | some p =>
          obtain ⟨pre', run', after'⟩ := p
          rw [hf] at h
          simp only [Option.some.injEq, Prod.mk.injEq] at h
          obtain ⟨hp, hr, ha⟩ := h
          subst hp hr ha
          obtain ⟨e, hne, hall⟩ := ih hf
          exact ⟨by simp [e], hne, hall⟩
    · cases hf : findInlineMath rest with
      | none => rw [hf] at h; cases h
      | some p =>
        obtain ⟨pre', run', after'⟩ := p
        rw [hf] at h
        simp only [Option.some.injEq, Prod.mk.injEq] at h
        obtain ⟨hp, hr, ha⟩ := h
        subst hp hr ha
        obtain ⟨e, hne, hall⟩ := ih hf
        exact ⟨by simp [e], hne, hall⟩

/-- Fuel-bounded body of the inline-math pass; the supplied fuel always
suffices. -/
def extractInlineMathAux : Nat → List (List Char × Token) → Nat → List Char →
    List Char × List (List Char × Token) × Nat
  | 0, toks, cnt, l => (l, toks, cnt)
  | fuel + 1, toks, cnt, l =>
    match findInlineMath l with
    | none => (l, toks, cnt)
    | some (pre, run, after) =>
      let r := extractInlineMathAux fuel
        (toks ++ [(tokenId cnt, ⟨.mathInline, run, tokenId cnt⟩)]) (cnt + 1) after
      (pre ++ tokenId cnt ++ r.1, r.2.1, r.2.2)

/-- The inline-math pass, sharing the token map and counter with the block
pass exactly as the source's `storeMath` closure does. -/
def extractInlineMath (toks : List (List Char × Token)) (cnt : Nat) (l : List Char) :
    List Char × List (List Char × Token) × Nat :=
  extractInlineMathAux (l.length + 1) toks cnt l

theorem extractInlineMathAux_irrel : ∀ f1 f2 : Nat, ∀ toks cnt, ∀ l : List Char,
    l.length < f1 → l.length < f2 →
    extractInlineMathAux f1 toks cnt l = extractInlineMathAux f2 toks cnt l := by
  intro f1
  induction f1 with
  | zero => intro f2 toks cnt l h1 _h2; omega
  | succ f ih =>
    intro f2 toks cnt l h1 h2
    cases f2 with
    | zero => omega
    | succ g =>
      cases hs : findInlineMath l with
      | none => simp only [extractInlineMathAux, hs]
      | some p =>
        obtain ⟨pre, run, after⟩ := p
        have e := (findInlineMath_eq hs).1
        have hlen : after.length < l.length := by
          rw [e]; simp; omega
        simp only [extractInlineMathAux, hs]
        rw [ih g _ _ after (by omega) (by omega)]

theorem extractInlineMath_none {l : List Char} (toks : List (List Char × Token))
    (cnt : Nat) (h : findInlineMath l = none) :
    extractInlineMath toks cnt l = (l, toks, cnt) := by
  rw [extractInlineMath]
  simp only [extractInlineMathAux, h]

theorem extractInlineMath_step {l pre run after : List Char}
    (toks : List (List Char × Token)) (cnt : Nat)
    (h : findInlineMath l = some (pre, run, after)) :
    extractInlineMath toks cnt l =
      (pre ++ tokenId cnt ++
          (extractInlineMath (toks ++ [(tokenId cnt, ⟨.mathInline, run, tokenId cnt⟩)])
            (cnt + 1) after).1,
        (extractInlineMath (toks ++ [(tokenId cnt, ⟨.mathInline, run, tokenId cnt⟩)])
          (cnt + 1) after).2.1,
        (extractInlineMath (toks ++ [(tokenId cnt, ⟨.mathInline, run, tokenId cnt⟩)])
          (cnt + 1) after).2.2) := by
  have e := (findInlineMath_eq h).1
  have hlen : after.length < l.length := by
    rw [e]; simp; omega
  rw [extractInlineMath]
  simp only [extractInlineMathAux, h]
  simp only [extractInlineMath]
  rw [extractInlineMathAux_irrel l.length (after.length + 1) _ _ after (by omega) (by omega)]

/-- The source's `parsedContent` memo body, generalized over the starting
token map and counter (the source always starts from an empty map and a
zero counter; the generalization makes the freshness claim stateable). -/
def parsedContentFrom (toks : List (List Char × Token)) (cnt : Nat)
    (content : List Char) : List Char × List (List Char × Token) :=
  let r1 := extractBlockMath toks cnt content
  let r2 := extractInlineMath r1.2.1 r1.2.2 r1.1
  (r2.1, r2.2.1)

/-- The source's `parsedContent`: block math is extracted first, then inline
math, from a fresh map and counter. -/
def parsedContent (content : List Char) : List Char × List (List Char × Token) :=
  parsedContentFrom [] 0 content

/-! ## Splitting a segment on the placeholder pattern

Source: `segmentText.split(/(__MATH_TOKEN_\d+__)/g)`.  The capture group
makes the separators part of the result, so the parts strictly alternate
between non-matching text (possibly empty) and pattern matches. -/

/-- Boolean prefix test on character lists. -/
def startsWithL : List Char → List Char → Bool
  | [], _ => true
  | _ :: _, [] => false
  | p :: ps, c :: cs => p == c && startsWithL ps cs

/-- Boolean suffix test on character lists. -/
def endsWithL (p l : List Char) : Bool :=
  startsWithL p.reverse l.reverse

theorem startsWithL_eq : ∀ {p l : List Char}, startsWithL p l = true →
    l = p ++ l.drop p.length
  | [], l, _ => by simp
  | p :: ps, [], h => by simp [startsWithL] at h
  | p :: ps, c :: cs, h => by
    rw [startsWithL] at h
    simp only [Bool.and_eq_true, beq_iff_eq] at h
    obtain ⟨h1, h2⟩ := h
    subst h1
    simpa using startsWithL_eq h2

theorem startsWithL_append (p r : List Char) : startsWithL p (p ++ r) = true := by
  induction p with
  | nil => simp [startsWithL]
  | cons c cs ih => simpa [startsWithL] using ih

/-- Attempts to match `__MATH_TOKEN_\d+__` at the head of `l`: the sentinel,
then a greedy nonempty digit run, then two underscores. -/
def matchTokenHere (l : List Char) : Option (List Char × List Char) :=
  if startsWithL sentinel l then
    if ((l.drop sentinel.length).takeWhile isDigitC) ≠ [] ∧
        startsWithL ['_', '_'] ((l.drop sentinel.length).dropWhile isDigitC) then
      some (sentinel ++ (l.drop sentinel.length).takeWhile isDigitC ++ ['_', '_'],
        ((l.drop sentinel.length).dropWhile isDigitC).drop 2)
    else none
  else none

theorem matchTokenHere_eq {l tok after : List Char}
    (h : matchTokenHere l = some (tok, after)) :
    l = tok ++ after ∧
      ∃ ds, tok = sentinel ++ ds ++ ['_', '_'] ∧ ds ≠ [] ∧
        ∀ c ∈ ds, isDigitC c = true := by
  rw [matchTokenHere] at h
  split at h
  · rename_i hsw
    split at h
    · rename_i hcond
      obtain ⟨hne, huu⟩ := hcond
      simp only [Option.some.injEq, Prod.mk.injEq] at h
      obtain ⟨ht, ha⟩ := h
      subst ht ha
      constructor
      · have e1 := startsWithL_eq hsw
        have e2 := startsWithL_eq huu
        conv_lhs => rw [e1]
        conv_lhs =>
          rw [← @List.takeWhile_append_dropWhile Char isDigitC (l.drop sentinel.length)]
        rw [e2]
        simp
      · exact ⟨_, rfl, hne, fun c hc => List.mem_takeWhile_imp hc⟩
    · cases h
  · cases h

/-- Finds the leftmost placeholder-pattern match, splitting the input as
`(before, match, after)`. -/
def findToken : List Char → Option (List Char × List Char × List Char)
  | [] => none
  | c :: rest =>
    match matchTokenHere (c :: rest) with
    | some (tok, after) => some ([], tok, after)
    | none =>
      match findToken rest with
      | none => none
      | some (pre, tok, after) => some (c :: pre, tok, after)

theorem findToken_eq {l pre tok after : List Char}
    (h : findToken l = some (pre, tok, after)) :
    l = pre ++ tok ++ after ∧
      ∃ ds, tok = sentinel ++ ds ++ ['_', '_'] ∧ ds ≠ [] ∧
        ∀ c ∈ ds, isDigitC c = true := by
  induction l generalizing pre tok after with
  | nil => simp [findToken] at h
  | cons c rest ih =>
    rw [findToken] at h
    cases hm : matchTokenHere (c :: rest) with
    | some p =>
      obtain ⟨tok', after'⟩ := p
      rw [hm] at h
      simp only [Option.some.injEq, Prod.mk.injEq] at h
      obtain ⟨hp, ht, ha⟩ := h
      subst hp ht ha
      obtain ⟨e, hds⟩ := matchTokenHere_eq hm
      exact ⟨by simpa using e, hds⟩
    | none =>
      rw [hm] at h
      cases hf : findToken rest with
      | none => rw [hf] at h; cases h
      | some p =>
        obtain ⟨pre', tok', after'⟩ := p
        rw [hf] at h
        simp only [Option.some.injEq, Prod.mk.injEq] at h
        obtain ⟨hp, ht, ha⟩ := h
        subst hp ht ha
        obtain ⟨e, hds⟩ := ih hf
        exact ⟨by simp [e], hds⟩

theorem findToken_after_lt {l pre tok after : List Char}
    (h : findToken l = some (pre, tok, after)) : after.length < l.length := by
  obtain ⟨e, ds, hds, hne, _⟩ := findToken_eq h
  subst hds
  subst e
  simp [sentinel]
  omega

/-- Fuel-bounded body of the placeholder split; the supplied fuel always
suffices. -/
def splitTokensAux : Nat → List Char → List (List Char)
  | 0, l => [l]
  | fuel + 1, l =>
    match findToken l with
    | none => [l]
    | some (pre, tok, after) => pre :: tok :: splitTokensAux fuel after

/-- The split on `/(__MATH_TOKEN_\d+__)/g` with the captured separators kept
in the result, exactly as JavaScript `String.split` behaves with a capture
group. -/
def splitTokens (l : List Char) : List (List Char) :=
  splitTokensAux (l.length + 1) l

theorem splitTokensAux_irrel : ∀ f1 f2 : Nat, ∀ l : List Char,
    l.length < f1 → l.length < f2 → splitTokensAux f1 l = splitTokensAux f2 l := by
  intro f1
  induction f1 with
  | zero => intro f2 l h1 _h2; omega
  | succ f ih =>
    intro f2 l h1 h2
    cases f2 with
    | zero => omega
    | succ g =>
      cases hs : findToken l with
      | none => simp only [splitTokensAux, hs]
      | some p =>
        obtain ⟨pre, tok, after⟩ := p
        have hlen := findToken_after_lt hs
        simp only [splitTokensAux, hs]
        rw [ih g after (by omega) (by omega)]

theorem splitTokens_none {l : List Char} (h : findToken l = none) :
    splitTokens l = [l] := by
  rw [splitTokens]
  simp only [splitTokensAux, h]

theorem splitTokens_step {l pre tok after : List Char}
    (h : findToken l = some (pre, tok, after)) :
    splitTokens l = pre :: tok :: splitTokens after := by
  have hlen := findToken_after_lt h
  rw [splitTokens]
  simp only [splitTokensAux, h]
  simp only [splitTokens]
  rw [splitTokensAux_irrel l.length (after.length + 1) after (by omega) (by omega)]

/-! ## Bold splitting

Source: `part.split(/(\*\*.*?\*\*)/g)`.  A match is `**`, then the shortest
(possibly empty) run of non-line-terminator characters, then `**`; on
failure the scan advances one character. -/

/-- Attempts to close a bold match directly after an opening `**`. -/
def boldClose (rest : List Char) : Option (List Char × List Char) :=
  match splitTwo '*' rest with
  | none => none
  | some (body, after) => if body.any isNlTerm then none else some (body, after)

theorem boldClose_eq {rest body after : List Char}
    (h : boldClose rest = some (body, after)) :
    rest = body ++ '*' :: '*' :: after ∧ body.any isNlTerm = false := by
  rw [boldClose] at h
  split at h
  · cases h
  · rename_i body' after' heq
    split at h
    · cases h
    · rename_i hnl
      simp only [Option.some.injEq, Prod.mk.injEq] at h
      obtain ⟨hb, ha⟩ := h
      subst hb ha
      exact ⟨splitTwo_eq heq, by simpa using hnl⟩

/-- Finds the leftmost bold match, splitting the input as
`(before, capturedMatch, after)`; the captured match keeps its `**`
delimiters, as the capture group does. -/
def findBold : List Char → Option (List Char × List Char × List Char)
  | [] => none
  | [_] => none
  | c :: c2 :: rest =>
    if c = '*' ∧ c2 = '*' then
      match boldClose rest with
      | some (body, after) => some ([], '*' :: '*' :: (body ++ ['*', '*']), after)
      | none =>
        match findBold (c2 :: rest) with
        | none => none
        | some (pre, cap, after) => some (c :: pre, cap, after)
    else
      match findBold (c2 :: rest) with
      | none => none
      | some (pre, cap, after) => some (c :: pre, cap, after)

theorem findBold_eq {l pre cap after : List Char}
    (h : findBold l = some (pre, cap, after)) :
    l = pre ++ cap ++ after ∧
      ∃ body, cap = '*' :: '*' :: (body ++ ['*', '*']) ∧ body.any isNlTerm = false := by
  induction l generalizing pre cap after with
  | nil => simp [findBold] at h
  | cons c rest ih =>
    cases rest with
    | nil => simp [findBold] at h
    | cons c2 rest2 =>
      rw [findBold] at h
      split at h
      · rename_i hcc
        obtain ⟨h1, h2⟩ := hcc
        subst h1 h2
        cases hb : boldClose rest2 with
        | some p =>
          obtain ⟨body', after'⟩ := p
          rw [hb] at h
          simp only [Option.some.injEq, Prod.mk.injEq] at h
          obtain ⟨hp, hc, ha⟩ := h
          subst hp hc ha
          obtain ⟨e, hnl⟩ := boldClose_eq hb
          refine ⟨by simp [e], body', rfl, hnl⟩
        | none =>
          rw [hb] at h
          cases hf : findBold ('*' :: rest2) with
          | none => rw [hf] at h; cases h
          | some p =>
            obtain ⟨pre', cap', after'⟩ := p
            rw [hf] at h
            simp only [Option.some.injEq, Prod.mk.injEq] at h
            obtain ⟨hp, hc, ha⟩ := h
            subst hp hc ha
            obtain ⟨e, hbody⟩ := ih hf
            exact ⟨by simp [e], hbody⟩
      · cases hf : findBold (c2 :: rest2) with
        | none => rw [hf] at h; cases h
        | some p =>
          obtain ⟨pre', cap', after'⟩ := p
          rw [hf] at h
          simp only [Option.some.injEq, Prod.mk.injEq] at h
          obtain ⟨hp, hc, ha⟩ := h
          subst hp hc ha
          obtain ⟨e, hbody⟩ := ih hf
          exact ⟨by simp [e], hbody⟩

theorem findBold_after_lt {l pre cap after : List Char}
    (h : findBold l = some (pre, cap, after)) : after.length < l.length := by
  obtain ⟨e, body, hb, _⟩ := findBold_eq h
  subst hb
  subst e
  simp only [List.length_append, List.length_cons]
  omega

/-- Fuel-bounded body of the bold split; the supplied fuel always suffices. -/
def splitBoldAux : Nat → List Char → List (List Char)
  | 0, l => [l]
  | fuel + 1, l =>
    match findBold l with
    | none => [l]
    | some (pre, cap, after) => pre :: cap :: splitBoldAux fuel after

/-- The split on `/(\*\*.*?\*\*)/g` with captured separators kept. -/
def splitBold (l : List Char) : List (List Char) :=
  splitBoldAux (l.length + 1) l

theorem splitBoldAux_irrel : ∀ f1 f2 : Nat, ∀ l : List Char,
    l.length < f1 → l.length < f2 → splitBoldAux f1 l = splitBoldAux f2 l := by
  intro f1
  induction f1 with
  | zero => intro f2 l h1 _h2; omega
  | succ f ih =>
    intro f2 l h1 h2
    cases f2 with
    | zero => omega
    | succ g =>
      cases hs : findBold l with
      | none => simp only [splitBoldAux, hs]
      | some p =>
        obtain ⟨pre, cap, after⟩ := p
        have hlen := findBold_after_lt hs
        simp only [splitBoldAux, hs]
        rw [ih g after (by omega) (by omega)]

theorem splitBold_none {l : List Char} (h : findBold l = none) :
    splitBold l = [l] := by
  rw [splitBold]
  simp only [splitBoldAux, h]

theorem splitBold_step {l pre cap after : List Char}
    (h : findBold l = some (pre, cap, after)) :
    splitBold l = pre :: cap :: splitBold after := by
  have hlen := findBold_after_lt h
  rw [splitBold]
  simp only [splitBoldAux, h]
  simp only [splitBold]
  rw [splitBoldAux_irrel l.length (after.length + 1) after (by omega) (by omega)]

/-- The JavaScript `subPart.slice(2, -2)`, stripping two characters from each
end. -/
def sliceBold (l : List Char) : List Char :=
  (l.take (l.length - 2)).drop 2

/-! ## Inline spans and the KaTeX adapter -/

/-- An inline span of rendered output: plain text, bold text, successfully
typeset math (with its display flag), literal math source shown because the
adapter is not loaded, or literal math source shown because the adapter
threw. -/
inductive Span
  | plainText (s : List Char)
  | boldText (s : List Char)
  | mathHtml (html : List Char) (display : Bool)
  | mathLiteral (src : List Char)
  | mathError (src : List Char)
deriving DecidableEq, Repr

/-- The KaTeX adapter as the renderer sees it: the latched readiness flag and
`renderToString`, which returns `none` when it throws. -/
structure Katex where
  loaded : Bool
  renderToString : List Char → Bool → Option (List Char)

/-- Lookup in the token map, the source's `parsedContent.tokens[part]`. -/
def lookupTok (id : List Char) : List (List Char × Token) → Option Token
  | [] => none
  | (k, t) :: rest => if k = id then some t else lookupTok id rest

/-- Rendering of one math token, following `renderSegment`'s math branch:
literal muted text when KaTeX is not loaded, typeset markup on success,
error-styled literal source when `renderToString` throws. -/
def renderMathSpan (k : Katex) (t : Token) : Span :=
  if k.loaded then
    match k.renderToString t.content (t.type == .mathDisplay) with
    | some html => .mathHtml html (t.type == .mathDisplay)
    | none => .mathError t.content
  else .mathLiteral t.content

/-- The bold pass over one non-math part: split on the bold pattern, then
emit bold for subparts that both start and end with `**` and plain text
otherwise. -/
def boldSpans (part : List Char) : List Span :=
  (splitBold part).map fun sub =>
    if startsWithL ['*', '*'] sub && endsWithL ['*', '*'] sub then
      Span.boldText (sliceBold sub)
    else Span.plainText sub

/-- The source's `renderSegment`: split on the placeholder pattern, resolve
parts found in the token map as math spans, and run the bold pass on the
rest. -/
def renderSegment (toks : List (List Char × Token)) (k : Katex)
    (seg : List Char) : List Span :=
  (splitTokens seg).flatMap fun part =>
    match lookupTok part toks with
    | some t => [renderMathSpan k t]
    | none => boldSpans part

/-! ## Line classification and rendering -/

/-- One rendered output block, as produced for a single line. -/
inductive Block
  | blank
  | heading (level : Nat) (spans : List Span)
  | bulletItem (spans : List Span)
  | orderedItem (label : List Char) (spans : List Span)
  | para (spans : List Span)
deriving DecidableEq, Repr

/-- The JavaScript `trim()` start side. -/
def trimL (l : List Char) : List Char := l.dropWhile isWS

/-- The JavaScript `trim()` end side. -/
def trimR (l : List Char) : List Char := (l.reverse.dropWhile isWS).reverse

/-- The JavaScript `line.trim()`. -/
def trimS (l : List Char) : List Char := trimR (trimL l)

/-- The JavaScript `line.replace(pat, '')` with a string pattern: only the
first occurrence is removed; the line is unchanged when the pattern does not
occur. -/
def replaceFirst (pat : List Char) : List Char → List Char
  | [] => if startsWithL pat [] then ([] : List Char).drop pat.length else []
  | c :: rest =>
    if startsWithL pat (c :: rest) then (c :: rest).drop pat.length
    else c :: replaceFirst pat rest

/-- The JavaScript `line.replace(/^- /, '')`: anchored, so it strips only
when the untrimmed line itself starts with the marker. -/
def stripDash (l : List Char) : List Char :=
  if startsWithL ['-', ' '] l then l.drop 2 else l

/-- The test `/^\d+\.\s/.test(trimmed)`: one or more digits, a period, one
whitespace character. -/
def orderedTest (l : List Char) : Bool :=
  !(l.takeWhile isDigitC).isEmpty &&
    match l.dropWhile isDigitC with
    | '.' :: w :: _ => isWS w
    | _ => false

/-- The ordered-item label `trimmed.split('.')[0] + "."`. -/
def orderedLabel (l : List Char) : List Char :=
  l.takeWhile (fun c => c != '.') ++ ['.']

/-- The remainder `trimmed.replace(/^\d+\.\s/, '')` of an ordered line. -/
def orderedRest (l : List Char) : List Char :=
  l.drop ((l.takeWhile isDigitC).length + 2)

/-- One line of the source's render loop: classify, strip the marker, and
inline-render the remainder. -/
def renderLine (toks : List (List Char × Token)) (k : Katex)
    (line : List Char) : Block :=
  if trimS line = [] then .blank
  else if startsWithL ['#', '#', '#', ' '] line then
    .heading 3 (renderSegment toks k (replaceFirst ['#', '#', '#', ' '] line))
  else if startsWithL ['#', '#', ' '] line then
    .heading 2 (renderSegment toks k (replaceFirst ['#', '#', ' '] line))
  else if startsWithL ['#', ' '] line then
    .heading 1 (renderSegment toks k (replaceFirst ['#', ' '] line))
  else if startsWithL ['-', ' '] (trimS line) then
    .bulletItem (renderSegment toks k (stripDash line))
  else if orderedTest (trimS line) then
    .orderedItem (orderedLabel (trimS line))
      (renderSegment toks k (orderedRest (trimS line)))
  else .para (renderSegment toks k line)

/-- Newline splitting, as `text.split('\n')`: the first line paired with the
remaining lines. -/
def splitNlP : List Char → List Char × List (List Char)
  | [] => ([], [])
  | c :: r =>
    let p := splitNlP r
    if c = '\n' then ([], p.1 :: p.2) else (c :: p.1, p.2)

/-- The full line list of `text.split('\n')`. -/
def splitNl (l : List Char) : List (List Char) :=
  (splitNlP l).1 :: (splitNlP l).2

/-- The whole `MarkdownRenderer` component on one content string: tokenize,
split into lines, render each line. -/
def MarkdownRenderer (k : Katex) (content : List Char) : List Block :=
  ((splitNl (parsedContent content).1).map
    (renderLine (parsedContent content).2 k))

/-! ## Auxiliary notions used by the verification -/

/-- A KaTeX adapter that has not loaded yet. -/
def katexOff : Katex := ⟨false, fun _ _ => none⟩

/-- Classification outcome of a line: the constructor of its block. -/
inductive LineClass
  | blank
  | heading (level : Nat)
  | bulletItem
  | orderedItem
  | para
deriving DecidableEq, Repr

/-- The classification a rendered block witnesses. -/
def classOf : Block → LineClass
  | .blank => .blank
  | .heading n _ => .heading n
  | .bulletItem _ => .bulletItem
  | .orderedItem _ _ => .orderedItem
  | .para _ => .para

/-- Line classification as the amended claim C4 describes it: first-match
priority blank, heading 3, heading 2, heading 1, bullet, ordered item,
paragraph, with the heading prefixes tested on the raw line and the blank,
bullet and ordered tests on the whitespace-trimmed line. -/
def classifyAmendedC4 (line : List Char) : LineClass :=
  if trimS line = [] then .blank
  else if startsWithL ['#', '#', '#', ' '] line then .heading 3
  else if startsWithL ['#', '#', ' '] line then .heading 2
  else if startsWithL ['#', ' '] line then .heading 1
  else if startsWithL ['-', ' '] (trimS line) then .bulletItem
  else if orderedTest (trimS line) then .orderedItem
  else .para


/-! ## Structured documents for the amended claims C1 and C2

A structured document lists its math spans explicitly: plain text, then a
sequence of spans each followed by plain text.  Well-formedness captures
the amended side conditions: span contents are nonempty and dollar-free
(inline contents also newline-free), the surrounding plain text is
dollar-free, and two consecutive spans are separated by at least one
character of plain text. -/

/-- One math span of a structured document with the plain text after it. -/
structure Piece where
  display : Bool
  src : List Char
  post : List Char
deriving DecidableEq, Repr

/-- A structured document. -/
structure SDoc where
  pre : List Char
  pieces : List Piece
deriving DecidableEq, Repr

/-- Concrete text of one piece: the delimited math span, then the plain
text after it. -/
def flattenPiece (p : Piece) : List Char :=
  (if p.display then '$' :: '$' :: (p.src ++ ['$', '$'])
   else '$' :: (p.src ++ ['$'])) ++ p.post

/-- Concrete text of a piece list. -/
def flattenPieces : List Piece → List Char
  | [] => []
  | p :: r => flattenPiece p ++ flattenPieces r

/-- Concrete text of a structured document. -/
def flattenDoc (d : SDoc) : List Char := d.pre ++ flattenPieces d.pieces

/-- Absence of a character from a string. -/
def charFree (ch : Char) (l : List Char) : Bool := l.all (fun c => c != ch)

/-- Validity of one piece. -/
def validPiece (p : Piece) : Bool :=
  !p.src.isEmpty && charFree '$' p.src && (p.display || charFree '\n' p.src) &&
    charFree '$' p.post

/-- Separation: consecutive math spans have nonempty plain text between
them. -/
def sepPieces : List Piece → Bool
  | [] => true
  | [_] => true
  | p :: q :: r => !p.post.isEmpty && sepPieces (q :: r)

/-- Well-formedness of a structured document (the amended claim C2). -/
def wfDoc (d : SDoc) : Bool :=
  charFree '$' d.pre && d.pieces.all validPiece && sepPieces d.pieces

/-- Boolean scan for an occurrence of `pat` as a contiguous substring. -/
def hasSub (pat : List Char) : List Char → Bool
  | [] => startsWithL pat []
  | c :: rest => startsWithL pat (c :: rest) || hasSub pat rest

/-- Cleanliness (the amended claim C1): well-formed, and no text of the
document contains the sentinel substring. -/
def cleanDoc (d : SDoc) : Bool :=
  wfDoc d && !hasSub sentinel d.pre &&
    d.pieces.all (fun p => !hasSub sentinel p.src && !hasSub sentinel p.post)

/-- A small well-formed sample document: plain text, one display span,
separator text, then one inline span. -/
def sampleDoc : SDoc :=
  ⟨['t'], [⟨true, ['a'], ['u']⟩, ⟨false, ['b'], []⟩]⟩

/-- Number of display pieces. -/
def ndisp (ps : List Piece) : Nat := ps.countP (fun p => p.display)

/-- Number of inline pieces. -/
def ninline (ps : List Piece) : Nat := ps.countP (fun p => !p.display)

/-- Expected text after the block pass: display spans replaced by their ids
in order, inline spans untouched. -/
def blockTextAux : List Piece → Nat → List Char
  | [], _ => []
  | p :: r, n =>
    if p.display then tokenId n ++ p.post ++ blockTextAux r (n + 1)
    else '$' :: (p.src ++ ['$']) ++ p.post ++ blockTextAux r n

/-- Expected tokens of the block pass. -/
def blockToks : List Piece → Nat → List (List Char × Token)
  | [], _ => []
  | p :: r, n =>
    if p.display then
      (tokenId n, ⟨.mathDisplay, p.src, tokenId n⟩) :: blockToks r (n + 1)
    else blockToks r n

/-- Expected tokens of the inline pass, numbered from `n`. -/
def inlineToks : List Piece → Nat → List (List Char × Token)
  | [], _ => []
  | p :: r, n =>
    if p.display then inlineToks r n
    else (tokenId n, ⟨.mathInline, p.src, tokenId n⟩) :: inlineToks r (n + 1)

/-- Expected placeholder text, with the display counter `dn` and the inline
counter `en` threaded exactly as the two passes assign ids. -/
def phAux : List Piece → Nat → Nat → List Char
  | [], _, _ => []
  | p :: r, dn, en =>
    if p.display then tokenId dn ++ p.post ++ phAux r (dn + 1) en
    else tokenId en ++ p.post ++ phAux r dn (en + 1)

/-- The document's tokens in document order, with the same ids the passes
assign. -/
def docToks : List Piece → Nat → Nat → List (List Char × Token)
  | [], _, _ => []
  | p :: r, dn, en =>
    if p.display then
      (tokenId dn, ⟨.mathDisplay, p.src, tokenId dn⟩) :: docToks r (dn + 1) en
    else (tokenId en, ⟨.mathInline, p.src, tokenId en⟩) :: docToks r dn (en + 1)

/-- Structured line text: a plain prefix, then id-numbered placeholders
each followed by plain text. -/
def buildLine : List Char → List (Nat × List Char) → List Char
  | p0, [] => p0
  | p0, (k, p) :: rest => p0 ++ tokenId k ++ buildLine p rest

/-- Split of a plain chunk at its first newline. -/
def splitAtNl : List Char → Option (List Char × List Char)
  | [] => none
  | c :: rest =>
    if c = '\n' then some ([], rest)
    else
      match splitAtNl rest with
      | none => none
      | some (a, b) => some (c :: a, b)

theorem splitAtNl_eq : ∀ {l a b : List Char}, splitAtNl l = some (a, b) →
    l = a ++ '\n' :: b ∧ charFree '\n' a = true := by
  intro l
  induction l with
  | nil => intro a b h; simp [splitAtNl] at h
  | cons c rest ih =>
    intro a b h
    rw [splitAtNl] at h
    split at h
    · rename_i hc
      subst hc
      simp only [Option.some.injEq, Prod.mk.injEq] at h
      obtain ⟨ha, hb⟩ := h
      subst ha hb
      simp [charFree]
    · rename_i hc
      cases hs : splitAtNl rest with
      | none => rw [hs] at h; cases h
      | some p =>
        obtain ⟨a0, b0⟩ := p
        rw [hs] at h
        simp only [Option.some.injEq, Prod.mk.injEq] at h
        obtain ⟨ha, hb⟩ := h
        subst ha hb
        obtain ⟨e, hf⟩ := ih hs
        refine ⟨by simp [e], ?_⟩
        simp [charFree] at hf ⊢
        exact ⟨hc, hf⟩

theorem splitAtNl_none : ∀ {l : List Char}, splitAtNl l = none →
    charFree '\n' l = true := by
  intro l
  induction l with
  | nil => intro _h; rfl
  | cons c rest ih =>
    intro h
    rw [splitAtNl] at h
    split at h
    · cases h
    · rename_i hc
      cases hs : splitAtNl rest with
      | none => simp [charFree] at ih ⊢; exact ⟨hc, by simpa [charFree] using ih hs⟩
      | some p => obtain ⟨a0, b0⟩ := p; rw [hs] at h; cases h

/-- Fuel measure for the newline splitter of structured text. -/
def stMeasure (p0 : List Char) (segs : List (Nat × List Char)) : Nat :=
  p0.length + (segs.map (fun s => s.2.length)).sum + segs.length

/-- Prepending a structured-line head chunk and id to the first line of a
split tail. -/
def stCons (p0 : List Char) (k : Nat)
    (tail : List (List Char × List (Nat × List Char))) :
    List (List Char × List (Nat × List Char)) :=
  match tail with
  | [] => [(p0, [])]
  | (q0, qs) :: more => (p0, (k, q0) :: qs) :: more

/-- Fuel-bounded newline-splitting of a structured text into structured
lines; the supplied fuel always suffices. -/
def splitSTAux : Nat → List Char → List (Nat × List Char) →
    List (List Char × List (Nat × List Char))
  | 0, p0, _ => [(p0, [])]
  | fuel + 1, p0, [] =>
    match splitAtNl p0 with
    | some (a, b) => (a, []) :: splitSTAux fuel b []
    | none => [(p0, [])]
  | fuel + 1, p0, (k, p) :: rest =>
    match splitAtNl p0 with
    | some (a, b) => (a, []) :: splitSTAux fuel b ((k, p) :: rest)
    | none => stCons p0 k (splitSTAux fuel p rest)

/-- Newline-splitting of a structured text into structured lines. -/
def splitST (p0 : List Char) (segs : List (Nat × List Char)) :
    List (List Char × List (Nat × List Char)) :=
  splitSTAux (stMeasure p0 segs + 1) p0 segs

/-- Test for a math span (anything that is not plain or bold text). -/
def isMathSpan : Span → Bool
  | .plainText _ => false
  | .boldText _ => false
  | .mathHtml _ _ => true
  | .mathLiteral _ => true
  | .mathError _ => true

/-- All spans of a block. -/
def spansOfBlock : Block → List Span
  | .blank => []
  | .heading _ sp => sp
  | .bulletItem sp => sp
  | .orderedItem _ sp => sp
  | .para sp => sp

/-- The math spans of a block, in order. -/
def mathSpansOfBlock (b : Block) : List Span :=
  (spansOfBlock b).filter isMathSpan

/-- Visible literal text of a span; typeset markup is opaque and counts as
no literal text. -/
def visibleText : Span → List Char
  | .plainText s => s
  | .boldText s => s
  | .mathHtml _ _ => []
  | .mathLiteral s => s
  | .mathError s => s

/-! ## Helper lemmas on character classes, prefixes and trimming -/

theorem ws_ne {c : Char} (h : isWS c = true) (d : Char) (hd : isWS d = false) :
    c ≠ d := by
  intro he
  subst he
  rw [h] at hd
  cases hd

theorem digit_ne {c : Char} (h : isDigitC c = true) (d : Char)
    (hd : isDigitC d = false) : c ≠ d := by
  intro he
  subst he
  rw [h] at hd
  cases hd

theorem digit_not_ws {c : Char} (h : isDigitC c = true) : isWS c = false := by
  cases hw : isWS c
  · rfl
  · exfalso
    simp only [isWS, Bool.or_eq_true, beq_iff_eq] at hw
    rcases hw with ((((rfl | rfl) | rfl) | rfl) | rfl) | rfl <;>
      exact absurd h (by decide)

theorem startsWithL_cons_false {p c : Char} {ps cs : List Char} (h : p ≠ c) :
    startsWithL (p :: ps) (c :: cs) = false := by
  simp [startsWithL, h]

theorem takeWhile_append_all {p : Char → Bool} {a : List Char} (b : List Char)
    (h : ∀ c ∈ a, p c = true) : (a ++ b).takeWhile p = a ++ b.takeWhile p := by
  induction a with
  | nil => simp
  | cons c a' ih =>
    have hc := h c (List.mem_cons_self _ _)
    simp [List.takeWhile_cons, hc, ih (fun d hd => h d (List.mem_cons_of_mem _ hd))]

theorem dropWhile_append_all {p : Char → Bool} {a : List Char} (b : List Char)
    (h : ∀ c ∈ a, p c = true) : (a ++ b).dropWhile p = b.dropWhile p := by
  induction a with
  | nil => simp
  | cons c a' ih =>
    have hc := h c (List.mem_cons_self _ _)
    simp [List.dropWhile_cons, hc, ih (fun d hd => h d (List.mem_cons_of_mem _ hd))]

theorem takeWhile_append_head {p : Char → Bool} {a : List Char} {b0 : Char}
    (bs : List Char) (h : ∀ c ∈ a, p c = true) (hb : p b0 = false) :
    (a ++ b0 :: bs).takeWhile p = a := by
  rw [takeWhile_append_all _ h]
  simp [List.takeWhile_cons, hb]

theorem dropWhile_append_head {p : Char → Bool} {a : List Char} {b0 : Char}
    (bs : List Char) (h : ∀ c ∈ a, p c = true) (hb : p b0 = false) :
    (a ++ b0 :: bs).dropWhile p = b0 :: bs := by
  rw [dropWhile_append_all _ h]
  simp [List.dropWhile_cons, hb]

theorem dropWhile_append_stop {p : Char → Bool} {a : List Char} (b : List Char)
    (h : ∃ c ∈ a, p c = false) : (a ++ b).dropWhile p = a.dropWhile p ++ b := by
  induction a with
  | nil => simp at h
  | cons c a' ih =>
    by_cases hc : p c = true
    · have hex : ∃ d ∈ a', p d = false := by
        obtain ⟨d, hd, hpd⟩ := h
        rcases List.mem_cons.mp hd with he | hd'
        · subst he; rw [hc] at hpd; cases hpd
        · exact ⟨d, hd', hpd⟩
      simp [List.dropWhile_cons, hc, ih hex]
    · rw [Bool.not_eq_true] at hc
      simp [List.dropWhile_cons, hc]

theorem trimL_ws_prefix {w : List Char} (l : List Char)
    (h : ∀ c ∈ w, isWS c = true) : trimL (w ++ l) = trimL l := by
  rw [trimL, trimL, dropWhile_append_all _ h]

theorem trimL_cons_noWS {c : Char} (l : List Char) (h : isWS c = false) :
    trimL (c :: l) = c :: l := by
  rw [trimL]
  simp [List.dropWhile_cons, h]

theorem trimR_append {a b : List Char} (h : ∃ c ∈ b, isWS c = false) :
    trimR (a ++ b) = a ++ trimR b := by
  rw [trimR, trimR, List.reverse_append]
  rw [dropWhile_append_stop]
  · rw [List.reverse_append, List.reverse_reverse]
  · obtain ⟨c, hc, hw⟩ := h
    exact ⟨c, List.mem_reverse.mpr hc, hw⟩

theorem trimS_ne_nil {l : List Char} (h : ∃ c ∈ l, isWS c = false) :
    trimS l ≠ [] := by
  intro he
  obtain ⟨c, hc, hw⟩ := h
  have h1 : ∀ d ∈ trimL l, isWS d = true := by
    intro d hd
    have h2 : (trimL l).reverse.dropWhile isWS = [] := by
      have : ((trimL l).reverse.dropWhile isWS).reverse = [] := he
      simpa using congrArg List.reverse (congrArg List.reverse this)
    have := List.dropWhile_eq_nil_iff.mp h2
    exact this d (List.mem_reverse.mpr hd)
  have h3 : ∀ d ∈ l, isWS d = true := by
    intro d hd
    rw [← @List.takeWhile_append_dropWhile Char isWS l] at hd
    rcases List.mem_append.mp hd with h4 | h4
    · exact List.mem_takeWhile_imp h4
    · exact h1 d h4
  rw [h3 c hc] at hw
  cases hw

/-! ## Claim C4: line classification -/

/-- Claim C4 counterexample: the claim says every prefix test is applied to
the line's whitespace-trimmed form, so the indented line consisting of two
spaces, `### `, and `Title` would classify as a level-3 heading; the code
tests the heading prefixes on the raw line and renders this line as a
paragraph instead. -/
theorem C4_counterexample :
    renderLine [] katexOff ("  ### Title".data) =
      Block.para [Span.plainText ("  ### Title".data)] ∧
    startsWithL ("### ".data) (trimS ("  ### Title".data)) = true := by
  constructor <;> decide

/-- Claim C4, amended: each line is classified by first-match priority
blank, heading 3, heading 2, heading 1, bullet, ordered item, paragraph,
where the blank, bullet and ordered tests are applied to the
whitespace-trimmed line but the heading prefix tests are applied to the raw
untrimmed line; in particular an unindented line starting with `### `
classifies as a level-3 heading, never as a paragraph or bullet. -/
theorem C4_amended_theorem (toks : List (List Char × Token)) (k : Katex)
    (line : List Char) :
    classOf (renderLine toks k line) = classifyAmendedC4 line := by
  rw [renderLine, classifyAmendedC4]
  split_ifs <;> rfl

/-- Claim C4 amended instance: the unindented line `### Title` classifies as
a level-3 heading. -/
theorem C4_amended_witness :
    classOf (renderLine [] katexOff ("### Title".data)) =
        classifyAmendedC4 ("### Title".data) ∧
    classifyAmendedC4 ("### Title".data) = LineClass.heading 3 :=
  ⟨C4_amended_theorem [] katexOff ("### Title".data), by decide⟩

/-! ## Claim C5: marker stripping -/

/-- Claim C5 counterexample: the claim says the recognized leading marker is
always stripped before inline rendering; for the indented line of two
spaces, `- `, and `x` the code classifies it as a bullet via the trimmed
line but strips with the anchored `/^- /` on the raw line, so the marker
survives into the inline-rendered text. -/
theorem C5_counterexample :
    renderLine [] katexOff ("  - x".data) =
      Block.bulletItem [Span.plainText ("  - x".data)] := by
  decide

/-! ## Claim C6: ordered-item label fidelity -/

/-- Claim C6: for every line classified as an ordered item, the rendered
label is the literal digit sequence of the source line followed by a period,
never a recomputed running counter (the renderer has no counter state at
all: the label is computed from the line alone). -/
theorem C6_theorem (toks : List (List Char × Token)) (k : Katex)
    (wsp ds r : List Char) (w : Char)
    (hwsp : ∀ c ∈ wsp, isWS c = true)
    (hds : ds ≠ []) (hdig : ∀ c ∈ ds, isDigitC c = true)
    (hw : isWS w = true) (hr : ∃ c ∈ r, isWS c = false) :
    renderLine toks k (wsp ++ ds ++ '.' :: w :: r) =
      Block.orderedItem (ds ++ ['.']) (renderSegment toks k (trimR r)) := by
  cases ds with
  | nil => exact absurd rfl hds
  | cons d0 ds' =>
    have hd0 : isDigitC d0 = true := hdig d0 (List.mem_cons_self _ _)
    have hT : trimS (wsp ++ (d0 :: ds') ++ '.' :: w :: r) =
        (d0 :: ds') ++ '.' :: w :: trimR r := by
      rw [trimS, List.append_assoc, trimL_ws_prefix _ hwsp,
        show (d0 :: ds') ++ '.' :: w :: r = d0 :: (ds' ++ '.' :: w :: r) by simp,
        trimL_cons_noWS _ (digit_not_ws hd0),
        show d0 :: (ds' ++ '.' :: w :: r) = ((d0 :: ds') ++ ['.', w]) ++ r by simp,
        trimR_append hr]
      simp
    obtain ⟨c0, rest0, hline, hc0hash, hc0dash⟩ :
        ∃ c0 rest0, wsp ++ (d0 :: ds') ++ '.' :: w :: r = c0 :: rest0 ∧
          c0 ≠ '#' ∧ c0 ≠ '-' := by
      cases wsp with
      | nil =>
        refine ⟨d0, ds' ++ '.' :: w :: r, by simp, ?_, ?_⟩
        · exact digit_ne hd0 '#' (by decide)
        · exact digit_ne hd0 '-' (by decide)
      | cons u wsp' =>
        refine ⟨u, wsp' ++ ((d0 :: ds') ++ '.' :: w :: r), by simp, ?_, ?_⟩
        · exact ws_ne (hwsp u (List.mem_cons_self _ _)) '#' (by decide)
        · exact ws_ne (hwsp u (List.mem_cons_self _ _)) '-' (by decide)
    have hh3 : startsWithL ['#', '#', '#', ' ']
        (wsp ++ (d0 :: ds') ++ '.' :: w :: r) = false := by
      rw [hline]; exact startsWithL_cons_false (Ne.symm hc0hash)
    have hh2 : startsWithL ['#', '#', ' ']
        (wsp ++ (d0 :: ds') ++ '.' :: w :: r) = false := by
      rw [hline]; exact startsWithL_cons_false (Ne.symm hc0hash)
    have hh1 : startsWithL ['#', ' ']
        (wsp ++ (d0 :: ds') ++ '.' :: w :: r) = false := by
      rw [hline]; exact startsWithL_cons_false (Ne.symm hc0hash)
    have hbul : startsWithL ['-', ' ']
        (trimS (wsp ++ (d0 :: ds') ++ '.' :: w :: r)) = false := by
      rw [hT]
      exact startsWithL_cons_false (Ne.symm (digit_ne hd0 '-' (by decide)))
    have htw : ((d0 :: ds') ++ '.' :: w :: trimR r).takeWhile isDigitC = d0 :: ds' :=
      takeWhile_append_head _ hdig (by decide)
    have hdw : ((d0 :: ds') ++ '.' :: w :: trimR r).dropWhile isDigitC =
        '.' :: w :: trimR r :=
      dropWhile_append_head _ hdig (by decide)
    have hord : orderedTest (trimS (wsp ++ (d0 :: ds') ++ '.' :: w :: r)) = true := by
      rw [hT, orderedTest, htw, hdw]
      simp [hw]
    have hlab : orderedLabel ((d0 :: ds') ++ '.' :: w :: trimR r) =
        (d0 :: ds') ++ ['.'] := by
      rw [orderedLabel, takeWhile_append_head _ ?_ (by decide)]
      intro c hc
      simpa using digit_ne (hdig c hc) '.' (by decide)
    have hrest : orderedRest ((d0 :: ds') ++ '.' :: w :: trimR r) = trimR r := by
      rw [orderedRest, htw,
        show (d0 :: ds') ++ '.' :: w :: trimR r =
          ((d0 :: ds') ++ ['.', w]) ++ trimR r by simp,
        show (d0 :: ds').length + 2 = ((d0 :: ds') ++ ['.', w]).length by simp]
      exact List.drop_left _ _
    rw [renderLine]
    rw [if_neg (by rw [hT]; simp)]
    rw [if_neg (by rw [hh3]; simp)]
    rw [if_neg (by rw [hh2]; simp)]
    rw [if_neg (by rw [hh1]; simp)]
    rw [if_neg (by rw [hbul]; simp)]
    rw [if_pos hord]
    rw [hT, hlab, hrest]

/-- Claim C6 witness: the line made of `7. ` and `Do X` renders as an
ordered item with the literal label `7.`, not a recomputed `1.`. -/
theorem C6_witness :
    renderLine [] katexOff ("7. Do X".data) =
      Block.orderedItem ("7.".data) (renderSegment [] katexOff ("Do X".data)) := by
  have h := C6_theorem [] katexOff [] ['7'] ("Do X".data) ' '
    (by decide) (by decide) (by decide) (by decide) (by decide)
  simpa using h

/-! ## Claims C1, C2, C3: concrete counterexamples -/

/-- Claim C1 counterexample: for the input consisting of the three adjacent
inline spans `$a$`, `$b$`, `$c$`, tokenization mints two ids; the block pass
wrongly matches `$$b$$` across the span junctions, and the placeholder of
that display token ends up inside the content of the inline token.  With
the adapter not ready, the document renders one literal math span whose
visible text contains the raw placeholder id of token 0, and token 0 is
never resolved as a math span of its own — its id does not appear exactly
once in the output. -/
theorem C1_counterexample :
    (parsedContent ("$a$$b$$c$".data)).2.map Prod.fst = [tokenId 0, tokenId 1] ∧
    MarkdownRenderer katexOff ("$a$$b$$c$".data) =
      [Block.para [Span.plainText [], Span.mathLiteral ('a' :: (tokenId 0 ++ ['c'])),
        Span.plainText []]] := by
  constructor <;> decide

/-- Claim C2 counterexample: the input `$a$$$b$$` consists of one balanced
inline span with content `a` directly followed by one balanced display span
with content `b` (N = 1, M = 1, non-overlapping, valid); tokenization
produces one Display token with the wrong content `$b`, zero Inline tokens,
and the placeholder text retains a literal dollar sign. -/
theorem C2_counterexample :
    ("$a$$$b$$".data : List Char) =
      ('$' :: 'a' :: '$' :: []) ++ ('$' :: '$' :: 'b' :: '$' :: '$' :: []) ∧
    (parsedContent ("$a$$$b$$".data)).2.map (fun p => p.2.type) =
      [TokenType.mathDisplay] ∧
    (parsedContent ("$a$$$b$$".data)).2.map (fun p => p.2.content) = [['$', 'b']] ∧
    '$' ∈ (parsedContent ("$a$$$b$$".data)).1 := by
  refine ⟨by decide, by decide, by decide, by decide⟩

/-- Claim C3 counterexample: the id format can collide with naturally
occurring input text: for the input that literally starts with
`__MATH_TOKEN_0__` followed by the math span `$x$`, the tokenizer generates
exactly the id `__MATH_TOKEN_0__`, which occurs as a substring (here a
prefix) of the raw input outside the math span it replaces. -/
theorem C3_counterexample :
    ("__MATH_TOKEN_0__$x$".data : List Char) = tokenId 0 ++ ['$', 'x', '$'] ∧
    (parsedContent ("__MATH_TOKEN_0__$x$".data)).2.map Prod.fst = [tokenId 0] := by
  constructor <;> decide

/-! ## Claim C9: freshness of the token map across passes -/

theorem extractBlockMathAux_acc : ∀ (fuel : Nat) (toks : List (List Char × Token))
    (cnt : Nat) (l : List Char),
    extractBlockMathAux fuel toks cnt l =
      ((extractBlockMathAux fuel [] cnt l).1,
        toks ++ (extractBlockMathAux fuel [] cnt l).2.1,
        (extractBlockMathAux fuel [] cnt l).2.2) := by
  intro fuel
  induction fuel with
  | zero => intro toks cnt l; simp [extractBlockMathAux]
  | succ f ih =>
    intro toks cnt l
    cases hs : splitTwo '$' l with
    | none => simp [extractBlockMathAux, hs]
    | some p =>
      obtain ⟨pre, rest⟩ := p
      cases hs2 : splitTwoSkip '$' rest with
      | none => simp [extractBlockMathAux, hs, hs2]
      | some q =>
        obtain ⟨body, after⟩ := q
        simp only [extractBlockMathAux, hs, hs2, List.nil_append]
        rw [ih (toks ++ [(tokenId cnt, Token.mk TokenType.mathDisplay body (tokenId cnt))])
          (cnt + 1) after]
        rw [ih [(tokenId cnt, Token.mk TokenType.mathDisplay body (tokenId cnt))]
          (cnt + 1) after]
        simp

theorem extractInlineMathAux_acc : ∀ (fuel : Nat) (toks : List (List Char × Token))
    (cnt : Nat) (l : List Char),
    extractInlineMathAux fuel toks cnt l =
      ((extractInlineMathAux fuel [] cnt l).1,
        toks ++ (extractInlineMathAux fuel [] cnt l).2.1,
        (extractInlineMathAux fuel [] cnt l).2.2) := by
  intro fuel
  induction fuel with
  | zero => intro toks cnt l; simp [extractInlineMathAux]
  | succ f ih =>
    intro toks cnt l
    cases hs : findInlineMath l with
    | none => simp [extractInlineMathAux, hs]
    | some p =>
      obtain ⟨pre, run, after⟩ := p
      simp only [extractInlineMathAux, hs, List.nil_append]
      rw [ih (toks ++ [(tokenId cnt, Token.mk TokenType.mathInline run (tokenId cnt))])
        (cnt + 1) after]
      rw [ih [(tokenId cnt, Token.mk TokenType.mathInline run (tokenId cnt))]
        (cnt + 1) after]
      simp

theorem extractBlockMath_acc (toks : List (List Char × Token)) (cnt : Nat)
    (l : List Char) :
    extractBlockMath toks cnt l =
      ((extractBlockMath [] cnt l).1, toks ++ (extractBlockMath [] cnt l).2.1,
        (extractBlockMath [] cnt l).2.2) := by
  rw [extractBlockMath, extractBlockMath, extractBlockMathAux_acc]

theorem extractInlineMath_acc (toks : List (List Char × Token)) (cnt : Nat)
    (l : List Char) :
    extractInlineMath toks cnt l =
      ((extractInlineMath [] cnt l).1, toks ++ (extractInlineMath [] cnt l).2.1,
        (extractInlineMath [] cnt l).2.2) := by
  rw [extractInlineMath, extractInlineMath, extractInlineMathAux_acc]

theorem parsedContentFrom_acc (m : List (List Char × Token)) (cnt : Nat)
    (content : List Char) :
    parsedContentFrom m cnt content =
      ((parsedContentFrom [] cnt content).1,
        m ++ (parsedContentFrom [] cnt content).2) := by
  simp only [parsedContentFrom]
  rw [extractBlockMath_acc m cnt content]
  rw [extractInlineMath_acc
    (m ++ (extractBlockMath [] cnt content).2.1)
    (extractBlockMath [] cnt content).2.2
    (extractBlockMath [] cnt content).1]
  rw [extractInlineMath_acc
    (extractBlockMath [] cnt content).2.1
    (extractBlockMath [] cnt content).2.2
    (extractBlockMath [] cnt content).1]
  simp

/-- Claim C9: tokenization passes carry no state over from earlier runs.
The pass is generalized over the token-map state `m` it starts from; the
placeholder text and the newly minted token list — in particular their
number, kinds and source contents, in order — are independent of that
state, so re-tokenizing the same raw text with a fresh counter and a fresh
map (as the source does on every render: both are local to the memo body)
produces structurally equal token lists.  Ids are determined by the shared
fresh counter, which restarts at zero on each pass. -/
theorem C9_theorem (content : List Char) (cnt : Nat)
    (m1 m2 : List (List Char × Token)) :
    (parsedContentFrom m1 cnt content).1 = (parsedContentFrom m2 cnt content).1 ∧
    (parsedContentFrom m1 cnt content).2.drop m1.length =
      (parsedContentFrom m2 cnt content).2.drop m2.length ∧
    ((parsedContentFrom m1 cnt content).2.drop m1.length).map
        (fun p => (p.2.type, p.2.content)) =
      ((parsedContentFrom m2 cnt content).2.drop m2.length).map
        (fun p => (p.2.type, p.2.content)) := by
  rw [parsedContentFrom_acc m1 cnt content, parsedContentFrom_acc m2 cnt content]
  simp [List.drop_left]

/-! ## Claim C10: bold markers around a math span -/

/-- Claim C10 counterexample: for the input `**$x$**` the claim says no
BoldText span is produced and the `**` markers appear as literal plain-text
spans; the code instead emits an empty BoldText span on each side of the
resolved math span — the markers are consumed by the bold rule, not shown
literally. -/
theorem C10_counterexample :
    MarkdownRenderer katexOff ("**$x$**".data) =
      [Block.para [Span.boldText [], Span.mathLiteral ['x'], Span.boldText []]] := by
  decide

/-! ## Claim C8: unmatched bold markers -/

/-- Claim C8 counterexample: the claim says the characters of an unmatched
`**` marker appear unchanged as literal plain text; for the segment that is
exactly `**` the code's start/end test fires on the single unmatched marker
and emits an empty BoldText span, consuming the marker characters. -/
theorem C8_counterexample :
    renderSegment [] katexOff ("**".data) = [Span.boldText []] := by decide

theorem splitTwo_none_of_ne {ch : Char} : ∀ {l : List Char},
    (∀ c ∈ l, c ≠ ch) → splitTwo ch l = none := by
  intro l
  induction l with
  | nil => intro _h; rfl
  | cons c rest ih =>
    intro h
    cases rest with
    | nil => rfl
    | cons c2 rest2 =>
      rw [splitTwo, if_neg (fun hcc => h c (List.mem_cons_self _ _) hcc.1),
        ih (fun d hd => h d (List.mem_cons_of_mem _ hd))]

theorem findBold_none_of_ne : ∀ {l : List Char},
    (∀ c ∈ l, c ≠ '*') → findBold l = none := by
  intro l
  induction l with
  | nil => intro _h; rfl
  | cons c rest ih =>
    intro h
    cases rest with
    | nil => rfl
    | cons c2 rest2 =>
      rw [findBold, if_neg (fun hcc => h c (List.mem_cons_self _ _) hcc.1),
        ih (fun d hd => h d (List.mem_cons_of_mem _ hd))]

theorem findBold_star_cons {b : List Char} (hb : ∀ c ∈ b, c ≠ '*') :
    findBold ('*' :: b) = none := by
  cases b with
  | nil => rfl
  | cons c2 rest2 =>
    rw [findBold, if_neg (fun hcc => hb c2 (List.mem_cons_self _ _) hcc.2),
      findBold_none_of_ne hb]

theorem findBold_unmatched {a b : List Char} (ha : ∀ c ∈ a, c ≠ '*')
    (hb : ∀ c ∈ b, c ≠ '*') : findBold (a ++ '*' :: '*' :: b) = none := by
  induction a with
  | nil =>
    simp only [List.nil_append]
    have h1 : boldClose b = none := by
      rw [boldClose, splitTwo_none_of_ne hb]
    rw [findBold, if_pos ⟨rfl, rfl⟩, h1, findBold_star_cons hb]
  | cons c a' ih =>
    have hc : c ≠ '*' := ha c (List.mem_cons_self _ _)
    have ih' := ih (fun d hd => ha d (List.mem_cons_of_mem _ hd))
    cases ha' : a' ++ '*' :: '*' :: b with
    | nil => exact absurd ha' (by simp)
    | cons x xs =>
      rw [List.cons_append, ha', findBold, if_neg (fun hcc => hc hcc.1), ← ha', ih']

/-- A segment whose only stars are one unmatched `**` marker with marker-free
text on at least one side stays one unsplit literal plain-text span. -/
theorem boldSpans_unmatched_plain (a b : List Char)
    (ha : ∀ c ∈ a, c ≠ '*') (hb : ∀ c ∈ b, c ≠ '*') (hne : a ≠ [] ∨ b ≠ []) :
    boldSpans (a ++ '*' :: '*' :: b) = [Span.plainText (a ++ '*' :: '*' :: b)] := by
  rw [boldSpans, splitBold_none (findBold_unmatched ha hb)]
  simp only [List.map_cons, List.map_nil]
  rw [if_neg]
  intro hcond
  rw [Bool.and_eq_true] at hcond
  obtain ⟨h1, h2⟩ := hcond
  cases a with
  | cons c a' =>
    rw [List.cons_append,
      startsWithL_cons_false (Ne.symm (ha c (List.mem_cons_self _ _)))] at h1
    cases h1
  | nil =>
    cases hne with
    | inl h => exact absurd rfl h
    | inr h =>
      obtain ⟨bl, cb, hbc⟩ := (List.eq_nil_or_concat b).resolve_left h
      rw [List.concat_eq_append] at hbc
      subst hbc
      rw [List.nil_append, endsWithL] at h2
      rw [show ('*' :: '*' :: (bl ++ [cb])).reverse =
        cb :: (bl.reverse ++ ['*', '*']) by simp] at h2
      rw [show (['*', '*'] : List Char).reverse = ['*', '*'] from rfl] at h2
      rw [startsWithL_cons_false
        (Ne.symm (hb cb (by simp)))] at h2
      cases h2

/-- Claim C8, amended: a segment containing an unmatched `**` marker never
fails: the split finds no second delimiter and the segment stays one
unsplit part, emitted as a single span by the start/end `**` test -- the
unmatched marker characters appear unchanged as literal plain text when the
segment does not both start and end with `**` (in particular whenever
marker-free text precedes or follows the marker), while a segment that does
both start and end with `**` (the segment `**` itself, whose two tests
overlap on the same two characters, and likewise `***`) is emitted as a
BoldText span with its first and last two characters stripped, dropping the
marker characters. -/
theorem C8_amended_theorem :
    (∀ s : List Char, findBold s = none →
      boldSpans s =
        [if startsWithL ['*', '*'] s && endsWithL ['*', '*'] s then
          Span.boldText (sliceBold s) else Span.plainText s]) ∧
    (∀ a b : List Char, (∀ c ∈ a, c ≠ '*') → (∀ c ∈ b, c ≠ '*') →
      (a ≠ [] ∨ b ≠ []) →
      boldSpans (a ++ '*' :: '*' :: b) =
        [Span.plainText (a ++ '*' :: '*' :: b)]) ∧
    boldSpans ['*', '*'] = [Span.boldText []] ∧
    boldSpans ['*', '*', '*'] = [Span.boldText []] := by
  refine ⟨?_, boldSpans_unmatched_plain, by decide, by decide⟩
  intro s h
  rw [boldSpans, splitBold_none h]
  rfl

/-- Claim C8 amended witness: the segment made of `x` and a lone `**`
renders as the unchanged literal text. -/
theorem C8_amended_witness :
    boldSpans (['x'] ++ '*' :: '*' :: []) =
      [Span.plainText (['x'] ++ '*' :: '*' :: [])] :=
  C8_amended_theorem.2.1 ['x'] [] (by decide) (by decide) (Or.inl (by decide))

/-! ## Claim C5: marker stripping, amended -/

theorem replaceFirst_self {p0 : Char} (pt r : List Char) :
    replaceFirst (p0 :: pt) ((p0 :: pt) ++ r) = r := by
  rw [show (p0 :: pt) ++ r = p0 :: (pt ++ r) from rfl, replaceFirst]
  rw [if_pos (show startsWithL (p0 :: pt) (p0 :: (pt ++ r)) = true from
    startsWithL_append (p0 :: pt) r)]
  exact List.drop_left (p0 :: pt) r

/-- Claim C5, amended: for heading lines the recognized leading marker and
nothing else is stripped before inline rendering; for bullet lines without
indentation the leading `- ` and nothing else is stripped; for an indented
bullet line (whitespace before `- `) the line still classifies as a bullet
but the marker is not stripped and survives into the inline-rendered text;
for paragraph lines nothing is stripped. -/
theorem C5_amended_theorem (toks : List (List Char × Token)) (k : Katex) :
    (∀ r : List Char, renderLine toks k (['#', '#', '#', ' '] ++ r) =
      Block.heading 3 (renderSegment toks k r)) ∧
    (∀ r : List Char, renderLine toks k (['#', '#', ' '] ++ r) =
      Block.heading 2 (renderSegment toks k r)) ∧
    (∀ r : List Char, renderLine toks k (['#', ' '] ++ r) =
      Block.heading 1 (renderSegment toks k r)) ∧
    (∀ r : List Char, (∃ c ∈ r, isWS c = false) →
      renderLine toks k (['-', ' '] ++ r) =
        Block.bulletItem (renderSegment toks k r)) ∧
    (∀ w r : List Char, (∀ c ∈ w, isWS c = true) → w ≠ [] →
      (∃ c ∈ r, isWS c = false) →
      renderLine toks k (w ++ (['-', ' '] ++ r)) =
        Block.bulletItem (renderSegment toks k (w ++ (['-', ' '] ++ r)))) ∧
    (∀ line : List Char, classOf (renderLine toks k line) = LineClass.para →
      renderLine toks k line = Block.para (renderSegment toks k line)) := by
  refine ⟨?_, ?_, ?_, ?_, ?_, ?_⟩
  · intro r
    rw [renderLine,
      if_neg (trimS_ne_nil ⟨'#', by simp, by decide⟩),
      if_pos (startsWithL_append ['#', '#', '#', ' '] r),
      replaceFirst_self]
  · intro r
    rw [renderLine,
      if_neg (trimS_ne_nil ⟨'#', by simp, by decide⟩),
      if_neg (by simp [startsWithL]),
      if_pos (startsWithL_append ['#', '#', ' '] r),
      replaceFirst_self]
  · intro r
    rw [renderLine,
      if_neg (trimS_ne_nil ⟨'#', by simp, by decide⟩),
      if_neg (by simp [startsWithL]),
      if_neg (by simp [startsWithL]),
      if_pos (startsWithL_append ['#', ' '] r),
      replaceFirst_self]
  · intro r hr
    have hT : trimS (['-', ' '] ++ r) = ['-', ' '] ++ trimR r := by
      rw [trimS, show (['-', ' '] : List Char) ++ r = '-' :: (' ' :: r) from rfl,
        trimL_cons_noWS _ (by decide),
        show ('-' :: (' ' :: r) : List Char) = ['-', ' '] ++ r from rfl,
        trimR_append hr]
    rw [renderLine,
      if_neg (trimS_ne_nil ⟨'-', by simp, by decide⟩),
      if_neg (by simp [startsWithL]),
      if_neg (by simp [startsWithL]),
      if_neg (by simp [startsWithL]),
      if_pos (by rw [hT]; exact startsWithL_append ['-', ' '] (trimR r)),
      stripDash, if_pos (startsWithL_append ['-', ' '] r)]
    rfl
  · intro w r hw hwne hr
    cases w with
    | nil => exact absurd rfl hwne
    | cons u w' =>
      have hu : isWS u = true := hw u (List.mem_cons_self _ _)
      have hT : trimS ((u :: w') ++ (['-', ' '] ++ r)) = ['-', ' '] ++ trimR r := by
        rw [trimS, trimL_ws_prefix _ hw,
          show (['-', ' '] : List Char) ++ r = '-' :: (' ' :: r) from rfl,
          trimL_cons_noWS _ (by decide),
          show ('-' :: (' ' :: r) : List Char) = ['-', ' '] ++ r from rfl,
          trimR_append hr]
      rw [renderLine,
        if_neg (trimS_ne_nil ⟨'-', by simp, by decide⟩),
        if_neg (by rw [List.cons_append,
          startsWithL_cons_false (Ne.symm (ws_ne hu '#' (by decide)))]; simp),
        if_neg (by rw [List.cons_append,
          startsWithL_cons_false (Ne.symm (ws_ne hu '#' (by decide)))]; simp),
        if_neg (by rw [List.cons_append,
          startsWithL_cons_false (Ne.symm (ws_ne hu '#' (by decide)))]; simp),
        if_pos (by rw [hT]; exact startsWithL_append ['-', ' '] (trimR r)),
        stripDash, if_neg (by rw [List.cons_append,
          startsWithL_cons_false (Ne.symm (ws_ne hu '-' (by decide)))]; simp)]
  · intro line h
    rw [renderLine] at h ⊢
    split_ifs at h ⊢ <;> first | rfl | simp [classOf] at h

/-- Claim C5 amended witness: a level-3 heading line strips exactly its
marker, and an indented bullet line keeps its marker. -/
theorem C5_amended_witness :
    renderLine [] katexOff (['#', '#', '#', ' '] ++ ['T']) =
        Block.heading 3 (renderSegment [] katexOff ['T']) ∧
    (∀ c ∈ ([' ', ' '] : List Char), isWS c = true) ∧
    (∃ c ∈ (['x'] : List Char), isWS c = false) ∧
    renderLine [] katexOff ([' ', ' '] ++ (['-', ' '] ++ ['x'])) =
        Block.bulletItem (renderSegment [] katexOff ([' ', ' '] ++ (['-', ' '] ++ ['x']))) :=
  ⟨(C5_amended_theorem [] katexOff).1 ['T'], by decide, by decide,
    (C5_amended_theorem [] katexOff).2.2.2.2.1 [' ', ' '] ['x']
      (by decide) (by decide) (by decide)⟩

/-! ## Claim C3, amended -/

theorem extractBlockMathAux_keys : ∀ (fuel : Nat) (toks : List (List Char × Token))
    (cnt : Nat) (l : List Char),
    (∀ p ∈ toks, ∃ n, p.1 = tokenId n) →
    ∀ p ∈ (extractBlockMathAux fuel toks cnt l).2.1, ∃ n, p.1 = tokenId n := by
  intro fuel
  induction fuel with
  | zero =>
    intro toks cnt l h p hp
    rw [extractBlockMathAux] at hp
    exact h p hp
  | succ f ih =>
    intro toks cnt l h
    cases hs : splitTwo '$' l with
    | none =>
      intro p hp
      simp only [extractBlockMathAux, hs] at hp
      exact h p hp
    | some p =>
      obtain ⟨pre, rest⟩ := p
      cases hs2 : splitTwoSkip '$' rest with
      | none =>
        intro p hp
        simp only [extractBlockMathAux, hs, hs2] at hp
        exact h p hp
      | some q =>
        obtain ⟨body, after⟩ := q
        simp only [extractBlockMathAux, hs, hs2]
        refine ih _ (cnt + 1) after ?_
        intro p hp
        rcases List.mem_append.mp hp with h1 | h1
        · exact h p h1
        · simp at h1
          exact ⟨cnt, by rw [h1]⟩

theorem extractInlineMathAux_keys : ∀ (fuel : Nat) (toks : List (List Char × Token))
    (cnt : Nat) (l : List Char),
    (∀ p ∈ toks, ∃ n, p.1 = tokenId n) →
    ∀ p ∈ (extractInlineMathAux fuel toks cnt l).2.1, ∃ n, p.1 = tokenId n := by
  intro fuel
  induction fuel with
  | zero =>
    intro toks cnt l h p hp
    rw [extractInlineMathAux] at hp
    exact h p hp
  | succ f ih =>
    intro toks cnt l h
    cases hs : findInlineMath l with
    | none =>
      intro p hp
      simp only [extractInlineMathAux, hs] at hp
      exact h p hp
    | some p =>
      obtain ⟨pre, run, after⟩ := p
      simp only [extractInlineMathAux, hs]
      refine ih _ (cnt + 1) after ?_
      intro p hp
      rcases List.mem_append.mp hp with h1 | h1
      · exact h p h1
      · simp at h1
        exact ⟨cnt, by rw [h1]⟩

theorem parsedContent_keys (content : List Char) :
    ∀ p ∈ (parsedContent content).2, ∃ n, p.1 = tokenId n := by
  intro p hp
  rw [parsedContent, parsedContentFrom] at hp
  simp only at hp
  rw [extractInlineMath] at hp
  refine extractInlineMathAux_keys _ _ _ _ ?_ p hp
  intro q hq
  rw [extractBlockMath] at hq
  exact extractBlockMathAux_keys _ _ _ _ (by simp) q hq

/-- Claim C3, amended: the sentinel-based id format cannot collide with the
input unless the input itself contains the sentinel: for every input that
does not contain the substring `__MATH_TOKEN_`, no placeholder id generated
by the tokenizer occurs as a substring of the raw input at all. -/
theorem C3_amended_theorem (content : List Char) (h : ¬ sentinel <:+: content) :
    ∀ p ∈ (parsedContent content).2, ¬ p.1 <:+: content := by
  intro p hp hinf
  obtain ⟨n, hn⟩ := parsedContent_keys content p hp
  apply h
  have hsent : sentinel <:+: tokenId n :=
    ⟨[], natDigits n ++ ['_', '_'], by simp [tokenId]⟩
  exact hsent.trans (hn ▸ hinf)

/-- Claim C3 amended witness at the sentinel-free input `hello $x$`. -/
theorem C3_amended_witness :
    (¬ sentinel <:+: ("hello $x$".data)) ∧
    ∀ p ∈ (parsedContent ("hello $x$".data)).2, ¬ p.1 <:+: ("hello $x$".data) :=
  ⟨by decide, C3_amended_theorem ("hello $x$".data) (by decide)⟩

/-! ## Scanning lemmas for the tokenizer characterization -/

theorem charFree_iff {ch : Char} {l : List Char} :
    charFree ch l = true ↔ ∀ c ∈ l, c ≠ ch := by
  simp [charFree]

theorem splitTwo_cons_none {ch c c2 : Char} {rest : List Char}
    (h : splitTwo ch (c :: c2 :: rest) = none) :
    ¬(c = ch ∧ c2 = ch) ∧ splitTwo ch (c2 :: rest) = none := by
  rw [splitTwo] at h
  split at h
  · cases h
  · rename_i hcond
    refine ⟨hcond, ?_⟩
    cases hs : splitTwo ch (c2 :: rest) with
    | none => rfl
    | some p =>
      obtain ⟨a, b⟩ := p
      rw [hs] at h
      simp at h

theorem splitTwo_cons_some {ch c c2 : Char} {rest a b : List Char}
    (hcond : ¬(c = ch ∧ c2 = ch)) (h : splitTwo ch (c2 :: rest) = some (a, b)) :
    splitTwo ch (c :: c2 :: rest) = some (c :: a, b) := by
  rw [splitTwo, if_neg hcond, h]

theorem splitTwo_cons_nostep {ch c c2 : Char} {rest : List Char}
    (hcond : ¬(c = ch ∧ c2 = ch)) (h : splitTwo ch (c2 :: rest) = none) :
    splitTwo ch (c :: c2 :: rest) = none := by
  rw [splitTwo, if_neg hcond, h]

theorem splitTwo_none_append_single {ch : Char} : ∀ {a : List Char},
    (∀ c ∈ a, c ≠ ch) → splitTwo ch (a ++ [ch]) = none := by
  intro a
  induction a with
  | nil => intro _h; rfl
  | cons c a' ih =>
    intro h
    have hc : c ≠ ch := h c (List.mem_cons_self _ _)
    have ih' := ih (fun d hd => h d (List.mem_cons_of_mem _ hd))
    cases a' with
    | nil =>
      rw [show ([c] ++ [ch] : List Char) = c :: ch :: ([] : List Char) from rfl]
      exact splitTwo_cons_nostep (fun hcc => hc hcc.1) rfl
    | cons c2 a'' =>
      rw [show ((c :: c2 :: a'') ++ [ch] : List Char) =
        c :: ((c2 :: a'') ++ [ch]) from rfl]
      rw [show ((c2 :: a'') ++ [ch] : List Char) = c2 :: (a'' ++ [ch]) from rfl]
      exact splitTwo_cons_nostep (fun hcc => hc hcc.1)
        (by rw [show (c2 :: (a'' ++ [ch]) : List Char) = (c2 :: a'') ++ [ch] from rfl]
            exact ih')

theorem splitTwo_glue {ch : Char} : ∀ {x y : List Char},
    splitTwo ch (x ++ y.take 1) = none → splitTwo ch y = none →
    splitTwo ch (x ++ y) = none := by
  intro x
  induction x with
  | nil => intro y _h1 h2; simpa using h2
  | cons c x' ih =>
    intro y h1 h2
    cases x' with
    | nil =>
      cases y with
      | nil => rfl
      | cons y0 y' =>
        have hcond : ¬(c = ch ∧ y0 = ch) := by
          intro hcc
          rw [show (([c] ++ (y0 :: y').take 1) : List Char) = c :: y0 :: [] from rfl,
            splitTwo, if_pos hcc] at h1
          cases h1
        rw [show (([c] ++ y0 :: y') : List Char) = c :: y0 :: y' from rfl]
        exact splitTwo_cons_nostep hcond h2
    | cons c2 x'' =>
      have h1' : splitTwo ch (c :: ((c2 :: x'') ++ y.take 1)) = none := h1
      rw [show (c :: ((c2 :: x'') ++ y.take 1) : List Char) =
        c :: c2 :: (x'' ++ y.take 1) from rfl] at h1'
      obtain ⟨hcond, htail⟩ := splitTwo_cons_none h1'
      have ih' := ih htail h2
      rw [show (((c :: c2 :: x'') ++ y) : List Char) = c :: c2 :: (x'' ++ y) from rfl]
      exact splitTwo_cons_nostep hcond ih'

theorem splitTwo_prefix_none {ch : Char} : ∀ {x y : List Char},
    splitTwo ch (x ++ y) = none → splitTwo ch x = none := by
  intro x
  induction x with
  | nil => intro y _h; rfl
  | cons c x' ih =>
    intro y h
    cases x' with
    | nil => rfl
    | cons c2 x'' =>
      rw [show (((c :: c2 :: x'') ++ y) : List Char) = c :: c2 :: (x'' ++ y) from rfl] at h
      obtain ⟨hcond, htail⟩ := splitTwo_cons_none h
      exact splitTwo_cons_nostep hcond (ih htail)

theorem splitTwo_match {ch : Char} : ∀ {pre : List Char} (b : List Char),
    splitTwo ch (pre ++ [ch]) = none →
    splitTwo ch (pre ++ ch :: ch :: b) = some (pre, b) := by
  intro pre
  induction pre with
  | nil =>
    intro b _h
    rw [List.nil_append, splitTwo, if_pos ⟨rfl, rfl⟩]
  | cons c pre' ih =>
    intro b h
    cases pre' with
    | nil =>
      have hcond : ¬(c = ch ∧ ch = ch) := by
        intro hcc
        rw [show (([c] ++ [ch]) : List Char) = c :: ch :: [] from rfl,
          splitTwo, if_pos hcc] at h
        cases h
      rw [show (([c] ++ ch :: ch :: b) : List Char) = c :: ch :: ch :: b from rfl]
      exact splitTwo_cons_some hcond (by rw [splitTwo, if_pos ⟨rfl, rfl⟩])
    | cons c2 pre'' =>
      rw [show (((c :: c2 :: pre'') ++ [ch]) : List Char) =
        c :: c2 :: (pre'' ++ [ch]) from rfl] at h
      obtain ⟨hcond, htail⟩ := splitTwo_cons_none h
      have ih' := ih b (by
        rw [show ((c2 :: pre'') ++ [ch] : List Char) = c2 :: (pre'' ++ [ch]) from rfl]
        exact htail)
      rw [show (((c :: c2 :: pre'') ++ ch :: ch :: b) : List Char) =
        c :: c2 :: (pre'' ++ ch :: ch :: b) from rfl]
      refine splitTwo_cons_some hcond ?_
      exact ih'

theorem splitTwo_delim {ch : Char} {s : List Char} (hne : s ≠ [])
    (hfree : ∀ c ∈ s, c ≠ ch) : splitTwo ch (ch :: (s ++ [ch])) = none := by
  cases s with
  | nil => exact absurd rfl hne
  | cons s0 s' =>
    rw [show ((s0 :: s') ++ [ch] : List Char) = s0 :: (s' ++ [ch]) from rfl]
    refine splitTwo_cons_nostep (fun hcc => hfree s0 (List.mem_cons_self _ _) hcc.2) ?_
    rw [show (s0 :: (s' ++ [ch]) : List Char) = (s0 :: s') ++ [ch] from rfl]
    exact splitTwo_none_append_single hfree

theorem splitTwoSkip_match {ch : Char} {s : List Char} (b : List Char) (hne : s ≠ [])
    (hfree : ∀ c ∈ s, c ≠ ch) :
    splitTwoSkip ch (s ++ ch :: ch :: b) = some (s, b) := by
  cases s with
  | nil => exact absurd rfl hne
  | cons s0 s' =>
    rw [show ((s0 :: s') ++ ch :: ch :: b : List Char) =
      s0 :: (s' ++ ch :: ch :: b) from rfl, splitTwoSkip]
    rw [splitTwo_match b (splitTwo_none_append_single
      (fun d hd => hfree d (List.mem_cons_of_mem _ hd)))]

/-! ## Character facts about placeholder ids -/

theorem natDigitsAux_digits : ∀ (fuel n : Nat), ∀ c ∈ natDigitsAux fuel n,
    isDigitC c = true := by
  intro fuel
  induction fuel with
  | zero => intro n c hc; simp [natDigitsAux] at hc
  | succ f ih =>
    intro n c hc
    rw [natDigitsAux] at hc
    split at hc
    · rename_i hn
      simp only [List.mem_singleton] at hc
      subst hc
      interval_cases n <;> decide
    · rcases List.mem_append.mp hc with h1 | h1
      · exact ih _ c h1
      · simp only [List.mem_singleton] at h1
        subst h1
        have hm : n % 10 < 10 := Nat.mod_lt _ (by omega)
        set m := n % 10 with hdef
        interval_cases m <;> decide

theorem natDigits_digits (n : Nat) : ∀ c ∈ natDigits n, isDigitC c = true :=
  natDigitsAux_digits (n + 1) n

theorem natDigits_ne_nil (n : Nat) : natDigits n ≠ [] := by
  rw [natDigits_eq]
  split
  · simp
  · simp

theorem tokenId_chars {n : Nat} : ∀ c ∈ tokenId n,
    c = '_' ∨ ('A' ≤ c ∧ c ≤ 'Z') ∨ isDigitC c = true := by
  intro c hc
  rw [tokenId] at hc
  rcases List.mem_append.mp hc with h1 | h1
  · rcases List.mem_append.mp h1 with h2 | h2
    · simp only [sentinel, List.mem_cons, List.not_mem_nil, or_false] at h2
      rcases h2 with rfl | rfl | rfl | rfl | rfl | rfl | rfl | rfl | rfl | rfl | rfl |
        rfl | rfl <;> decide
    · exact Or.inr (Or.inr (natDigits_digits n c h2))
  · simp only [List.mem_cons, List.not_mem_nil, or_false] at h1
    rcases h1 with rfl | rfl <;> decide

theorem tokenId_char_facts {n : Nat} : ∀ c ∈ tokenId n,
    c ≠ '$' ∧ c ≠ '\n' ∧ isWS c = false ∧ inlineChar c = true := by
  intro c hc
  rcases tokenId_chars c hc with rfl | ⟨h1, h2⟩ | h1
  · exact ⟨by decide, by decide, by decide, by decide⟩
  · have hne : c ≠ '$' := by intro he; subst he; exact absurd h1 (by decide)
    have hnn : c ≠ '\n' := by intro he; subst he; exact absurd h1 (by decide)
    have hws : isWS c = false := by
      cases hw : isWS c
      · rfl
      · exfalso
        simp only [isWS, Bool.or_eq_true, beq_iff_eq] at hw
        rcases hw with ((((rfl | rfl) | rfl) | rfl) | rfl) | rfl <;>
          exact absurd h1 (by decide)
    refine ⟨hne, hnn, hws, ?_⟩
    simp [inlineChar, hne, hnn]
  · refine ⟨digit_ne h1 '$' (by decide), digit_ne h1 '\n' (by decide),
      digit_not_ws h1, ?_⟩
    simp [inlineChar, digit_ne h1 '$' (by decide), digit_ne h1 '\n' (by decide)]

theorem tokenId_dollarFree {n : Nat} : ∀ c ∈ tokenId n, c ≠ '$' :=
  fun c hc => (tokenId_char_facts c hc).1

theorem tokenId_nlFree {n : Nat} : ∀ c ∈ tokenId n, c ≠ '\n' :=
  fun c hc => (tokenId_char_facts c hc).2.1

/-! ## Inline scan lemmas -/

theorem splitTwo_cons_free {ch : Char} {w : List Char} (h : ∀ c ∈ w, c ≠ ch) :
    splitTwo ch (ch :: w) = none := by
  cases w with
  | nil => rfl
  | cons c w' =>
    exact splitTwo_cons_nostep (fun hcc => h c (List.mem_cons_self _ _) hcc.2)
      (splitTwo_none_of_ne h)

theorem findInlineMath_none_of_free : ∀ {l : List Char},
    (∀ c ∈ l, c ≠ '$') → findInlineMath l = none := by
  intro l
  induction l with
  | nil => intro _h; rfl
  | cons c rest ih =>
    intro h
    rw [findInlineMath, if_neg (h c (List.mem_cons_self _ _)),
      ih (fun d hd => h d (List.mem_cons_of_mem _ hd))]

theorem inlineClose_found {s tail : List Char} (hne : s ≠ [])
    (hall : ∀ c ∈ s, inlineChar c = true) :
    inlineClose (s ++ '$' :: tail) = some (s, tail) := by
  rw [inlineClose, takeWhile_append_head tail hall (by decide),
    dropWhile_append_head tail hall (by decide)]
  rw [if_pos ⟨hne, rfl⟩]
  rfl

theorem findInlineMath_found : ∀ {pre : List Char} (s tail : List Char),
    (∀ c ∈ pre, c ≠ '$') → s ≠ [] → (∀ c ∈ s, inlineChar c = true) →
    findInlineMath (pre ++ '$' :: (s ++ '$' :: tail)) = some (pre, s, tail) := by
  intro pre
  induction pre with
  | nil =>
    intro s tail _hp hne hall
    rw [List.nil_append, findInlineMath, if_pos rfl, inlineClose_found hne hall]
  | cons c pre' ih =>
    intro s tail hp hne hall
    rw [show ((c :: pre') ++ '$' :: (s ++ '$' :: tail) : List Char) =
      c :: (pre' ++ '$' :: (s ++ '$' :: tail)) from rfl, findInlineMath,
      if_neg (hp c (List.mem_cons_self _ _)),
      ih s tail (fun d hd => hp d (List.mem_cons_of_mem _ hd)) hne hall]

/-! ## Characterization of the two passes on well-formed documents -/

theorem validPiece_fields {p : Piece} (h : validPiece p = true) :
    p.src ≠ [] ∧ (∀ c ∈ p.src, c ≠ '$') ∧
      (p.display = false → ∀ c ∈ p.src, c ≠ '\n') ∧ ∀ c ∈ p.post, c ≠ '$' := by
  rw [validPiece] at h
  simp only [Bool.and_eq_true, Bool.or_eq_true] at h
  obtain ⟨⟨⟨h1, h2⟩, h3⟩, h4⟩ := h
  refine ⟨by simpa using h1, charFree_iff.mp h2, ?_, charFree_iff.mp h4⟩
  intro hd
  rcases h3 with h3 | h3
  · rw [hd] at h3; cases h3
  · exact charFree_iff.mp h3

theorem blockPass : ∀ (ps : List Piece) (pre : List Char)
    (toks : List (List Char × Token)) (cnt : Nat),
    splitTwo '$' (pre ++ ['$']) = none →
    (∀ p ∈ ps, validPiece p = true) → sepPieces ps = true →
    extractBlockMath toks cnt (pre ++ flattenPieces ps) =
      (pre ++ blockTextAux ps cnt, toks ++ blockToks ps cnt, cnt + ndisp ps) := by
  intro ps
  induction ps with
  | nil =>
    intro pre toks cnt hpre _hv _hs
    rw [flattenPieces, List.append_nil,
      extractBlockMath_none _ _ (splitTwo_prefix_none hpre)]
    simp [blockTextAux, blockToks, ndisp]
  | cons p rest ih =>
    intro pre toks cnt hpre hv hs
    obtain ⟨hsrc_ne, hsrc_free, _hsrc_nl, hpost_free⟩ :=
      validPiece_fields (hv p (List.mem_cons_self _ _))
    have hv' : ∀ q ∈ rest, validPiece q = true :=
      fun q hq => hv q (List.mem_cons_of_mem _ hq)
    have hsep' : sepPieces rest = true := by
      cases rest with
      | nil => rfl
      | cons q r =>
        simp only [sepPieces, Bool.and_eq_true] at hs
        exact hs.2
    by_cases hd : p.display = true
    · have hshape : pre ++ flattenPieces (p :: rest) =
          pre ++ '$' :: '$' :: (p.src ++ '$' :: '$' :: (p.post ++ flattenPieces rest)) := by
        rw [flattenPieces, flattenPiece, if_pos hd]
        simp
      rw [hshape]
      rw [extractBlockMath_step toks cnt (splitTwo_match _ hpre)
        (splitTwoSkip_match _ hsrc_ne hsrc_free)]
      rw [ih p.post _ (cnt + 1) (splitTwo_none_append_single hpost_free) hv' hsep']
      simp only [Prod.mk.injEq]
      refine ⟨?_, ?_, ?_⟩
      · simp [blockTextAux, hd]
      · simp [blockToks, hd]
      · have h3 : ndisp (p :: rest) = ndisp rest + 1 := by
          simp [ndisp, List.countP_cons, hd]
        rw [h3]
        omega
    · have hdf : p.display = false := by simpa using hd
      have hshape : pre ++ flattenPieces (p :: rest) =
          (pre ++ '$' :: (p.src ++ ['$']) ++ p.post) ++ flattenPieces rest := by
        rw [flattenPieces, flattenPiece, if_neg hd]
        simp
      rw [hshape]
      cases hrest : rest with
      | nil =>
        have hnone : splitTwo '$' ((pre ++ '$' :: (p.src ++ ['$']) ++ p.post) ++
            flattenPieces ([] : List Piece)) = none := by
          have h22 : splitTwo '$' ('$' :: p.post) = none :=
            splitTwo_cons_free hpost_free
          have h21 : splitTwo '$' (('$' :: p.src) ++ ('$' :: p.post).take 1) = none :=
            splitTwo_delim hsrc_ne hsrc_free
          have h2 : splitTwo '$' (('$' :: p.src) ++ ('$' :: p.post)) = none :=
            splitTwo_glue h21 h22
          have h1 : splitTwo '$'
              (pre ++ (('$' :: p.src) ++ ('$' :: p.post)).take 1) = none := hpre
          have hEQ : (pre ++ '$' :: (p.src ++ ['$']) ++ p.post) ++
              flattenPieces ([] : List Piece) =
              pre ++ (('$' :: p.src) ++ ('$' :: p.post)) := by
            rw [flattenPieces]
            simp
          rw [hEQ]
          exact splitTwo_glue h1 h2
        rw [extractBlockMath_none _ _ hnone]
        rw [flattenPieces, List.append_nil]
        simp [blockTextAux, blockToks, ndisp, hdf, List.countP_cons]
      | cons q r =>
        subst hrest
        have hpost_ne : p.post ≠ [] := by
          intro he
          rw [sepPieces, he] at hs
          simp at hs
        have hsafe : splitTwo '$'
            ((pre ++ '$' :: (p.src ++ ['$']) ++ p.post) ++ ['$']) = none := by
          have h22 : splitTwo '$' ('$' :: (p.post ++ ['$'])) = none :=
            splitTwo_delim hpost_ne hpost_free
          have h21 : splitTwo '$'
              (('$' :: p.src) ++ ('$' :: (p.post ++ ['$'])).take 1) = none :=
            splitTwo_delim hsrc_ne hsrc_free
          have h2 : splitTwo '$'
              (('$' :: p.src) ++ ('$' :: (p.post ++ ['$']))) = none :=
            splitTwo_glue h21 h22
          have h1 : splitTwo '$'
              (pre ++ (('$' :: p.src) ++ ('$' :: (p.post ++ ['$']))).take 1) = none := hpre
          have hEQ : (pre ++ '$' :: (p.src ++ ['$']) ++ p.post) ++ ['$'] =
              pre ++ (('$' :: p.src) ++ ('$' :: (p.post ++ ['$']))) := by simp
          rw [hEQ]
          exact splitTwo_glue h1 h2
        rw [ih (pre ++ '$' :: (p.src ++ ['$']) ++ p.post) toks cnt hsafe hv' hsep']
        simp [blockTextAux, blockToks, ndisp, hdf, List.countP_cons]

theorem inlinePass : ∀ (ps : List Piece) (pre : List Char)
    (toks : List (List Char × Token)) (dn en : Nat),
    (∀ c ∈ pre, c ≠ '$') → (∀ p ∈ ps, validPiece p = true) →
    extractInlineMath toks en (pre ++ blockTextAux ps dn) =
      (pre ++ phAux ps dn en, toks ++ inlineToks ps en, en + ninline ps) := by
  intro ps
  induction ps with
  | nil =>
    intro pre toks dn en hpre _hv
    rw [blockTextAux, List.append_nil,
      extractInlineMath_none _ _ (findInlineMath_none_of_free hpre)]
    simp [phAux, inlineToks, ninline]
  | cons p rest ih =>
    intro pre toks dn en hpre hv
    obtain ⟨hsrc_ne, hsrc_free, hsrc_nl, hpost_free⟩ :=
      validPiece_fields (hv p (List.mem_cons_self _ _))
    have hv' : ∀ q ∈ rest, validPiece q = true :=
      fun q hq => hv q (List.mem_cons_of_mem _ hq)
    by_cases hd : p.display = true
    · have hshape : pre ++ blockTextAux (p :: rest) dn =
          (pre ++ tokenId dn ++ p.post) ++ blockTextAux rest (dn + 1) := by
        rw [blockTextAux, if_pos hd]
        simp
      rw [hshape]
      have hpre' : ∀ c ∈ pre ++ tokenId dn ++ p.post, c ≠ '$' := by
        intro c hc
        rcases List.mem_append.mp hc with h1 | h1
        · rcases List.mem_append.mp h1 with h2 | h2
          · exact hpre c h2
          · exact tokenId_dollarFree c h2
        · exact hpost_free c h1
      rw [ih (pre ++ tokenId dn ++ p.post) toks (dn + 1) en hpre' hv']
      simp [phAux, inlineToks, ninline, hd, List.countP_cons]
    · have hdf : p.display = false := by simpa using hd
      have hall : ∀ c ∈ p.src, inlineChar c = true := by
        intro c hc
        simp [inlineChar, hsrc_free c hc, hsrc_nl hdf c hc]
      have hshape : pre ++ blockTextAux (p :: rest) dn =
          pre ++ '$' :: (p.src ++ '$' :: (p.post ++ blockTextAux rest dn)) := by
        rw [blockTextAux, if_neg hd]
        simp
      rw [hshape]
      rw [extractInlineMath_step toks en
        (findInlineMath_found p.src (p.post ++ blockTextAux rest dn) hpre hsrc_ne hall)]
      rw [ih p.post _ dn (en + 1) hpost_free hv']
      simp [phAux, inlineToks, ninline, hdf, List.countP_cons]
      omega

theorem parsedContent_flatten (d : SDoc) (h : wfDoc d = true) :
    parsedContent (flattenDoc d) =
      (d.pre ++ phAux d.pieces 0 (ndisp d.pieces),
        blockToks d.pieces 0 ++ inlineToks d.pieces (ndisp d.pieces)) := by
  rw [wfDoc] at h
  simp only [Bool.and_eq_true, List.all_eq_true] at h
  obtain ⟨⟨hpre, hval⟩, hsep⟩ := h
  have hunfold : parsedContent (flattenDoc d) =
      ((extractInlineMath (extractBlockMath [] 0 (flattenDoc d)).2.1
          (extractBlockMath [] 0 (flattenDoc d)).2.2
          (extractBlockMath [] 0 (flattenDoc d)).1).1,
        (extractInlineMath (extractBlockMath [] 0 (flattenDoc d)).2.1
          (extractBlockMath [] 0 (flattenDoc d)).2.2
          (extractBlockMath [] 0 (flattenDoc d)).1).2.1) := rfl
  rw [hunfold, flattenDoc]
  rw [blockPass d.pieces d.pre [] 0
    (splitTwo_none_append_single (charFree_iff.mp hpre)) hval hsep]
  simp only [List.nil_append, Nat.zero_add]
  rw [inlinePass d.pieces d.pre (blockToks d.pieces 0) 0 (ndisp d.pieces)
    (charFree_iff.mp hpre) hval]

theorem blockToks_count_display : ∀ (ps : List Piece) (n : Nat),
    (blockToks ps n).countP
      (fun t => decide (t.2.type = TokenType.mathDisplay)) = ndisp ps := by
  intro ps
  induction ps with
  | nil => intro n; rfl
  | cons p r ih =>
    intro n
    by_cases hd : p.display = true <;>
      simp [blockToks, ndisp, hd, List.countP_cons, ih]

theorem blockToks_count_inline : ∀ (ps : List Piece) (n : Nat),
    (blockToks ps n).countP
      (fun t => decide (t.2.type = TokenType.mathInline)) = 0 := by
  intro ps
  induction ps with
  | nil => intro n; rfl
  | cons p r ih =>
    intro n
    by_cases hd : p.display = true <;>
      simp [blockToks, hd, List.countP_cons, ih]

theorem inlineToks_count_display : ∀ (ps : List Piece) (n : Nat),
    (inlineToks ps n).countP
      (fun t => decide (t.2.type = TokenType.mathDisplay)) = 0 := by
  intro ps
  induction ps with
  | nil => intro n; rfl
  | cons p r ih =>
    intro n
    by_cases hd : p.display = true <;>
      simp [inlineToks, hd, List.countP_cons, ih]

theorem inlineToks_count_inline : ∀ (ps : List Piece) (n : Nat),
    (inlineToks ps n).countP
      (fun t => decide (t.2.type = TokenType.mathInline)) = ninline ps := by
  intro ps
  induction ps with
  | nil => intro n; rfl
  | cons p r ih =>
    intro n
    by_cases hd : p.display = true <;>
      simp [inlineToks, ninline, hd, List.countP_cons, ih]

theorem phAux_dollarFree : ∀ (ps : List Piece) (dn en : Nat),
    (∀ p ∈ ps, validPiece p = true) →
    ∀ c ∈ phAux ps dn en, c ≠ '$' := by
  intro ps
  induction ps with
  | nil =>
    intro dn en _hv c hc
    simp [phAux] at hc
  | cons p r ih =>
    intro dn en hv c hc
    obtain ⟨_, _, _, hpost⟩ := validPiece_fields (hv p (List.mem_cons_self _ _))
    have hv' : ∀ q ∈ r, validPiece q = true :=
      fun q hq => hv q (List.mem_cons_of_mem _ hq)
    rw [phAux] at hc
    by_cases hd : p.display = true
    · rw [if_pos hd] at hc
      rcases List.mem_append.mp hc with h1 | h1
      · rcases List.mem_append.mp h1 with h2 | h2
        · exact tokenId_dollarFree c h2
        · exact hpost c h2
      · exact ih (dn + 1) en hv' c h1
    · rw [if_neg hd] at hc
      rcases List.mem_append.mp hc with h1 | h1
      · rcases List.mem_append.mp h1 with h2 | h2
        · exact tokenId_dollarFree c h2
        · exact hpost c h2
      · exact ih dn (en + 1) hv' c h1

/-- C2 (amended): for a well-formed document -- plain text free of `$`,
each math span with a nonempty delimiter-free source, inline sources free of
newlines, and a nonempty stretch of plain text between consecutive spans --
the tokenizer produces exactly the document's display spans as Display
tokens followed by exactly its inline spans as Inline tokens (so the block
pass runs strictly before the inline pass), and the resulting placeholder
text contains no literal `$` character. -/
theorem C2_amended_theorem (d : SDoc) (h : wfDoc d = true) :
    (parsedContent (flattenDoc d)).2 =
      blockToks d.pieces 0 ++ inlineToks d.pieces (ndisp d.pieces) ∧
    (parsedContent (flattenDoc d)).2.countP
      (fun t => decide (t.2.type = TokenType.mathDisplay)) = ndisp d.pieces ∧
    (parsedContent (flattenDoc d)).2.countP
      (fun t => decide (t.2.type = TokenType.mathInline)) = ninline d.pieces ∧
    ∀ c ∈ (parsedContent (flattenDoc d)).1, c ≠ '$' := by
  have hPF := parsedContent_flatten d h
  rw [wfDoc] at h
  simp only [Bool.and_eq_true, List.all_eq_true] at h
  obtain ⟨⟨hpre, hval⟩, _hsep⟩ := h
  refine ⟨?_, ?_, ?_, ?_⟩
  · rw [hPF]
  · rw [hPF]
    simp only [List.countP_append, blockToks_count_display,
      inlineToks_count_display, Nat.add_zero]
  · rw [hPF]
    simp only [List.countP_append, blockToks_count_inline,
      inlineToks_count_inline, Nat.zero_add]
  · rw [hPF]
    intro c hc
    rcases List.mem_append.mp hc with h1 | h1
    · exact charFree_iff.mp hpre c h1
    · exact phAux_dollarFree d.pieces 0 (ndisp d.pieces) hval c h1

theorem C2_amended_witness :
    wfDoc sampleDoc = true ∧
    ((parsedContent (flattenDoc sampleDoc)).2 =
        blockToks sampleDoc.pieces 0 ++
          inlineToks sampleDoc.pieces (ndisp sampleDoc.pieces) ∧
      (parsedContent (flattenDoc sampleDoc)).2.countP
        (fun t => decide (t.2.type = TokenType.mathDisplay)) =
          ndisp sampleDoc.pieces ∧
      (parsedContent (flattenDoc sampleDoc)).2.countP
        (fun t => decide (t.2.type = TokenType.mathInline)) =
          ninline sampleDoc.pieces ∧
      ∀ c ∈ (parsedContent (flattenDoc sampleDoc)).1, c ≠ '$') :=
  ⟨by decide, C2_amended_theorem sampleDoc (by decide)⟩


/-! ## Substring machinery for the placeholder sentinel -/

theorem startsWithL_append_of (y : List Char) : ∀ {p a : List Char},
    startsWithL p a = true → startsWithL p (a ++ y) = true
  | [], _, _ => rfl
  | q :: ps, [], h => by simp [startsWithL] at h
  | q :: ps, c :: as, h => by
    rw [startsWithL] at h
    rw [List.cons_append, startsWithL]
    simp only [Bool.and_eq_true] at h ⊢
    exact ⟨h.1, startsWithL_append_of y h.2⟩

theorem startsWithL_of_append : ∀ {p a : List Char} (b : List Char),
    startsWithL p (a ++ b) = true → p.length ≤ a.length → startsWithL p a = true
  | [], _, _, _, _ => rfl
  | q :: ps, [], _, _, hlen => by simp at hlen
  | q :: ps, c :: as, b, h, hlen => by
    rw [List.cons_append, startsWithL] at h
    rw [startsWithL]
    simp only [Bool.and_eq_true] at h ⊢
    exact ⟨h.1, startsWithL_of_append b h.2 (by simpa using hlen)⟩

theorem hasSub_nil {pat : List Char} (hp : pat ≠ []) : hasSub pat [] = false := by
  cases pat with
  | nil => exact absurd rfl hp
  | cons q pt => rfl

theorem hasSub_append_false {pat : List Char} (hp : pat ≠ []) : ∀ {x y : List Char},
    hasSub pat (x ++ y) = false → hasSub pat x = false ∧ hasSub pat y = false := by
  intro x
  induction x with
  | nil => intro y h; exact ⟨hasSub_nil hp, h⟩
  | cons c x' ih =>
    intro y h
    rw [List.cons_append, hasSub, Bool.or_eq_false_iff] at h
    obtain ⟨h1, h2⟩ := h
    obtain ⟨h3, h4⟩ := ih h2
    refine ⟨?_, h4⟩
    rw [hasSub, Bool.or_eq_false_iff]
    refine ⟨?_, h3⟩
    cases hsw : startsWithL pat (c :: x') with
    | false => rfl
    | true =>
      have hmono := startsWithL_append_of y hsw
      rw [List.cons_append] at hmono
      exact absurd (h1.symm.trans hmono) (by decide)

theorem hasSub_take_false {pat : List Char} (hp : pat ≠ []) {l : List Char}
    (h : hasSub pat l = false) (n : Nat) : hasSub pat (l.take n) = false := by
  have h' : hasSub pat (l.take n ++ l.drop n) = false := by
    rw [List.take_append_drop]; exact h
  exact (hasSub_append_false hp h').1

theorem hasSub_drop_false {pat : List Char} (hp : pat ≠ []) {l : List Char}
    (h : hasSub pat l = false) (n : Nat) : hasSub pat (l.drop n) = false := by
  have h' : hasSub pat (l.take n ++ l.drop n) = false := by
    rw [List.take_append_drop]; exact h
  exact (hasSub_append_false hp h').2

theorem hasSub_trimL_false {pat : List Char} (hp : pat ≠ []) {l : List Char}
    (h : hasSub pat l = false) : hasSub pat (trimL l) = false := by
  have h' : hasSub pat (l.takeWhile isWS ++ l.dropWhile isWS) = false := by
    rw [List.takeWhile_append_dropWhile]; exact h
  exact (hasSub_append_false hp h').2

theorem trimR_decomp (l : List Char) :
    l = trimR l ++ (l.reverse.takeWhile isWS).reverse := by
  have h := @List.takeWhile_append_dropWhile Char isWS l.reverse
  have h3 : (l.reverse.dropWhile isWS).reverse ++ (l.reverse.takeWhile isWS).reverse = l := by
    rw [← List.reverse_append, h, List.reverse_reverse]
  rw [trimR]
  exact h3.symm

theorem hasSub_trimR_false {pat : List Char} (hp : pat ≠ []) {l : List Char}
    (h : hasSub pat l = false) : hasSub pat (trimR l) = false := by
  have h' : hasSub pat (trimR l ++ (l.reverse.takeWhile isWS).reverse) = false := by
    rw [← trimR_decomp]; exact h
  exact (hasSub_append_false hp h').1

theorem hasSub_trimS_false {pat : List Char} (hp : pat ≠ []) {l : List Char}
    (h : hasSub pat l = false) : hasSub pat (trimS l) = false :=
  hasSub_trimR_false hp (hasSub_trimL_false hp h)

theorem sentinel_ne_nil : sentinel ≠ [] := by decide

/-! ## The placeholder matcher on structured text -/

theorem matchTokenHere_tokenId (k : Nat) (x : List Char) :
    matchTokenHere (tokenId k ++ x) = some (tokenId k, x) := by
  have hassoc : tokenId k ++ x = sentinel ++ (natDigits k ++ ('_' :: '_' :: x)) := by
    rw [tokenId]; simp
  have hS : startsWithL sentinel (tokenId k ++ x) = true := by
    rw [hassoc]; exact startsWithL_append _ _
  have hdrop : (tokenId k ++ x).drop sentinel.length =
      natDigits k ++ ('_' :: '_' :: x) := by
    rw [hassoc]; exact List.drop_left _ _
  have htw : ((tokenId k ++ x).drop sentinel.length).takeWhile isDigitC =
      natDigits k := by
    rw [hdrop]
    exact takeWhile_append_head _ (natDigits_digits k) (by decide)
  have hdw : ((tokenId k ++ x).drop sentinel.length).dropWhile isDigitC =
      '_' :: '_' :: x := by
    rw [hdrop]
    exact dropWhile_append_head _ (natDigits_digits k) (by decide)
  have hcond : (((tokenId k ++ x).drop sentinel.length).takeWhile isDigitC) ≠ [] ∧
      startsWithL ['_', '_']
        (((tokenId k ++ x).drop sentinel.length).dropWhile isDigitC) = true := by
    rw [htw, hdw]
    exact ⟨natDigits_ne_nil k, startsWithL_append ['_', '_'] x⟩
  rw [matchTokenHere, if_pos hS, if_pos hcond, htw, hdw]
  simp [tokenId]

theorem matchTokenHere_not_start {l : List Char}
    (h : startsWithL sentinel l = false) : matchTokenHere l = none := by
  rw [matchTokenHere, if_neg]
  simp [h]


theorem matchTokenHere_cross (s : List Char) (k : Nat) (x : List Char)
    (hne : s ≠ []) (hsw : startsWithL sentinel s = false) :
    matchTokenHere (s ++ (tokenId k ++ x)) = none := by
  rw [matchTokenHere]
  by_cases hS : startsWithL sentinel (s ++ (tokenId k ++ x)) = true
  · by_cases hlen : sentinel.length ≤ s.length
    · exact absurd (startsWithL_of_append _ hS hlen)
        (by rw [hsw]; decide)
    · have hs1 : 1 ≤ s.length := List.length_pos.mpr hne
      have hs2 : s.length ≤ 12 := by
        have hsl : sentinel.length = 13 := rfl
        omega
      have heq := startsWithL_eq hS
      have hB : (s ++ (tokenId k ++ x)).take 13 = sentinel := by
        conv_lhs => rw [heq]
        exact List.take_left' rfl
      have htok : tokenId k ++ x =
          sentinel ++ (natDigits k ++ ('_' :: '_' :: x)) := by
        rw [tokenId]; simp
      have hKey : s ++ sentinel.take (13 - s.length) = sentinel := by
        rw [List.take_append_eq_append_take, htok,
          List.take_append_eq_append_take] at hB
        have h13 : sentinel.length = 13 := rfl
        rw [List.take_of_length_le (by omega)] at hB
        rw [show 13 - s.length - sentinel.length = 0 by omega] at hB
        simpa using hB
      have hA : s = sentinel.take s.length := by
        have := congrArg (List.take s.length) hKey
        rw [List.take_append_eq_append_take,
          List.take_of_length_le (Nat.le_refl _), Nat.sub_self] at this
        simpa using this
      obtain ⟨j, hj⟩ : ∃ j, s.length = j := ⟨s.length, rfl⟩
      rw [hj] at hs1 hs2 hKey hA
      interval_cases j
      · exact absurd hKey (by rw [hA]; decide)
      · exact absurd hKey (by rw [hA]; decide)
      · exact absurd hKey (by rw [hA]; decide)
      · exact absurd hKey (by rw [hA]; decide)
      · exact absurd hKey (by rw [hA]; decide)
      · exact absurd hKey (by rw [hA]; decide)
      · exact absurd hKey (by rw [hA]; decide)
      · exact absurd hKey (by rw [hA]; decide)
      · exact absurd hKey (by rw [hA]; decide)
      · exact absurd hKey (by rw [hA]; decide)
      · exact absurd hKey (by rw [hA]; decide)
      · subst hA
        have hnc : ¬ ((((sentinel.take 12 ++ (tokenId k ++ x)).drop
              sentinel.length).takeWhile isDigitC) ≠ [] ∧
            startsWithL ['_', '_'] (((sentinel.take 12 ++
              (tokenId k ++ x)).drop sentinel.length).dropWhile isDigitC) = true) := by
          intro hcond
          apply hcond.1
          rw [tokenId]
          rfl
        rw [if_pos hS, if_neg hnc]
  · rw [if_neg hS]


theorem findToken_head_some {l tok after : List Char} (hne : l ≠ [])
    (hm : matchTokenHere l = some (tok, after)) :
    findToken l = some ([], tok, after) := by
  cases l with
  | nil => exact absurd rfl hne
  | cons c r => simp only [findToken, hm]

theorem findToken_cons_none {c : Char} {r : List Char}
    (hm : matchTokenHere (c :: r) = none) :
    findToken (c :: r) = match findToken r with
      | none => none
      | some (pre, tok, after) => some (c :: pre, tok, after) := by
  simp only [findToken, hm]

theorem findToken_free : ∀ {p0 : List Char}, hasSub sentinel p0 = false →
    findToken p0 = none := by
  intro p0
  induction p0 with
  | nil => intro _h; rfl
  | cons c r ih =>
    intro h
    rw [hasSub, Bool.or_eq_false_iff] at h
    rw [findToken_cons_none (matchTokenHere_not_start h.1), ih h.2]

theorem findToken_prefix_free : ∀ {p0 : List Char} (k : Nat) (x : List Char),
    hasSub sentinel p0 = false →
    findToken (p0 ++ (tokenId k ++ x)) = some (p0, tokenId k, x) := by
  intro p0
  induction p0 with
  | nil =>
    intro k x _h
    rw [List.nil_append]
    refine findToken_head_some ?_ (matchTokenHere_tokenId k x)
    simp [tokenId, sentinel]
  | cons c r ih =>
    intro k x h
    rw [hasSub, Bool.or_eq_false_iff] at h
    have hcross : matchTokenHere (c :: (r ++ (tokenId k ++ x))) = none := by
      have := matchTokenHere_cross (c :: r) k x (by simp) h.1
      rwa [List.cons_append] at this
    rw [List.cons_append, findToken_cons_none hcross, ih k x h.2]

theorem splitTokens_buildLine : ∀ (segs : List (Nat × List Char)) (p0 : List Char),
    hasSub sentinel p0 = false →
    (∀ s ∈ segs, hasSub sentinel s.2 = false) →
    splitTokens (buildLine p0 segs) =
      p0 :: segs.flatMap (fun s => [tokenId s.1, s.2]) := by
  intro segs
  induction segs with
  | nil =>
    intro p0 h _hs
    rw [buildLine, splitTokens_none (findToken_free h)]
    simp
  | cons s rest ih =>
    obtain ⟨k, p⟩ := s
    intro p0 h hs
    have hf : findToken (buildLine p0 ((k, p) :: rest)) =
        some (p0, tokenId k, buildLine p rest) := by
      rw [buildLine, List.append_assoc]
      exact findToken_prefix_free k _ h
    rw [splitTokens_step hf]
    rw [ih p (hs (k, p) (List.mem_cons_self _ _))
      (fun s hsm => hs s (List.mem_cons_of_mem _ hsm))]
    simp

theorem hasSub_of_startsWith {pat l : List Char} (h : startsWithL pat l = true)
    (hp : pat ≠ []) : hasSub pat l = true := by
  cases l with
  | nil =>
    cases pat with
    | nil => exact absurd rfl hp
    | cons q pt => simp [startsWithL] at h
  | cons c r =>
    rw [hasSub, h]
    rfl

theorem hasSub_tokenId (m : Nat) : hasSub sentinel (tokenId m) = true := by
  refine hasSub_of_startsWith ?_ sentinel_ne_nil
  have ht : tokenId m = sentinel ++ (natDigits m ++ ['_', '_']) := by
    rw [tokenId]; simp
  rw [ht]
  exact startsWithL_append _ _

theorem lookupTok_sentinel_free {p : List Char} (hp : hasSub sentinel p = false) :
    ∀ {toks : List (List Char × Token)},
    (∀ e ∈ toks, ∃ m, e.1 = tokenId m) → lookupTok p toks = none := by
  intro toks
  induction toks with
  | nil => intro _h; rfl
  | cons e rest ih =>
    obtain ⟨key, t⟩ := e
    intro h
    obtain ⟨m, hm⟩ := h (key, t) (List.mem_cons_self _ _)
    replace hm : key = tokenId m := hm
    have hne : ¬ (key = p) := by
      intro hkp
      rw [hm] at hkp
      rw [← hkp] at hp
      exact absurd (hasSub_tokenId m) (by simp [hp])
    rw [lookupTok, if_neg hne, ih (fun e' he' => h e' (List.mem_cons_of_mem _ he'))]

theorem renderSegment_plain (toks : List (List Char × Token)) (kx : Katex)
    {x : List Char} (hx : hasSub sentinel x = false)
    (hkeys : ∀ e ∈ toks, ∃ m, e.1 = tokenId m) :
    renderSegment toks kx x = boldSpans x := by
  rw [renderSegment, splitTokens_none (findToken_free hx)]
  simp only [List.flatMap_cons, List.flatMap_nil, List.append_nil]
  rw [lookupTok_sentinel_free hx hkeys]

theorem renderSegment_buildLine (toks : List (List Char × Token)) (kx : Katex)
    (T : Nat → Token) : ∀ (qs : List (Nat × List Char)) (q0 : List Char),
    hasSub sentinel q0 = false →
    (∀ s ∈ qs, hasSub sentinel s.2 = false) →
    (∀ s ∈ qs, lookupTok (tokenId s.1) toks = some (T s.1)) →
    (∀ e ∈ toks, ∃ m, e.1 = tokenId m) →
    renderSegment toks kx (buildLine q0 qs) =
      boldSpans q0 ++
        qs.flatMap (fun s => renderMathSpan kx (T s.1) :: boldSpans s.2) := by
  intro qs
  induction qs with
  | nil =>
    intro q0 h0 _hfree _hlook hkeys
    rw [buildLine, renderSegment_plain toks kx h0 hkeys]
    simp
  | cons s rest ih =>
    obtain ⟨n, p⟩ := s
    intro q0 h0 hfree hlook hkeys
    have hf : findToken (buildLine q0 ((n, p) :: rest)) =
        some (q0, tokenId n, buildLine p rest) := by
      rw [buildLine, List.append_assoc]
      exact findToken_prefix_free n _ h0
    have hrest := ih p (hfree (n, p) (List.mem_cons_self _ _))
      (fun s hs => hfree s (List.mem_cons_of_mem _ hs))
      (fun s hs => hlook s (List.mem_cons_of_mem _ hs)) hkeys
    rw [renderSegment] at hrest ⊢
    rw [splitTokens_step hf]
    simp only [List.flatMap_cons]
    rw [lookupTok_sentinel_free h0 hkeys, hlook (n, p) (List.mem_cons_self _ _),
      hrest]
    simp


/-! ## Injectivity of the placeholder id and the token-map lookups -/

def digitsVal (l : List Char) : Nat :=
  l.foldl (fun a c => 10 * a + (c.toNat - 48)) 0

def tokAt (toks : List (List Char × Token)) (n : Nat) : Token :=
  match lookupTok (tokenId n) toks with
  | some t => t
  | none => ⟨.text, [], []⟩

/-- Document-order segments of the placeholder text: each math span's id
number paired with the plain text after it, numbered as the two passes
number them. -/
def docSegs : List Piece → Nat → Nat → List (Nat × List Char)
  | [], _, _ => []
  | p :: r, dn, en =>
    if p.display then (dn, p.post) :: docSegs r (dn + 1) en
    else (en, p.post) :: docSegs r dn (en + 1)

theorem digitsVal_append (a : List Char) (c : Char) :
    digitsVal (a ++ [c]) = 10 * digitsVal a + (c.toNat - 48) := by
  rw [digitsVal, digitsVal, List.foldl_append]
  rfl

theorem digitChar_val {m : Nat} (h : m < 10) : (digitChar m).toNat - 48 = m := by
  interval_cases m <;> decide

theorem digitsVal_natDigits : ∀ n, digitsVal (natDigits n) = n := by
  intro n
  induction n using Nat.strong_induction_on with
  | _ n ih =>
    rw [natDigits_eq]
    by_cases h : n < 10
    · rw [if_pos h]
      simp [digitsVal, digitChar_val h]
    · rw [if_neg h, digitsVal_append,
        ih (n / 10) (Nat.div_lt_self (by omega) (by omega)),
        digitChar_val (Nat.mod_lt _ (by omega))]
      omega

theorem natDigits_inj {a b : Nat} (h : natDigits a = natDigits b) : a = b := by
  have := congrArg digitsVal h
  rwa [digitsVal_natDigits, digitsVal_natDigits] at this

theorem tokenId_inj {a b : Nat} (h : tokenId a = tokenId b) : a = b := by
  rw [tokenId, tokenId] at h
  exact natDigits_inj
    (List.append_cancel_left (List.append_cancel_right h))

theorem lookupTok_cons_self (id : List Char) (t : Token)
    (rest : List (List Char × Token)) :
    lookupTok id ((id, t) :: rest) = some t := by
  rw [lookupTok, if_pos rfl]

theorem lookupTok_skip {id : List Char} : ∀ {t1 t2 : List (List Char × Token)},
    (∀ e ∈ t1, e.1 ≠ id) → lookupTok id (t1 ++ t2) = lookupTok id t2 := by
  intro t1
  induction t1 with
  | nil => intro t2 _h; rfl
  | cons e r ih =>
    obtain ⟨key, t⟩ := e
    intro t2 h
    rw [List.cons_append, lookupTok,
      if_neg (h (key, t) (List.mem_cons_self _ _)),
      ih (fun e' he' => h e' (List.mem_cons_of_mem _ he'))]

theorem lookupTok_middle {id key : List Char} {tk : Token} (hne : ¬ (key = id)) :
    ∀ (t1 t2 : List (List Char × Token)),
    lookupTok id (t1 ++ (key, tk) :: t2) = lookupTok id (t1 ++ t2) := by
  intro t1
  induction t1 with
  | nil =>
    intro t2
    rw [List.nil_append, lookupTok, if_neg hne, List.nil_append]
  | cons e r ih =>
    obtain ⟨k2, t⟩ := e
    intro t2
    simp only [List.cons_append, lookupTok, List.append_eq]
    rw [ih]

theorem blockToks_ids : ∀ (ps : List Piece) (n : Nat), ∀ e ∈ blockToks ps n,
    ∃ m, e.1 = tokenId m ∧ n ≤ m ∧ m < n + ndisp ps := by
  intro ps
  induction ps with
  | nil => intro n e he; simp [blockToks] at he
  | cons p r ih =>
    intro n e he
    rw [blockToks] at he
    by_cases hd : p.display = true
    · rw [if_pos hd] at he
      have hnd : ndisp (p :: r) = ndisp r + 1 := by
        simp [ndisp, List.countP_cons, hd]
      rcases List.mem_cons.mp he with rfl | hm
      · exact ⟨n, rfl, Nat.le_refl _, by omega⟩
      · obtain ⟨m, hm1, hm2, hm3⟩ := ih (n + 1) e hm
        exact ⟨m, hm1, by omega, by omega⟩
    · rw [if_neg hd] at he
      have hnd : ndisp (p :: r) = ndisp r := by
        simp [ndisp, List.countP_cons, hd]
      obtain ⟨m, hm1, hm2, hm3⟩ := ih n e he
      exact ⟨m, hm1, hm2, by omega⟩

theorem inlineToks_ids : ∀ (ps : List Piece) (n : Nat), ∀ e ∈ inlineToks ps n,
    ∃ m, e.1 = tokenId m ∧ n ≤ m ∧ m < n + ninline ps := by
  intro ps
  induction ps with
  | nil => intro n e he; simp [inlineToks] at he
  | cons p r ih =>
    intro n e he
    rw [inlineToks] at he
    by_cases hd : p.display = true
    · rw [if_pos hd] at he
      have hnd : ninline (p :: r) = ninline r := by
        simp [ninline, List.countP_cons, hd]
      obtain ⟨m, hm1, hm2, hm3⟩ := ih n e he
      exact ⟨m, hm1, hm2, by omega⟩
    · rw [if_neg hd] at he
      have hnd : ninline (p :: r) = ninline r + 1 := by
        simp [ninline, List.countP_cons, hd]
      rcases List.mem_cons.mp he with rfl | hm
      · exact ⟨n, rfl, Nat.le_refl _, by omega⟩
      · obtain ⟨m, hm1, hm2, hm3⟩ := ih (n + 1) e hm
        exact ⟨m, hm1, by omega, by omega⟩

theorem docToks_ids : ∀ (ps : List Piece) (dn en : Nat), ∀ e ∈ docToks ps dn en,
    ∃ m, e.1 = tokenId m ∧
      ((dn ≤ m ∧ m < dn + ndisp ps) ∨ (en ≤ m ∧ m < en + ninline ps)) := by
  intro ps
  induction ps with
  | nil => intro dn en e he; simp [docToks] at he
  | cons p r ih =>
    intro dn en e he
    rw [docToks] at he
    by_cases hd : p.display = true
    · rw [if_pos hd] at he
      have hnd : ndisp (p :: r) = ndisp r + 1 := by
        simp [ndisp, List.countP_cons, hd]
      have hni : ninline (p :: r) = ninline r := by
        simp [ninline, List.countP_cons, hd]
      rcases List.mem_cons.mp he with rfl | hm
      · exact ⟨dn, rfl, Or.inl ⟨Nat.le_refl _, by omega⟩⟩
      · obtain ⟨m, hm1, hm2⟩ := ih (dn + 1) en e hm
        rcases hm2 with ⟨ha, hb⟩ | ⟨ha, hb⟩
        · exact ⟨m, hm1, Or.inl ⟨by omega, by omega⟩⟩
        · exact ⟨m, hm1, Or.inr ⟨ha, by omega⟩⟩
    · rw [if_neg hd] at he
      have hnd : ndisp (p :: r) = ndisp r := by
        simp [ndisp, List.countP_cons, hd]
      have hni : ninline (p :: r) = ninline r + 1 := by
        simp [ninline, List.countP_cons, hd]
      rcases List.mem_cons.mp he with rfl | hm
      · exact ⟨en, rfl, Or.inr ⟨Nat.le_refl _, by omega⟩⟩
      · obtain ⟨m, hm1, hm2⟩ := ih dn (en + 1) e hm
        rcases hm2 with ⟨ha, hb⟩ | ⟨ha, hb⟩
        · exact ⟨m, hm1, Or.inl ⟨ha, by omega⟩⟩
        · exact ⟨m, hm1, Or.inr ⟨by omega, by omega⟩⟩


theorem docToks_lookup : ∀ (ps : List Piece) (dn en : Nat), dn + ndisp ps ≤ en →
    ∀ e ∈ docToks ps dn en,
    lookupTok e.1 (blockToks ps dn ++ inlineToks ps en) = some e.2 := by
  intro ps
  induction ps with
  | nil => intro dn en _h e he; simp [docToks] at he
  | cons p r ih =>
    intro dn en hsep e he
    by_cases hd : p.display = true
    · have hnd : ndisp (p :: r) = ndisp r + 1 := by
        simp [ndisp, List.countP_cons, hd]
      rw [docToks, if_pos hd] at he
      rw [blockToks, if_pos hd, inlineToks, if_pos hd, List.cons_append]
      rcases List.mem_cons.mp he with rfl | hm
      · exact lookupTok_cons_self _ _ _
      · obtain ⟨m, hm1, hm2⟩ := docToks_ids r (dn + 1) en e hm
        have hmne : ¬ (tokenId dn = e.1) := by
          rw [hm1]
          intro hcontra
          have := tokenId_inj hcontra
          omega
        rw [lookupTok, if_neg hmne]
        exact ih (dn + 1) en (by omega) e hm
    · have hnd : ndisp (p :: r) = ndisp r := by
        simp [ndisp, List.countP_cons, hd]
      rw [docToks, if_neg hd] at he
      rw [blockToks, if_neg hd, inlineToks, if_neg hd]
      rcases List.mem_cons.mp he with rfl | hm
      · rw [lookupTok_skip]
        · exact lookupTok_cons_self _ _ _
        · intro e' he'
          obtain ⟨m, hm1, hm2, hm3⟩ := blockToks_ids r dn e' he'
          rw [hm1]
          intro hcontra
          have := tokenId_inj hcontra
          omega
      · obtain ⟨m, hm1, hm2⟩ := docToks_ids r dn (en + 1) e hm
        have hmne : ¬ (tokenId en = e.1) := by
          rw [hm1]
          intro hcontra
          have := tokenId_inj hcontra
          omega
        rw [lookupTok_middle hmne]
        exact ih dn (en + 1) (by omega) e hm

theorem docToks_content_free : ∀ (ps : List Piece) (dn en : Nat),
    (∀ p ∈ ps, hasSub sentinel p.src = false) →
    ∀ e ∈ docToks ps dn en, hasSub sentinel e.2.content = false := by
  intro ps
  induction ps with
  | nil => intro dn en _h e he; simp [docToks] at he
  | cons p r ih =>
    intro dn en h e he
    rw [docToks] at he
    have hr : ∀ q ∈ r, hasSub sentinel q.src = false :=
      fun q hq => h q (List.mem_cons_of_mem _ hq)
    by_cases hd : p.display = true
    · rw [if_pos hd] at he
      rcases List.mem_cons.mp he with rfl | hm
      · exact h p (List.mem_cons_self _ _)
      · exact ih (dn + 1) en hr e hm
    · rw [if_neg hd] at he
      rcases List.mem_cons.mp he with rfl | hm
      · exact h p (List.mem_cons_self _ _)
      · exact ih dn (en + 1) hr e hm

theorem buildLine_docSegs : ∀ (ps : List Piece) (dn en : Nat) (p0 : List Char),
    buildLine p0 (docSegs ps dn en) = p0 ++ phAux ps dn en := by
  intro ps
  induction ps with
  | nil => intro dn en p0; rw [docSegs, buildLine, phAux, List.append_nil]
  | cons p r ih =>
    intro dn en p0
    rw [docSegs, phAux]
    by_cases hd : p.display = true
    · rw [if_pos hd, if_pos hd, buildLine, ih]
      simp
    · rw [if_neg hd, if_neg hd, buildLine, ih]
      simp

theorem docSegs_chunk_free : ∀ (ps : List Piece) (dn en : Nat),
    (∀ p ∈ ps, hasSub sentinel p.post = false) →
    ∀ s ∈ docSegs ps dn en, hasSub sentinel s.2 = false := by
  intro ps
  induction ps with
  | nil => intro dn en _h s hs; simp [docSegs] at hs
  | cons p r ih =>
    intro dn en h s hs
    rw [docSegs] at hs
    have hr : ∀ q ∈ r, hasSub sentinel q.post = false :=
      fun q hq => h q (List.mem_cons_of_mem _ hq)
    by_cases hd : p.display = true
    · rw [if_pos hd] at hs
      rcases List.mem_cons.mp hs with rfl | hm
      · exact h p (List.mem_cons_self _ _)
      · exact ih (dn + 1) en hr s hm
    · rw [if_neg hd] at hs
      rcases List.mem_cons.mp hs with rfl | hm
      · exact h p (List.mem_cons_self _ _)
      · exact ih dn (en + 1) hr s hm

theorem docSegs_mem_fst : ∀ (ps : List Piece) (dn en : Nat) (n : Nat),
    n ∈ (docSegs ps dn en).map Prod.fst →
    ∃ e ∈ docToks ps dn en, e.1 = tokenId n := by
  intro ps
  induction ps with
  | nil => intro dn en n hn; simp [docSegs] at hn
  | cons p r ih =>
    intro dn en n hn
    rw [docSegs] at hn
    by_cases hd : p.display = true
    · rw [if_pos hd] at hn
      rw [List.map_cons] at hn
      rcases List.mem_cons.mp hn with rfl | hm
      · exact ⟨(tokenId n, ⟨.mathDisplay, p.src, tokenId n⟩), by
          rw [docToks, if_pos hd]; exact List.mem_cons_self _ _, rfl⟩
      · obtain ⟨e, he, he1⟩ := ih (dn + 1) en n hm
        exact ⟨e, by rw [docToks, if_pos hd]; exact List.mem_cons_of_mem _ he, he1⟩
    · rw [if_neg hd] at hn
      rw [List.map_cons] at hn
      rcases List.mem_cons.mp hn with rfl | hm
      · exact ⟨(tokenId n, ⟨.mathInline, p.src, tokenId n⟩), by
          rw [docToks, if_neg hd]; exact List.mem_cons_self _ _, rfl⟩
      · obtain ⟨e, he, he1⟩ := ih dn (en + 1) n hm
        exact ⟨e, by rw [docToks, if_neg hd]; exact List.mem_cons_of_mem _ he, he1⟩

theorem tokAt_eq {toks : List (List Char × Token)} {n : Nat} {t : Token}
    (h : lookupTok (tokenId n) toks = some t) : tokAt toks n = t := by
  rw [tokAt, h]

theorem docSegs_spans (toks : List (List Char × Token)) (kx : Katex) :
    ∀ (ps : List Piece) (dn en : Nat),
    (∀ e ∈ docToks ps dn en, lookupTok e.1 toks = some e.2) →
    (docSegs ps dn en).map (fun s => renderMathSpan kx (tokAt toks s.1)) =
      (docToks ps dn en).map (fun e => renderMathSpan kx e.2) := by
  intro ps
  induction ps with
  | nil => intro dn en _h; rw [docSegs, docToks]; rfl
  | cons p r ih =>
    intro dn en hlk
    by_cases hd : p.display = true
    · rw [docSegs, docToks, if_pos hd, if_pos hd]
      rw [List.map_cons, List.map_cons]
      have hhead := hlk (tokenId dn, ⟨.mathDisplay, p.src, tokenId dn⟩) (by
        rw [docToks, if_pos hd]; exact List.mem_cons_self _ _)
      rw [ih (dn + 1) en (fun e he => hlk e (by
        rw [docToks, if_pos hd]; exact List.mem_cons_of_mem _ he))]
      rw [tokAt_eq hhead]
    · rw [docSegs, docToks, if_neg hd, if_neg hd]
      rw [List.map_cons, List.map_cons]
      have hhead := hlk (tokenId en, ⟨.mathInline, p.src, tokenId en⟩) (by
        rw [docToks, if_neg hd]; exact List.mem_cons_self _ _)
      rw [ih dn (en + 1) (fun e he => hlk e (by
        rw [docToks, if_neg hd]; exact List.mem_cons_of_mem _ he))]
      rw [tokAt_eq hhead]

theorem docToks_perm : ∀ (ps : List Piece) (dn en : Nat),
    (docToks ps dn en).Perm (blockToks ps dn ++ inlineToks ps en) := by
  intro ps
  induction ps with
  | nil => intro dn en; rw [docToks, blockToks, inlineToks]; rfl
  | cons p r ih =>
    intro dn en
    by_cases hd : p.display = true
    · rw [docToks, blockToks, inlineToks, if_pos hd, if_pos hd, if_pos hd,
        List.cons_append]
      exact (ih (dn + 1) en).cons _
    · rw [docToks, blockToks, inlineToks, if_neg hd, if_neg hd, if_neg hd]
      exact ((ih dn (en + 1)).cons _).trans (List.perm_middle).symm


/-! ## The bold pass produces no math spans and leaks no sentinel text -/

theorem splitBold_parts_free {pat : List Char} (hp : pat ≠ []) :
    ∀ (n : Nat) (l : List Char), l.length ≤ n → hasSub pat l = false →
    ∀ part ∈ splitBold l, hasSub pat part = false := by
  intro n
  induction n with
  | zero =>
    intro l hlen hfree part hpart
    have hl : l = [] := List.length_eq_zero.mp (by omega)
    subst hl
    have he : splitBold ([] : List Char) = [[]] := rfl
    rw [he] at hpart
    simp at hpart
    subst hpart
    exact hasSub_nil hp
  | succ n ih =>
    intro l hlen hfree part hpart
    cases hf : findBold l with
    | none =>
      rw [splitBold_none hf] at hpart
      simp at hpart
      subst hpart
      exact hfree
    | some trip =>
      obtain ⟨pre, rest⟩ := trip
      obtain ⟨cap, after⟩ := rest
      rw [splitBold_step hf] at hpart
      obtain ⟨heq, _⟩ := findBold_eq hf
      rw [heq] at hfree
      obtain ⟨h12, h3⟩ := hasSub_append_false hp hfree
      obtain ⟨h1, h2⟩ := hasSub_append_false hp h12
      have hlt := findBold_after_lt hf
      rcases List.mem_cons.mp hpart with rfl | hpart2
      · exact h1
      · rcases List.mem_cons.mp hpart2 with rfl | hpart3
        · exact h2
        · exact ih after (by omega) h3 part hpart3

theorem splitBold_free {pat : List Char} (hp : pat ≠ []) {l : List Char}
    (hfree : hasSub pat l = false) :
    ∀ part ∈ splitBold l, hasSub pat part = false :=
  splitBold_parts_free hp l.length l (Nat.le_refl _) hfree

theorem boldSpans_no_math (x : List Char) :
    (boldSpans x).filter isMathSpan = [] := by
  rw [boldSpans]
  induction splitBold x with
  | nil => rfl
  | cons a r ih =>
    rw [List.map_cons, List.filter_cons]
    have hno : isMathSpan (if startsWithL ['*', '*'] a && endsWithL ['*', '*'] a then
        Span.boldText (sliceBold a) else Span.plainText a) = false := by
      split <;> rfl
    rw [hno]
    simpa using ih

theorem boldSpans_visible_free {x : List Char} (hx : hasSub sentinel x = false) :
    ∀ sp ∈ boldSpans x, hasSub sentinel (visibleText sp) = false := by
  intro sp hsp
  rw [boldSpans] at hsp
  obtain ⟨sub, hsub, rfl⟩ := List.mem_map.mp hsp
  have hsubfree : hasSub sentinel sub = false :=
    splitBold_free sentinel_ne_nil hx sub hsub
  split
  · show hasSub sentinel (sliceBold sub) = false
    rw [sliceBold]
    exact hasSub_drop_false sentinel_ne_nil
      (hasSub_take_false sentinel_ne_nil hsubfree _) 2
  · exact hsubfree

theorem isMathSpan_renderMathSpan (kx : Katex) (t : Token) :
    isMathSpan (renderMathSpan kx t) = true := by
  rw [renderMathSpan]
  split
  · split <;> rfl
  · rfl

theorem renderMathSpan_visible_free {kx : Katex} {t : Token}
    (h : hasSub sentinel t.content = false) :
    hasSub sentinel (visibleText (renderMathSpan kx t)) = false := by
  rw [renderMathSpan]
  split
  · split
    · exact hasSub_nil sentinel_ne_nil
    · exact h
  · exact h

theorem filter_math_parts (kx : Katex) (T : Nat → Token) :
    ∀ (qs : List (Nat × List Char)),
    ((qs.flatMap fun s => renderMathSpan kx (T s.1) :: boldSpans s.2).filter
      isMathSpan) = qs.map (fun s => renderMathSpan kx (T s.1)) := by
  intro qs
  induction qs with
  | nil => rfl
  | cons s r ih =>
    rw [List.flatMap_cons, List.filter_append, List.filter_cons,
      isMathSpan_renderMathSpan, boldSpans_no_math, ih, List.map_cons]
    rfl

theorem segment_spans_math (kx : Katex) (T : Nat → Token)
    (q0 : List Char) (qs : List (Nat × List Char)) :
    ((boldSpans q0 ++
        qs.flatMap fun s => renderMathSpan kx (T s.1) :: boldSpans s.2).filter
      isMathSpan) = qs.map (fun s => renderMathSpan kx (T s.1)) := by
  rw [List.filter_append, boldSpans_no_math, filter_math_parts, List.nil_append]

theorem segment_spans_visible (kx : Katex) (T : Nat → Token)
    {q0 : List Char} {qs : List (Nat × List Char)}
    (h0 : hasSub sentinel q0 = false)
    (hfree : ∀ s ∈ qs, hasSub sentinel s.2 = false)
    (hcont : ∀ s ∈ qs, hasSub sentinel (T s.1).content = false) :
    ∀ sp ∈ boldSpans q0 ++
        (qs.flatMap fun s => renderMathSpan kx (T s.1) :: boldSpans s.2),
      hasSub sentinel (visibleText sp) = false := by
  intro sp hsp
  rcases List.mem_append.mp hsp with h1 | h1
  · exact boldSpans_visible_free h0 sp h1
  · obtain ⟨s, hs, hsp2⟩ := List.mem_flatMap.mp h1
    rcases List.mem_cons.mp hsp2 with rfl | h2
    · exact renderMathSpan_visible_free (hcont s hs)
    · exact boldSpans_visible_free (hfree s hs) sp h2


/-! ## Newline splitting of structured text -/

theorem splitNlP_cons (c : Char) (r : List Char) :
    splitNlP (c :: r) = if c = '\n' then ([], (splitNlP r).1 :: (splitNlP r).2)
      else (c :: (splitNlP r).1, (splitNlP r).2) := rfl

theorem splitNlP_free : ∀ {l : List Char}, charFree '\n' l = true →
    splitNlP l = (l, []) := by
  intro l
  induction l with
  | nil => intro _h; rfl
  | cons c r ih =>
    intro h
    simp only [charFree, List.all_cons, Bool.and_eq_true] at h
    have hc : ¬ (c = '\n') := by simpa using h.1
    rw [splitNlP_cons, if_neg hc, ih h.2]

theorem splitNlP_append_free : ∀ (a b : List Char), charFree '\n' a = true →
    splitNlP (a ++ b) = (a ++ (splitNlP b).1, (splitNlP b).2) := by
  intro a
  induction a with
  | nil => intro b _h; rfl
  | cons c a' ih =>
    intro b h
    simp only [charFree, List.all_cons, Bool.and_eq_true] at h
    have hc : ¬ (c = '\n') := by simpa using h.1
    rw [List.cons_append, splitNlP_cons, if_neg hc, ih b h.2]
    rfl

theorem splitNlP_nl (a b : List Char) (h : charFree '\n' a = true) :
    splitNlP (a ++ '\n' :: b) = (a, (splitNlP b).1 :: (splitNlP b).2) := by
  rw [splitNlP_append_free a _ h, splitNlP_cons, if_pos rfl]
  simp

theorem charFree_append {ch : Char} {a b : List Char} (ha : charFree ch a = true)
    (hb : charFree ch b = true) : charFree ch (a ++ b) = true := by
  simp only [charFree, List.all_append, Bool.and_eq_true]
  exact ⟨ha, hb⟩

theorem tokenId_nl_charFree (n : Nat) : charFree '\n' (tokenId n) = true := by
  simp only [charFree, List.all_eq_true]
  intro c hc
  simpa using tokenId_nlFree c hc


theorem splitSTAux_irrel : ∀ (f1 f2 : Nat) (p0 : List Char)
    (segs : List (Nat × List Char)), stMeasure p0 segs < f1 →
    stMeasure p0 segs < f2 → splitSTAux f1 p0 segs = splitSTAux f2 p0 segs := by
  intro f1
  induction f1 with
  | zero => intro f2 p0 segs h1 _h2; omega
  | succ f ih =>
    intro f2 p0 segs h1 h2
    cases f2 with
    | zero => omega
    | succ f2' =>
      cases segs with
      | nil =>
        rw [splitSTAux, splitSTAux]
        cases hsp : splitAtNl p0 with
        | some pr =>
          obtain ⟨a, b⟩ := pr
          obtain ⟨he, _⟩ := splitAtNl_eq hsp
          have hlt : stMeasure b ([] : List (Nat × List Char)) <
              stMeasure p0 [] := by
            rw [he]
            simp only [stMeasure, List.length_append, List.length_cons]
            omega
          simp only [hsp]
          rw [ih f2' b [] (by omega) (by omega)]
        | none => simp only [hsp]
      | cons s rest =>
        obtain ⟨k, p⟩ := s
        rw [splitSTAux, splitSTAux]
        cases hsp : splitAtNl p0 with
        | some pr =>
          obtain ⟨a, b⟩ := pr
          obtain ⟨he, _⟩ := splitAtNl_eq hsp
          have hlt : stMeasure b ((k, p) :: rest) <
              stMeasure p0 ((k, p) :: rest) := by
            rw [he]
            simp only [stMeasure, List.length_append, List.length_cons]
            omega
          simp only [hsp]
          rw [ih f2' b ((k, p) :: rest) (by omega) (by omega)]
        | none =>
          have hlt : stMeasure p rest < stMeasure p0 ((k, p) :: rest) := by
            simp only [stMeasure, List.map_cons, List.sum_cons, List.length_cons]
            omega
          simp only [hsp]
          rw [ih f2' p rest (by omega) (by omega)]

theorem splitST_some {p0 a b : List Char} {segs : List (Nat × List Char)}
    (h : splitAtNl p0 = some (a, b)) :
    splitST p0 segs = (a, []) :: splitST b segs := by
  obtain ⟨he, _⟩ := splitAtNl_eq h
  have hlt : stMeasure b segs < stMeasure p0 segs := by
    rw [he]
    simp only [stMeasure, List.length_append, List.length_cons]
    omega
  cases segs with
  | nil =>
    rw [splitST, splitSTAux]
    simp only [h]
    rw [splitST, splitSTAux_irrel (stMeasure p0 []) (stMeasure b [] + 1) b []
      (by omega) (by omega)]
  | cons s rest =>
    obtain ⟨k, p⟩ := s
    rw [splitST, splitSTAux]
    simp only [h]
    rw [splitST, splitSTAux_irrel (stMeasure p0 ((k, p) :: rest))
      (stMeasure b ((k, p) :: rest) + 1) b ((k, p) :: rest)
      (by omega) (by omega)]

theorem splitST_none_nil {p0 : List Char} (h : splitAtNl p0 = none) :
    splitST p0 [] = [(p0, [])] := by
  rw [splitST, splitSTAux]
  simp only [h]

theorem stCons_nil (p0 : List Char) (k : Nat) : stCons p0 k [] = [(p0, [])] := rfl

theorem stCons_cons (p0 : List Char) (k : Nat) (q0 : List Char)
    (qs : List (Nat × List Char))
    (more : List (List Char × List (Nat × List Char))) :
    stCons p0 k ((q0, qs) :: more) = (p0, (k, q0) :: qs) :: more := rfl

theorem splitST_none_cons {p0 : List Char} {k : Nat} {p : List Char}
    {rest : List (Nat × List Char)} (h : splitAtNl p0 = none) :
    splitST p0 ((k, p) :: rest) = stCons p0 k (splitST p rest) := by
  have hlt : stMeasure p rest < stMeasure p0 ((k, p) :: rest) := by
    simp only [stMeasure, List.map_cons, List.sum_cons, List.length_cons]
    omega
  rw [splitST, splitSTAux]
  simp only [h]
  rw [splitSTAux_irrel (stMeasure p0 ((k, p) :: rest))
    (stMeasure p rest + 1) p rest (by omega) (by omega)]
  rw [← splitST]

theorem splitST_ne_nil (p0 : List Char) (segs : List (Nat × List Char)) :
    splitST p0 segs ≠ [] := by
  cases hsp : splitAtNl p0 with
  | some pr =>
    obtain ⟨a, b⟩ := pr
    rw [splitST_some hsp]
    simp
  | none =>
    cases segs with
    | nil => rw [splitST_none_nil hsp]; simp
    | cons s rest =>
      obtain ⟨k, p⟩ := s
      rw [splitST_none_cons hsp]
      cases hsq : splitST p rest with
      | nil => rw [stCons_nil]; simp
      | cons ln more =>
        obtain ⟨q0, qs⟩ := ln
        rw [stCons_cons]
        simp


theorem hasSub_tail_false {pat : List Char} {c : Char} {r : List Char}
    (h : hasSub pat (c :: r) = false) : hasSub pat r = false := by
  rw [hasSub, Bool.or_eq_false_iff] at h
  exact h.2

theorem splitNl_buildLine_step {p0 : List Char} {k : Nat} {p : List Char}
    {rest : List (Nat × List Char)} (hsp : splitAtNl p0 = none)
    (hb : splitNl (buildLine p rest) =
      (splitST p rest).map (fun ln => buildLine ln.1 ln.2)) :
    splitNl (buildLine p0 ((k, p) :: rest)) =
      (splitST p0 ((k, p) :: rest)).map (fun ln => buildLine ln.1 ln.2) := by
  have hfree := splitAtNl_none hsp
  rw [splitST_none_cons hsp, buildLine, splitNl]
  cases hsq : splitST p rest with
  | nil => exact absurd hsq (splitST_ne_nil p rest)
  | cons ln more =>
    obtain ⟨q0, qs⟩ := ln
    rw [hsq, List.map_cons] at hb
    rw [splitNl] at hb
    injection hb with hb1 hb2
    have h1 : splitNlP ((p0 ++ tokenId k) ++ buildLine p rest) =
        ((p0 ++ tokenId k) ++ (splitNlP (buildLine p rest)).1,
          (splitNlP (buildLine p rest)).2) :=
      splitNlP_append_free _ _ (charFree_append hfree (tokenId_nl_charFree k))
    rw [stCons_cons, List.map_cons, h1, hb1, hb2]
    rfl

theorem splitNl_buildLine : ∀ (segs : List (Nat × List Char)) (p0 : List Char),
    splitNl (buildLine p0 segs) =
      (splitST p0 segs).map (fun ln => buildLine ln.1 ln.2) := by
  intro segs
  induction segs with
  | nil =>
    suffices hsuf : ∀ (n : Nat) (p0 : List Char), p0.length ≤ n →
        splitNl (buildLine p0 []) =
          (splitST p0 []).map (fun ln => buildLine ln.1 ln.2) by
      intro p0
      exact hsuf p0.length p0 (Nat.le_refl _)
    intro n
    induction n with
    | zero =>
      intro p0 hlen
      have hp : p0 = [] := List.length_eq_zero.mp (by omega)
      subst hp
      rw [buildLine,
        splitST_none_nil (show splitAtNl ([] : List Char) = none from rfl),
        splitNl,
        splitNlP_free (show charFree '\n' ([] : List Char) = true from rfl)]
      rfl
    | succ n ihn =>
      intro p0 hlen
      cases hsp : splitAtNl p0 with
      | none =>
        rw [buildLine, splitST_none_nil hsp, splitNl,
          splitNlP_free (splitAtNl_none hsp)]
        rfl
      | some pr =>
        obtain ⟨a, b⟩ := pr
        obtain ⟨he, hfree⟩ := splitAtNl_eq hsp
        rw [buildLine, splitST_some hsp]
        have hlenb : b.length ≤ n := by
          have hl2 : p0.length = a.length + (b.length + 1) := by
            rw [he]; simp
          omega
        have hb := ihn b hlenb
        rw [buildLine] at hb
        subst he
        rw [splitNl, splitNlP_nl a b hfree, List.map_cons]
        show a :: splitNl b =
          buildLine a [] :: (splitST b []).map (fun ln => buildLine ln.1 ln.2)
        rw [hb]
        rfl
  | cons s rest ihs =>
    obtain ⟨k, p⟩ := s
    suffices hsuf : ∀ (n : Nat) (p0 : List Char), p0.length ≤ n →
        splitNl (buildLine p0 ((k, p) :: rest)) =
          (splitST p0 ((k, p) :: rest)).map (fun ln => buildLine ln.1 ln.2) by
      intro p0
      exact hsuf p0.length p0 (Nat.le_refl _)
    intro n
    induction n with
    | zero =>
      intro p0 hlen
      have hp : p0 = [] := List.length_eq_zero.mp (by omega)
      subst hp
      exact splitNl_buildLine_step rfl (ihs p)
    | succ n ihn =>
      intro p0 hlen
      cases hsp : splitAtNl p0 with
      | none => exact splitNl_buildLine_step hsp (ihs p)
      | some pr =>
        obtain ⟨a, b⟩ := pr
        obtain ⟨he, hfree⟩ := splitAtNl_eq hsp
        rw [buildLine, splitST_some hsp]
        have hlenb : b.length ≤ n := by
          have hl2 : p0.length = a.length + (b.length + 1) := by
            rw [he]; simp
          omega
        have hb := ihn b hlenb
        subst he
        rw [splitNl]
        have hshape : (a ++ '\n' :: b) ++ tokenId k ++ buildLine p rest =
            a ++ '\n' :: (b ++ tokenId k ++ buildLine p rest) := by simp
        rw [hshape, splitNlP_nl a _ hfree, List.map_cons]
        have hfold : b ++ tokenId k ++ buildLine p rest =
            buildLine b ((k, p) :: rest) := rfl
        rw [hfold]
        show a :: splitNl (buildLine b ((k, p) :: rest)) =
          buildLine a [] :: (splitST b ((k, p) :: rest)).map
            (fun ln => buildLine ln.1 ln.2)
        rw [hb]
        rfl


theorem splitST_ids_step {p0 : List Char} {k : Nat} {p : List Char}
    {rest : List (Nat × List Char)} (hsp : splitAtNl p0 = none)
    (hb : (splitST p rest).flatMap (fun ln => ln.2.map Prod.fst) =
      rest.map Prod.fst) :
    (splitST p0 ((k, p) :: rest)).flatMap (fun ln => ln.2.map Prod.fst) =
      ((k, p) :: rest).map Prod.fst := by
  rw [splitST_none_cons hsp]
  cases hsq : splitST p rest with
  | nil => exact absurd hsq (splitST_ne_nil p rest)
  | cons ln more =>
    obtain ⟨q0, qs⟩ := ln
    rw [hsq] at hb
    rw [stCons_cons]
    simp only [List.flatMap_cons, List.map_cons, List.cons_append] at hb ⊢
    rw [hb]

theorem splitST_ids : ∀ (segs : List (Nat × List Char)) (p0 : List Char),
    (splitST p0 segs).flatMap (fun ln => ln.2.map Prod.fst) =
      segs.map Prod.fst := by
  intro segs
  induction segs with
  | nil =>
    suffices hsuf : ∀ (n : Nat) (p0 : List Char), p0.length ≤ n →
        (splitST p0 []).flatMap (fun ln => ln.2.map Prod.fst) = [] by
      intro p0
      exact hsuf p0.length p0 (Nat.le_refl _)
    intro n
    induction n with
    | zero =>
      intro p0 hlen
      have hp : p0 = [] := List.length_eq_zero.mp (by omega)
      subst hp
      rw [splitST_none_nil (show splitAtNl ([] : List Char) = none from rfl)]
      rfl
    | succ n ihn =>
      intro p0 hlen
      cases hsp : splitAtNl p0 with
      | none =>
        rw [splitST_none_nil hsp]
        rfl
      | some pr =>
        obtain ⟨a, b⟩ := pr
        obtain ⟨he, _⟩ := splitAtNl_eq hsp
        rw [splitST_some hsp]
        have hlenb : b.length ≤ n := by
          have hl2 : p0.length = a.length + (b.length + 1) := by
            rw [he]; simp
          omega
        simp only [List.flatMap_cons, List.map_nil, List.nil_append]
        exact ihn b hlenb
  | cons s rest ihs =>
    obtain ⟨k, p⟩ := s
    suffices hsuf : ∀ (n : Nat) (p0 : List Char), p0.length ≤ n →
        (splitST p0 ((k, p) :: rest)).flatMap (fun ln => ln.2.map Prod.fst) =
          ((k, p) :: rest).map Prod.fst by
      intro p0
      exact hsuf p0.length p0 (Nat.le_refl _)
    intro n
    induction n with
    | zero =>
      intro p0 hlen
      have hp : p0 = [] := List.length_eq_zero.mp (by omega)
      subst hp
      exact splitST_ids_step rfl (ihs p)
    | succ n ihn =>
      intro p0 hlen
      cases hsp : splitAtNl p0 with
      | none => exact splitST_ids_step hsp (ihs p)
      | some pr =>
        obtain ⟨a, b⟩ := pr
        obtain ⟨he, _⟩ := splitAtNl_eq hsp
        rw [splitST_some hsp]
        have hlenb : b.length ≤ n := by
          have hl2 : p0.length = a.length + (b.length + 1) := by
            rw [he]; simp
          omega
        simp only [List.flatMap_cons, List.map_nil, List.nil_append]
        exact ihn b hlenb


theorem splitST_free_step {p0 : List Char} {k : Nat} {p : List Char}
    {rest : List (Nat × List Char)} (hsp : splitAtNl p0 = none)
    (h0 : hasSub sentinel p0 = false)
    (hb : ∀ ln ∈ splitST p rest, hasSub sentinel ln.1 = false ∧
      ∀ s ∈ ln.2, hasSub sentinel s.2 = false) :
    ∀ ln ∈ splitST p0 ((k, p) :: rest), hasSub sentinel ln.1 = false ∧
      ∀ s ∈ ln.2, hasSub sentinel s.2 = false := by
  rw [splitST_none_cons hsp]
  cases hsq : splitST p rest with
  | nil => exact absurd hsq (splitST_ne_nil p rest)
  | cons ln0 more =>
    obtain ⟨q0, qs⟩ := ln0
    rw [hsq] at hb
    rw [stCons_cons]
    intro ln hln
    rcases List.mem_cons.mp hln with rfl | hm
    · obtain ⟨hq0, hqs⟩ := hb (q0, qs) (List.mem_cons_self _ _)
      refine ⟨h0, ?_⟩
      intro s hs
      rcases List.mem_cons.mp hs with rfl | hs2
      · exact hq0
      · exact hqs s hs2
    · exact hb ln (List.mem_cons_of_mem _ hm)

theorem splitST_free : ∀ (segs : List (Nat × List Char)) (p0 : List Char),
    hasSub sentinel p0 = false →
    (∀ s ∈ segs, hasSub sentinel s.2 = false) →
    ∀ ln ∈ splitST p0 segs, hasSub sentinel ln.1 = false ∧
      ∀ s ∈ ln.2, hasSub sentinel s.2 = false := by
  intro segs
  induction segs with
  | nil =>
    suffices hsuf : ∀ (n : Nat) (p0 : List Char), p0.length ≤ n →
        hasSub sentinel p0 = false →
        ∀ ln ∈ splitST p0 [], hasSub sentinel ln.1 = false ∧
          ∀ s ∈ ln.2, hasSub sentinel s.2 = false by
      intro p0 h0 _hs
      exact hsuf p0.length p0 (Nat.le_refl _) h0
    intro n
    induction n with
    | zero =>
      intro p0 hlen h0 ln hln
      have hp : p0 = [] := List.length_eq_zero.mp (by omega)
      subst hp
      rw [splitST_none_nil (show splitAtNl ([] : List Char) = none from rfl)] at hln
      simp at hln
      subst hln
      exact ⟨h0, by intro s hs; simp at hs⟩
    | succ n ihn =>
      intro p0 hlen h0 ln hln
      cases hsp : splitAtNl p0 with
      | none =>
        rw [splitST_none_nil hsp] at hln
        simp at hln
        subst hln
        exact ⟨h0, by intro s hs; simp at hs⟩
      | some pr =>
        obtain ⟨a, b⟩ := pr
        obtain ⟨he, _⟩ := splitAtNl_eq hsp
        rw [splitST_some hsp] at hln
        have hab : hasSub sentinel a = false ∧ hasSub sentinel b = false := by
          rw [he] at h0
          obtain ⟨h1, h2⟩ := hasSub_append_false sentinel_ne_nil h0
          exact ⟨h1, hasSub_tail_false h2⟩
        have hlenb : b.length ≤ n := by
          have hl2 : p0.length = a.length + (b.length + 1) := by
            rw [he]; simp
          omega
        rcases List.mem_cons.mp hln with rfl | hm
        · exact ⟨hab.1, by intro s hs; simp at hs⟩
        · exact ihn b hlenb hab.2 ln hm
  | cons s0 rest ihs =>
    obtain ⟨k, p⟩ := s0
    suffices hsuf : ∀ (n : Nat) (p0 : List Char), p0.length ≤ n →
        hasSub sentinel p0 = false →
        (∀ s ∈ (k, p) :: rest, hasSub sentinel s.2 = false) →
        ∀ ln ∈ splitST p0 ((k, p) :: rest), hasSub sentinel ln.1 = false ∧
          ∀ s ∈ ln.2, hasSub sentinel s.2 = false by
      intro p0 h0 hs
      exact hsuf p0.length p0 (Nat.le_refl _) h0 hs
    intro n
    induction n with
    | zero =>
      intro p0 hlen h0 hs
      have hp : p0 = [] := List.length_eq_zero.mp (by omega)
      subst hp
      exact splitST_free_step rfl h0
        (ihs p (hs (k, p) (List.mem_cons_self _ _))
          (fun s hsm => hs s (List.mem_cons_of_mem _ hsm)))
    | succ n ihn =>
      intro p0 hlen h0 hs
      cases hsp : splitAtNl p0 with
      | none =>
        exact splitST_free_step hsp h0
          (ihs p (hs (k, p) (List.mem_cons_self _ _))
            (fun s hsm => hs s (List.mem_cons_of_mem _ hsm)))
      | some pr =>
        obtain ⟨a, b⟩ := pr
        obtain ⟨he, _⟩ := splitAtNl_eq hsp
        have hab : hasSub sentinel a = false ∧ hasSub sentinel b = false := by
          rw [he] at h0
          obtain ⟨h1, h2⟩ := hasSub_append_false sentinel_ne_nil h0
          exact ⟨h1, hasSub_tail_false h2⟩
        have hlenb : b.length ≤ n := by
          have hl2 : p0.length = a.length + (b.length + 1) := by
            rw [he]; simp
          omega
        intro ln hln
        rw [splitST_some hsp] at hln
        rcases List.mem_cons.mp hln with rfl | hm
        · exact ⟨hab.1, by intro s hsm; simp at hsm⟩
        · exact ihn b hlenb hab.2 hs ln hm


/-! ## Marker stripping on structured lines -/

/-- Trailing-whitespace trim applied to the last plain chunk of a line's
segments. -/
def trimLast : List (Nat × List Char) → List (Nat × List Char)
  | [] => []
  | [(k, p)] => [(k, trimR p)]
  | s :: rest => s :: trimLast rest

theorem tokenId_cons (k : Nat) : tokenId k =
    '_' :: (['_', 'M', 'A', 'T', 'H', '_', 'T', 'O', 'K', 'E', 'N', '_'] ++
      natDigits k ++ ['_', '_']) := rfl

theorem tokenId_has_nonws (k : Nat) : ∃ c ∈ tokenId k, isWS c = false := by
  refine ⟨'_', ?_, by decide⟩
  rw [tokenId]
  exact List.mem_append.mpr (Or.inl (List.mem_append.mpr (Or.inl (by decide))))

theorem takeWhile_append_stop {p : Char → Bool} {a : List Char} (b : List Char)
    (h : ∃ c ∈ a, p c = false) : (a ++ b).takeWhile p = a.takeWhile p := by
  induction a with
  | nil => simp at h
  | cons c a' ih =>
    by_cases hc : p c = true
    · have hex : ∃ d ∈ a', p d = false := by
        obtain ⟨d, hd, hpd⟩ := h
        rcases List.mem_cons.mp hd with rfl | hd2
        · rw [hc] at hpd; cases hpd
        · exact ⟨d, hd2, hpd⟩
      rw [List.cons_append]
      simp [List.takeWhile_cons, hc, ih hex]
    · have hcf : p c = false := by
        cases hpc : p c with
        | true => exact absurd hpc hc
        | false => rfl
      rw [List.cons_append]
      simp [List.takeWhile_cons, hcf]

theorem trimL_append_token (q0 : List Char) (k : Nat) (Y : List Char) :
    trimL (q0 ++ (tokenId k ++ Y)) = trimL q0 ++ (tokenId k ++ Y) := by
  by_cases h : ∃ c ∈ q0, isWS c = false
  · rw [trimL, dropWhile_append_stop _ h]
    rfl
  · have hall : ∀ c ∈ q0, isWS c = true := by
      intro c hc
      cases hw : isWS c with
      | false => exact absurd ⟨c, hc, hw⟩ h
      | true => rfl
    have h2 : trimL q0 = [] := by
      have h3 := dropWhile_append_all ([] : List Char) hall
      rw [List.append_nil] at h3
      rw [trimL, h3]
      rfl
    rw [trimL, dropWhile_append_all _ hall, h2, List.nil_append]
    rw [tokenId_cons k, List.cons_append, List.dropWhile_cons]
    simp [show isWS '_' = false from by decide]

theorem trimL_buildLine (q0 : List Char) (k : Nat) (p : List Char)
    (qs : List (Nat × List Char)) :
    trimL (buildLine q0 ((k, p) :: qs)) = buildLine (trimL q0) ((k, p) :: qs) := by
  rw [buildLine, buildLine]
  have h := trimL_append_token q0 k (buildLine p qs)
  rw [← List.append_assoc] at h
  rw [h, List.append_assoc, ← List.append_assoc]

theorem trimR_append_token (q0 Y : List Char) (k : Nat) :
    trimR ((q0 ++ tokenId k) ++ Y) = (q0 ++ tokenId k) ++ trimR Y := by
  by_cases h : ∃ c ∈ Y, isWS c = false
  · exact trimR_append h
  · have hall : ∀ c ∈ Y, isWS c = true := by
      intro c hc
      cases hw : isWS c with
      | false => exact absurd ⟨c, hc, hw⟩ h
      | true => rfl
    have hallrev : ∀ c ∈ Y.reverse, isWS c = true :=
      fun c hc => hall c (List.mem_reverse.mp hc)
    have htY : trimR Y = [] := by
      have h3 := dropWhile_append_all ([] : List Char) hallrev
      rw [List.append_nil] at h3
      rw [trimR, h3]
      rfl
    rw [htY, List.append_nil, trimR, List.reverse_append,
      dropWhile_append_all _ hallrev]
    have hrev : (q0 ++ tokenId k).reverse =
        '_' :: ((sentinel ++ natDigits k ++ ['_']).reverse ++ q0.reverse) := by
      rw [tokenId]
      simp [List.reverse_append]
    have hstop : List.dropWhile isWS ((q0 ++ tokenId k).reverse) =
        (q0 ++ tokenId k).reverse := by
      rw [hrev, List.dropWhile_cons]
      simp [show isWS '_' = false from by decide]
    rw [hstop, List.reverse_reverse]

theorem trimR_buildLine : ∀ (qs : List (Nat × List Char)) (q0 : List Char),
    qs ≠ [] → trimR (buildLine q0 qs) = buildLine q0 (trimLast qs) := by
  intro qs
  induction qs with
  | nil => intro q0 h; exact absurd rfl h
  | cons a rest ih =>
    obtain ⟨k, p⟩ := a
    intro q0 _h
    cases rest with
    | nil =>
      rw [show trimLast [(k, p)] = [(k, trimR p)] from rfl]
      rw [buildLine, buildLine, buildLine, buildLine]
      exact trimR_append_token q0 p k
    | cons b rest2 =>
      rw [show trimLast ((k, p) :: b :: rest2) = (k, p) :: trimLast (b :: rest2)
        from rfl]
      rw [buildLine]
      have hnonws : ∃ c ∈ buildLine p (b :: rest2), isWS c = false := by
        obtain ⟨kb, pb⟩ := b
        rw [buildLine]
        obtain ⟨c, hc, hw⟩ := tokenId_has_nonws kb
        exact ⟨c, List.mem_append.mpr
          (Or.inl (List.mem_append.mpr (Or.inr hc))), hw⟩
      rw [trimR_append hnonws, ih p (by simp)]
      rfl

theorem trimS_buildLine (q0 : List Char) (k : Nat) (p : List Char)
    (qs : List (Nat × List Char)) :
    trimS (buildLine q0 ((k, p) :: qs)) =
      buildLine (trimL q0) (trimLast ((k, p) :: qs)) := by
  rw [trimS, trimL_buildLine, trimR_buildLine ((k, p) :: qs) (trimL q0) (by simp)]

theorem buildLine_cons_ne_nil (q0 : List Char) (k : Nat) (p : List Char)
    (qs : List (Nat × List Char)) : buildLine q0 ((k, p) :: qs) ≠ [] := by
  rw [buildLine]
  simp [tokenId_cons k]

theorem trimLast_cons_shape : ∀ (a : Nat × List Char)
    (qs : List (Nat × List Char)), ∃ b qs2,
    trimLast (a :: qs) = (a.1, b) :: qs2 := by
  intro a qs
  obtain ⟨k, p⟩ := a
  cases qs with
  | nil => exact ⟨trimR p, [], rfl⟩
  | cons c rest => exact ⟨p, trimLast (c :: rest), rfl⟩

theorem trimLast_facts : ∀ (qs : List (Nat × List Char)),
    (trimLast qs).map Prod.fst = qs.map Prod.fst ∧
    ∀ s ∈ trimLast qs, ∃ s' ∈ qs, s.1 = s'.1 ∧
      (s.2 = s'.2 ∨ s.2 = trimR s'.2) := by
  intro qs
  induction qs with
  | nil => exact ⟨rfl, by intro s hs; simp [trimLast] at hs⟩
  | cons a rest ih =>
    cases rest with
    | nil =>
      obtain ⟨k, p⟩ := a
      refine ⟨rfl, ?_⟩
      intro s hs
      rw [show trimLast [(k, p)] = [(k, trimR p)] from rfl] at hs
      simp only [List.mem_singleton] at hs
      subst hs
      exact ⟨(k, p), List.mem_cons_self _ _, rfl, Or.inr rfl⟩
    | cons b rest2 =>
      have he : trimLast (a :: b :: rest2) = a :: trimLast (b :: rest2) := rfl
      rw [he]
      obtain ⟨ih1, ih2⟩ := ih
      refine ⟨by rw [List.map_cons, List.map_cons, ih1], ?_⟩
      intro s hs
      rcases List.mem_cons.mp hs with rfl | hm
      · exact ⟨s, List.mem_cons_self _ _, rfl, Or.inl rfl⟩
      · obtain ⟨s', hs', h1, h2⟩ := ih2 s hm
        exact ⟨s', List.mem_cons_of_mem _ hs', h1, h2⟩


theorem marker_within {pat : List Char} (hpat : ∀ c ∈ pat, c ≠ '_')
    {q0 : List Char} {k : Nat} {p : List Char} {qs : List (Nat × List Char)}
    (h : startsWithL pat (buildLine q0 ((k, p) :: qs)) = true) :
    pat.length ≤ q0.length := by
  by_contra hlt
  push_neg at hlt
  have heq := startsWithL_eq h
  have hdrop := congrArg (List.drop q0.length) heq
  rw [buildLine, List.append_assoc, List.drop_left,
    List.drop_append_eq_append_drop,
    show q0.length - pat.length = 0 from by omega, List.drop_zero] at hdrop
  cases hd : pat.drop q0.length with
  | nil =>
    have : pat.length ≤ q0.length := by
      have hlen := congrArg List.length hd
      simp at hlen
      omega
    omega
  | cons c cs =>
    rw [hd, List.cons_append, tokenId_cons k, List.cons_append] at hdrop
    injection hdrop with h1 _h2
    have hcmem : c ∈ pat := List.mem_of_mem_drop (hd ▸ List.mem_cons_self c cs)
    exact hpat c hcmem h1.symm

theorem drop_buildLine {q0 : List Char} (qs : List (Nat × List Char)) {j : Nat}
    (h : j ≤ q0.length) :
    (buildLine q0 qs).drop j = buildLine (q0.drop j) qs := by
  cases qs with
  | nil => rfl
  | cons s rest =>
    obtain ⟨k, p⟩ := s
    rw [buildLine, buildLine, List.append_assoc,
      List.drop_append_eq_append_drop,
      show j - q0.length = 0 from by omega, List.drop_zero, ← List.append_assoc]

theorem replaceFirst_startsWith {pat l : List Char} (hne : pat ≠ [])
    (h : startsWithL pat l = true) : replaceFirst pat l = l.drop pat.length := by
  cases l with
  | nil =>
    cases pat with
    | nil => exact absurd rfl hne
    | cons q pt => simp [startsWithL] at h
  | cons c r =>
    rw [replaceFirst, if_pos h]

theorem stripDash_free {l : List Char} (h : hasSub sentinel l = false) :
    hasSub sentinel (stripDash l) = false := by
  rw [stripDash]
  split
  · exact hasSub_drop_false sentinel_ne_nil h 2
  · exact h

theorem orderedRest_free {l : List Char} (h : hasSub sentinel l = false) :
    hasSub sentinel (orderedRest l) = false :=
  hasSub_drop_false sentinel_ne_nil h _

theorem orderedTest_elim {l : List Char} (h : orderedTest l = true) :
    ∃ w t, l.dropWhile isDigitC = '.' :: w :: t ∧ isWS w = true := by
  rw [orderedTest] at h
  simp only [Bool.and_eq_true] at h
  obtain ⟨_h1, h2⟩ := h
  split at h2
  · rename_i w t heq
    exact ⟨w, t, heq, h2⟩
  · exact absurd h2 (by decide)

theorem orderedRest_buildLine {q0 : List Char} {k : Nat} {p : List Char}
    {qs : List (Nat × List Char)}
    (h : orderedTest (buildLine q0 ((k, p) :: qs)) = true) :
    ∃ j, j ≤ q0.length ∧ orderedRest (buildLine q0 ((k, p) :: qs)) =
      buildLine (q0.drop j) ((k, p) :: qs) := by
  obtain ⟨w, t, hdwe, hw⟩ := orderedTest_elim h
  rw [buildLine, List.append_assoc] at hdwe
  by_cases hex : ∃ c ∈ q0, isDigitC c = false
  · rw [dropWhile_append_stop _ hex] at hdwe
    cases hdw : q0.dropWhile isDigitC with
    | nil =>
      exfalso
      rw [hdw, List.nil_append, tokenId_cons k, List.cons_append] at hdwe
      injection hdwe with e1 _
      exact absurd e1 (by decide)
    | cons d tail =>
      rw [hdw, List.cons_append] at hdwe
      injection hdwe with e1 e2
      subst e1
      cases tail with
      | nil =>
        exfalso
        rw [List.nil_append, tokenId_cons k, List.cons_append] at e2
        injection e2 with e3 _
        rw [← e3] at hw
        exact absurd hw (by decide)
      | cons w2 tail2 =>
        rw [List.cons_append] at e2
        injection e2 with e3 _e4
        have hq0 : q0 = q0.takeWhile isDigitC ++ '.' :: w2 :: tail2 := by
          conv_lhs => rw [← @List.takeWhile_append_dropWhile Char isDigitC q0]
          rw [hdw]
        have hlen : (q0.takeWhile isDigitC).length + 2 ≤ q0.length := by
          have hc := congrArg List.length hq0
          simp only [List.length_append, List.length_cons] at hc
          omega
        refine ⟨(q0.takeWhile isDigitC).length + 2, hlen, ?_⟩
        rw [orderedRest, buildLine, List.append_assoc,
          takeWhile_append_stop _ hex, ← List.append_assoc, ← buildLine]
        exact drop_buildLine _ hlen
  · have hall : ∀ c ∈ q0, isDigitC c = true := by
      intro c hc
      cases hd : isDigitC c with
      | false => exact absurd ⟨c, hc, hd⟩ hex
      | true => rfl
    exfalso
    rw [dropWhile_append_all _ hall, tokenId_cons k, List.cons_append] at hdwe
    injection hdwe with e1 _
    exact absurd e1 (by decide)

theorem map_fst_eq {α : Type} (F : Nat → α) {qs1 qs2 : List (Nat × List Char)}
    (h : qs1.map Prod.fst = qs2.map Prod.fst) :
    qs1.map (fun s => F s.1) = qs2.map (fun s => F s.1) := by
  have h1 : qs1.map (fun s => F s.1) = (qs1.map Prod.fst).map F := by
    rw [List.map_map]
    rfl
  have h2 : qs2.map (fun s => F s.1) = (qs2.map Prod.fst).map F := by
    rw [List.map_map]
    rfl
  rw [h1, h2, h]

theorem branch_spans (toks : List (List Char × Token)) (kx : Katex)
    (T : Nat → Token) {Q : List Char} {QS : List (Nat × List Char)}
    (hQ : hasSub sentinel Q = false)
    (hQS : ∀ s ∈ QS, hasSub sentinel s.2 = false)
    (hlook : ∀ s ∈ QS, lookupTok (tokenId s.1) toks = some (T s.1))
    (hcont : ∀ s ∈ QS, hasSub sentinel (T s.1).content = false)
    (hkeys : ∀ e ∈ toks, ∃ m, e.1 = tokenId m) :
    (renderSegment toks kx (buildLine Q QS)).filter isMathSpan =
      QS.map (fun s => renderMathSpan kx (T s.1)) ∧
    ∀ sp ∈ renderSegment toks kx (buildLine Q QS),
      hasSub sentinel (visibleText sp) = false := by
  rw [renderSegment_buildLine toks kx T QS Q hQ hQS hlook hkeys]
  exact ⟨segment_spans_math kx T Q QS, segment_spans_visible kx T hQ hQS hcont⟩

theorem renderLine_mathSpans (toks : List (List Char × Token)) (kx : Katex)
    (T : Nat → Token) (q0 : List Char) (qs : List (Nat × List Char))
    (h0 : hasSub sentinel q0 = false)
    (hfree : ∀ s ∈ qs, hasSub sentinel s.2 = false)
    (hlook : ∀ s ∈ qs, lookupTok (tokenId s.1) toks = some (T s.1))
    (hcont : ∀ s ∈ qs, hasSub sentinel (T s.1).content = false)
    (hkeys : ∀ e ∈ toks, ∃ m, e.1 = tokenId m) :
    mathSpansOfBlock (renderLine toks kx (buildLine q0 qs)) =
      qs.map (fun s => renderMathSpan kx (T s.1)) ∧
    ∀ sp ∈ spansOfBlock (renderLine toks kx (buildLine q0 qs)),
      hasSub sentinel (visibleText sp) = false := by
  cases qs with
  | nil =>
    rw [show buildLine q0 [] = q0 from rfl, List.map_nil, renderLine]
    split_ifs with hb1 hb2 hb3 hb4 hb5 hb6
    · exact ⟨rfl, by intro sp hsp; simp [spansOfBlock] at hsp⟩
    · have hseg : hasSub sentinel (replaceFirst ['#', '#', '#', ' '] q0) = false := by
        rw [replaceFirst_startsWith (by simp) hb2]
        exact hasSub_drop_false sentinel_ne_nil h0 _
      simp only [mathSpansOfBlock, spansOfBlock]
      rw [renderSegment_plain toks kx hseg hkeys]
      exact ⟨boldSpans_no_math _, boldSpans_visible_free hseg⟩
    · have hseg : hasSub sentinel (replaceFirst ['#', '#', ' '] q0) = false := by
        rw [replaceFirst_startsWith (by simp) hb3]
        exact hasSub_drop_false sentinel_ne_nil h0 _
      simp only [mathSpansOfBlock, spansOfBlock]
      rw [renderSegment_plain toks kx hseg hkeys]
      exact ⟨boldSpans_no_math _, boldSpans_visible_free hseg⟩
    · have hseg : hasSub sentinel (replaceFirst ['#', ' '] q0) = false := by
        rw [replaceFirst_startsWith (by simp) hb4]
        exact hasSub_drop_false sentinel_ne_nil h0 _
      simp only [mathSpansOfBlock, spansOfBlock]
      rw [renderSegment_plain toks kx hseg hkeys]
      exact ⟨boldSpans_no_math _, boldSpans_visible_free hseg⟩
    · have hseg := stripDash_free h0
      simp only [mathSpansOfBlock, spansOfBlock]
      rw [renderSegment_plain toks kx hseg hkeys]
      exact ⟨boldSpans_no_math _, boldSpans_visible_free hseg⟩
    · have hseg := orderedRest_free (hasSub_trimS_false sentinel_ne_nil h0)
      simp only [mathSpansOfBlock, spansOfBlock]
      rw [renderSegment_plain toks kx hseg hkeys]
      exact ⟨boldSpans_no_math _, boldSpans_visible_free hseg⟩
    · simp only [mathSpansOfBlock, spansOfBlock]
      rw [renderSegment_plain toks kx h0 hkeys]
      exact ⟨boldSpans_no_math _, boldSpans_visible_free h0⟩
  | cons s1 qs' =>
    obtain ⟨k1, p1⟩ := s1
    obtain ⟨htlf, htlm⟩ := trimLast_facts ((k1, p1) :: qs')
    have hfree' : ∀ s ∈ trimLast ((k1, p1) :: qs'),
        hasSub sentinel s.2 = false := by
      intro s hs
      obtain ⟨s', hs', _he1, he2⟩ := htlm s hs
      rcases he2 with he2 | he2
      · rw [he2]; exact hfree s' hs'
      · rw [he2]; exact hasSub_trimR_false sentinel_ne_nil (hfree s' hs')
    have hlook' : ∀ s ∈ trimLast ((k1, p1) :: qs'),
        lookupTok (tokenId s.1) toks = some (T s.1) := by
      intro s hs
      obtain ⟨s', hs', he1, _⟩ := htlm s hs
      rw [he1]
      exact hlook s' hs'
    have hcont' : ∀ s ∈ trimLast ((k1, p1) :: qs'),
        hasSub sentinel (T s.1).content = false := by
      intro s hs
      obtain ⟨s', hs', he1, _⟩ := htlm s hs
      rw [he1]
      exact hcont s' hs'
    have hmapeq : (trimLast ((k1, p1) :: qs')).map
        (fun s => renderMathSpan kx (T s.1)) =
        ((k1, p1) :: qs').map (fun s => renderMathSpan kx (T s.1)) :=
      map_fst_eq (fun n => renderMathSpan kx (T n)) htlf
    obtain ⟨b, qs2, hshape⟩ := trimLast_cons_shape (k1, p1) qs'
    rw [renderLine]
    split_ifs with hb1 hb2 hb3 hb4 hb5 hb6
    · exfalso
      rw [trimS_buildLine, hshape] at hb1
      exact buildLine_cons_ne_nil _ _ _ _ hb1
    · have hj := marker_within (by decide) hb2
      have hstrip : replaceFirst ['#', '#', '#', ' ']
          (buildLine q0 ((k1, p1) :: qs')) =
          buildLine (q0.drop 4) ((k1, p1) :: qs') := by
        rw [replaceFirst_startsWith (by simp) hb2]
        exact drop_buildLine _ hj
      simp only [mathSpansOfBlock, spansOfBlock]
      rw [hstrip]
      exact branch_spans toks kx T (hasSub_drop_false sentinel_ne_nil h0 4)
        hfree hlook hcont hkeys
    · have hj := marker_within (by decide) hb3
      have hstrip : replaceFirst ['#', '#', ' ']
          (buildLine q0 ((k1, p1) :: qs')) =
          buildLine (q0.drop 3) ((k1, p1) :: qs') := by
        rw [replaceFirst_startsWith (by simp) hb3]
        exact drop_buildLine _ hj
      simp only [mathSpansOfBlock, spansOfBlock]
      rw [hstrip]
      exact branch_spans toks kx T (hasSub_drop_false sentinel_ne_nil h0 3)
        hfree hlook hcont hkeys
    · have hj := marker_within (by decide) hb4
      have hstrip : replaceFirst ['#', ' ']
          (buildLine q0 ((k1, p1) :: qs')) =
          buildLine (q0.drop 2) ((k1, p1) :: qs') := by
        rw [replaceFirst_startsWith (by simp) hb4]
        exact drop_buildLine _ hj
      simp only [mathSpansOfBlock, spansOfBlock]
      rw [hstrip]
      exact branch_spans toks kx T (hasSub_drop_false sentinel_ne_nil h0 2)
        hfree hlook hcont hkeys
    · simp only [mathSpansOfBlock, spansOfBlock]
      by_cases hds : startsWithL ['-', ' '] (buildLine q0 ((k1, p1) :: qs')) = true
      · have hj := marker_within (by decide) hds
        have hstrip : stripDash (buildLine q0 ((k1, p1) :: qs')) =
            buildLine (q0.drop 2) ((k1, p1) :: qs') := by
          rw [stripDash, if_pos hds]
          exact drop_buildLine _ hj
        rw [hstrip]
        exact branch_spans toks kx T (hasSub_drop_false sentinel_ne_nil h0 2)
          hfree hlook hcont hkeys
      · have hstrip : stripDash (buildLine q0 ((k1, p1) :: qs')) =
            buildLine q0 ((k1, p1) :: qs') := by
          rw [stripDash, if_neg hds]
        rw [hstrip]
        exact branch_spans toks kx T h0 hfree hlook hcont hkeys
    · rw [hshape] at hfree' hlook' hcont' hmapeq
      rw [trimS_buildLine, hshape] at hb6 ⊢
      obtain ⟨j, hj, hrest⟩ := orderedRest_buildLine hb6
      rw [hrest]
      simp only [mathSpansOfBlock, spansOfBlock]
      have hconc := branch_spans toks kx T
        (hasSub_drop_false sentinel_ne_nil
          (hasSub_trimL_false sentinel_ne_nil h0) j)
        hfree' hlook' hcont' hkeys
      refine ⟨?_, hconc.2⟩
      rw [hconc.1, hmapeq]
    · simp only [mathSpansOfBlock, spansOfBlock]
      exact branch_spans toks kx T h0 hfree hlook hcont hkeys


/-! ## Claim C1: token round-trip through the renderer -/

theorem flatMap_map_general {α β γ : Type} (f : α → β) (g : β → List γ) :
    ∀ l : List α, (l.map f).flatMap g = l.flatMap (fun a => g (f a)) := by
  intro l
  induction l with
  | nil => rfl
  | cons a r ih => simp [List.map_cons, List.flatMap_cons, ih]

theorem flatMap_congr_mem {α γ : Type} {l : List α} {f g : α → List γ}
    (h : ∀ a ∈ l, f a = g a) : l.flatMap f = l.flatMap g := by
  induction l with
  | nil => rfl
  | cons a r ih =>
    rw [List.flatMap_cons, List.flatMap_cons, h a (List.mem_cons_self _ _),
      ih (fun b hb => h b (List.mem_cons_of_mem _ hb))]

theorem flatMap_map_fst {γ : Type} (F : Nat → γ) :
    ∀ (l : List (List Char × List (Nat × List Char))),
    l.flatMap (fun ln => ln.2.map (fun s => F s.1)) =
      (l.flatMap (fun ln => ln.2.map Prod.fst)).map F := by
  intro l
  induction l with
  | nil => rfl
  | cons a r ih =>
    rw [List.flatMap_cons, List.flatMap_cons, List.map_append, ih]
    congr 1
    rw [List.map_map]
    rfl

theorem blockInline_keys (ps : List Piece) (dn en : Nat) :
    ∀ e ∈ blockToks ps dn ++ inlineToks ps en, ∃ m, e.1 = tokenId m := by
  intro e he
  rcases List.mem_append.mp he with h | h
  · obtain ⟨m, hm, _⟩ := blockToks_ids ps dn e h
    exact ⟨m, hm⟩
  · obtain ⟨m, hm, _⟩ := inlineToks_ids ps en e h
    exact ⟨m, hm⟩

theorem cleanDoc_fields {d : SDoc} (h : cleanDoc d = true) :
    wfDoc d = true ∧ hasSub sentinel d.pre = false ∧
    (∀ p ∈ d.pieces, hasSub sentinel p.src = false) ∧
    (∀ p ∈ d.pieces, hasSub sentinel p.post = false) := by
  simp only [cleanDoc, Bool.and_eq_true, List.all_eq_true] at h
  obtain ⟨⟨h1, h2⟩, h3⟩ := h
  refine ⟨h1, by simpa using h2, ?_, ?_⟩
  · intro p hp
    have h4 := h3 p hp
    simp only [Bool.and_eq_true, Bool.not_eq_true'] at h4
    exact h4.1
  · intro p hp
    have h4 := h3 p hp
    simp only [Bool.and_eq_true, Bool.not_eq_true'] at h4
    exact h4.2

/-- Full characterization of a clean document's rendering: the math spans
are exactly the generated tokens in document order resolved per the adapter
state, the tokens are a permutation of the token map, and no visible text
of any span contains the sentinel. -/
theorem renderDoc_spans (d : SDoc) (kx : Katex) (h : cleanDoc d = true) :
    (MarkdownRenderer kx (flattenDoc d)).flatMap mathSpansOfBlock =
      (docToks d.pieces 0 (ndisp d.pieces)).map
        (fun e => renderMathSpan kx e.2) ∧
    (docToks d.pieces 0 (ndisp d.pieces)).Perm
      (parsedContent (flattenDoc d)).2 ∧
    ∀ b ∈ MarkdownRenderer kx (flattenDoc d), ∀ sp ∈ spansOfBlock b,
      hasSub sentinel (visibleText sp) = false := by
  obtain ⟨hwf, hprefree, hsrcfree, hpostfree⟩ := cleanDoc_fields h
  have hPF := parsedContent_flatten d hwf
  have htext : (parsedContent (flattenDoc d)).1 =
      buildLine d.pre (docSegs d.pieces 0 (ndisp d.pieces)) := by
    rw [hPF, buildLine_docSegs]
  have htoks : (parsedContent (flattenDoc d)).2 =
      blockToks d.pieces 0 ++ inlineToks d.pieces (ndisp d.pieces) := by
    rw [hPF]
  have hMR : MarkdownRenderer kx (flattenDoc d) =
      ((splitST d.pre (docSegs d.pieces 0 (ndisp d.pieces))).map
        (fun ln => buildLine ln.1 ln.2)).map
        (renderLine (blockToks d.pieces 0 ++
          inlineToks d.pieces (ndisp d.pieces)) kx) := by
    rw [MarkdownRenderer, htext, htoks, splitNl_buildLine]
  have hkeys := blockInline_keys d.pieces 0 (ndisp d.pieces)
  have hlk := docToks_lookup d.pieces 0 (ndisp d.pieces) (by omega)
  have hlookAll : ∀ n ∈ (docSegs d.pieces 0 (ndisp d.pieces)).map Prod.fst,
      lookupTok (tokenId n)
        (blockToks d.pieces 0 ++ inlineToks d.pieces (ndisp d.pieces)) =
      some (tokAt (blockToks d.pieces 0 ++
        inlineToks d.pieces (ndisp d.pieces)) n) := by
    intro n hn
    obtain ⟨e, he, he1⟩ := docSegs_mem_fst d.pieces 0 (ndisp d.pieces) n hn
    have hl := hlk e he
    rw [he1] at hl
    rw [tokAt_eq hl]
    exact hl
  have hcontAll : ∀ n ∈ (docSegs d.pieces 0 (ndisp d.pieces)).map Prod.fst,
      hasSub sentinel ((tokAt (blockToks d.pieces 0 ++
        inlineToks d.pieces (ndisp d.pieces)) n).content) = false := by
    intro n hn
    obtain ⟨e, he, he1⟩ := docSegs_mem_fst d.pieces 0 (ndisp d.pieces) n hn
    have hl := hlk e he
    rw [he1] at hl
    rw [tokAt_eq hl]
    exact docToks_content_free d.pieces 0 (ndisp d.pieces) hsrcfree e he
  have hmem : ∀ ln ∈ splitST d.pre (docSegs d.pieces 0 (ndisp d.pieces)),
      ∀ s ∈ ln.2, s.1 ∈ (docSegs d.pieces 0 (ndisp d.pieces)).map Prod.fst := by
    intro ln hln s hs
    rw [← splitST_ids (docSegs d.pieces 0 (ndisp d.pieces)) d.pre]
    exact List.mem_flatMap.mpr ⟨ln, hln, List.mem_map.mpr ⟨s, hs, rfl⟩⟩
  have hlines := splitST_free (docSegs d.pieces 0 (ndisp d.pieces)) d.pre
    hprefree (docSegs_chunk_free d.pieces 0 (ndisp d.pieces) hpostfree)
  have hline := fun ln hln => renderLine_mathSpans
    (blockToks d.pieces 0 ++ inlineToks d.pieces (ndisp d.pieces)) kx
    (tokAt (blockToks d.pieces 0 ++ inlineToks d.pieces (ndisp d.pieces)))
    ln.1 ln.2 (hlines ln hln).1 (hlines ln hln).2
    (fun s hs => hlookAll s.1 (hmem ln hln s hs))
    (fun s hs => hcontAll s.1 (hmem ln hln s hs)) hkeys
  refine ⟨?_, ?_, ?_⟩
  · calc (MarkdownRenderer kx (flattenDoc d)).flatMap mathSpansOfBlock
        = (splitST d.pre (docSegs d.pieces 0 (ndisp d.pieces))).flatMap
            (fun ln => mathSpansOfBlock
              (renderLine (blockToks d.pieces 0 ++
                inlineToks d.pieces (ndisp d.pieces)) kx
                (buildLine ln.1 ln.2))) := by
          rw [hMR, List.map_map]
          exact flatMap_map_general _ _ _
      _ = (splitST d.pre (docSegs d.pieces 0 (ndisp d.pieces))).flatMap
            (fun ln => ln.2.map (fun s => renderMathSpan kx
              (tokAt (blockToks d.pieces 0 ++
                inlineToks d.pieces (ndisp d.pieces)) s.1))) :=
          flatMap_congr_mem (fun ln hln => (hline ln hln).1)
      _ = ((splitST d.pre (docSegs d.pieces 0 (ndisp d.pieces))).flatMap
            (fun ln => ln.2.map Prod.fst)).map
            (fun n => renderMathSpan kx
              (tokAt (blockToks d.pieces 0 ++
                inlineToks d.pieces (ndisp d.pieces)) n)) :=
          flatMap_map_fst (fun n => renderMathSpan kx
            (tokAt (blockToks d.pieces 0 ++
              inlineToks d.pieces (ndisp d.pieces)) n)) _
      _ = ((docSegs d.pieces 0 (ndisp d.pieces)).map Prod.fst).map
            (fun n => renderMathSpan kx
              (tokAt (blockToks d.pieces 0 ++
                inlineToks d.pieces (ndisp d.pieces)) n)) := by
          rw [splitST_ids]
      _ = (docSegs d.pieces 0 (ndisp d.pieces)).map
            (fun s => renderMathSpan kx
              (tokAt (blockToks d.pieces 0 ++
                inlineToks d.pieces (ndisp d.pieces)) s.1)) := by
          rw [List.map_map]
          rfl
      _ = (docToks d.pieces 0 (ndisp d.pieces)).map
            (fun e => renderMathSpan kx e.2) :=
          docSegs_spans _ kx d.pieces 0 (ndisp d.pieces) hlk
  · rw [htoks]
    exact docToks_perm d.pieces 0 (ndisp d.pieces)
  · intro b hb sp hsp
    rw [hMR] at hb
    obtain ⟨ln0, hln0, hb2⟩ := List.mem_map.mp hb
    obtain ⟨ln, hln, hb3⟩ := List.mem_map.mp hln0
    subst hb2
    subst hb3
    exact (hline ln hln).2 sp hsp

/-- C1 (amended): for every well-formed document whose plain text, math
sources and inter-span text do not contain the sentinel `__MATH_TOKEN_` and
whose math spans are separated by nonempty plain text, once rendering
completes every MathToken generated during tokenization appears exactly once
-- in document order -- in the output sequence of math spans, resolved per
the adapter state (typeset markup when the adapter is ready and
typesetting succeeds, literal math source when the adapter is not loaded,
error-styled literal source when typesetting throws); the rendered math
spans are exactly the generated tokens (a permutation of the token map),
and no span of any rendered block carries a raw placeholder id -- or any
sentinel-bearing text -- as visible literal text. -/
theorem C1_amended_theorem (d : SDoc) (kx : Katex) (h : cleanDoc d = true) :
    (MarkdownRenderer kx (flattenDoc d)).flatMap mathSpansOfBlock =
      (docToks d.pieces 0 (ndisp d.pieces)).map
        (fun e => renderMathSpan kx e.2) ∧
    (docToks d.pieces 0 (ndisp d.pieces)).Perm
      (parsedContent (flattenDoc d)).2 ∧
    ∀ b ∈ MarkdownRenderer kx (flattenDoc d), ∀ sp ∈ spansOfBlock b,
      hasSub sentinel (visibleText sp) = false :=
  renderDoc_spans d kx h

theorem C1_amended_witness :
    cleanDoc sampleDoc = true ∧
    ((MarkdownRenderer katexOff (flattenDoc sampleDoc)).flatMap
        mathSpansOfBlock =
      (docToks sampleDoc.pieces 0 (ndisp sampleDoc.pieces)).map
        (fun e => renderMathSpan katexOff e.2) ∧
    (docToks sampleDoc.pieces 0 (ndisp sampleDoc.pieces)).Perm
      (parsedContent (flattenDoc sampleDoc)).2 ∧
    ∀ b ∈ MarkdownRenderer katexOff (flattenDoc sampleDoc),
      ∀ sp ∈ spansOfBlock b,
      hasSub sentinel (visibleText sp) = false) :=
  ⟨by decide, C1_amended_theorem sampleDoc katexOff (by decide)⟩


/-! ## Claim C7: adapter failure isolation, corrected -/

/-- An adapter that is loaded, typesets every source except `b`, and throws
on `b`. -/
def katexPartial : Katex :=
  ⟨true, fun s _ => if s = ['b'] then none else some ('<' :: (s ++ ['>']))⟩

theorem map_congr_mem {α γ : Type} {l : List α} {f g : α → γ}
    (h : ∀ a ∈ l, f a = g a) : l.map f = l.map g := by
  induction l with
  | nil => rfl
  | cons a r ih =>
    rw [List.map_cons, List.map_cons, h a (List.mem_cons_self _ _),
      ih (fun b hb => h b (List.mem_cons_of_mem _ hb))]

/-- Claim C7 counterexample: the document `$a$$b$$c$` carries two math
tokens (a Display token with source `b`, then an Inline token whose source
embeds the first token's placeholder id); with the loaded adapter that
throws exactly on the source `b` and typesets everything else, the rendered
document contains no error-styled span with the failing token's source at
all -- the first token's placeholder was swallowed into the second token's
content, so the failing token is never shown as literal source in an error
style. -/
theorem C7_counterexample :
    (parsedContent ("$a$$b$$c$".data)).2.map (fun e => e.2.content) =
      [['b'], 'a' :: (tokenId 0 ++ ['c'])] ∧
    katexPartial.renderToString ['b'] true = none ∧
    MarkdownRenderer katexPartial ("$a$$b$$c$".data) =
      [Block.para [Span.plainText [],
        Span.mathHtml ('<' :: (('a' :: (tokenId 0 ++ ['c'])) ++ ['>'])) false,
        Span.plainText []]] ∧
    ∀ b ∈ MarkdownRenderer katexPartial ("$a$$b$$c$".data),
      ∀ sp ∈ spansOfBlock b, sp ≠ Span.mathError ['b'] := by
  refine ⟨by decide, by decide, by decide, by decide⟩

/-- Claim C7 (amended): for every well-formed sentinel-free document (as in
the amended C1) and every loaded adapter, adapter failures are isolated at
single-token granularity: the document renders completely and its math
spans are exactly the per-token outcome of the adapter -- every token for
which typesetting throws is shown as its literal math source in the
error-styled span and every token for which it succeeds is typeset
normally, each independently of the other tokens' outcomes; rendering is
total, so no error reaches the caller. -/
theorem C7_amended_theorem (d : SDoc) (kx : Katex) (h : cleanDoc d = true)
    (hl : kx.loaded = true) :
    (MarkdownRenderer kx (flattenDoc d)).flatMap mathSpansOfBlock =
      (docToks d.pieces 0 (ndisp d.pieces)).map (fun e =>
        match kx.renderToString e.2.content
            (e.2.type == TokenType.mathDisplay) with
        | some html => Span.mathHtml html (e.2.type == TokenType.mathDisplay)
        | none => Span.mathError e.2.content) := by
  rw [(renderDoc_spans d kx h).1]
  refine map_congr_mem ?_
  intro e _he
  rw [renderMathSpan, if_pos hl]

/-- Claim C7 amended witness: the sample document holds a display token
`a` and an inline token `b`; the partial adapter typesets `a` and throws on
`b`, and the rendered spans show the typeset markup next to the
error-styled literal source. -/
theorem C7_amended_witness :
    cleanDoc sampleDoc = true ∧ katexPartial.loaded = true ∧
    (MarkdownRenderer katexPartial (flattenDoc sampleDoc)).flatMap
        mathSpansOfBlock =
      (docToks sampleDoc.pieces 0 (ndisp sampleDoc.pieces)).map (fun e =>
        match katexPartial.renderToString e.2.content
            (e.2.type == TokenType.mathDisplay) with
        | some html => Span.mathHtml html (e.2.type == TokenType.mathDisplay)
        | none => Span.mathError e.2.content) :=
  ⟨by decide, rfl, C7_amended_theorem sampleDoc katexPartial (by decide) rfl⟩

/-! ## Claim C10: bold pair around a math span, amended -/

/-- Claim C10 (amended): the bold pass runs per non-math segment after the
placeholder split, so a bold pair directly enclosing a math span never
produces a BoldText span containing the math -- the placeholder resolves to
its own math span per the adapter state. Each enclosing `**` marker's fate
depends on its segment: a marker standing alone as its segment both starts
and ends with `**` and is emitted as an empty BoldText span with the marker
characters stripped, while a marker with marker-free text around it in its
segment stays unsplit and is emitted as literal plain text with the marker
characters preserved. -/
theorem C10_amended_theorem (toks : List (List Char × Token)) (kx : Katex)
    (T : Token) (n : Nat) (u v : List Char)
    (hufree : hasSub sentinel (u ++ ['*', '*']) = false)
    (hvfree : hasSub sentinel ('*' :: '*' :: v) = false)
    (hustar : ∀ c ∈ u, c ≠ '*') (hvstar : ∀ c ∈ v, c ≠ '*')
    (hlook : lookupTok (tokenId n) toks = some T)
    (hkeys : ∀ e ∈ toks, ∃ m, e.1 = tokenId m) :
    renderSegment toks kx
        ((u ++ ['*', '*']) ++ tokenId n ++ ('*' :: '*' :: v)) =
      (if u = [] then [Span.boldText []]
        else [Span.plainText (u ++ ['*', '*'])]) ++
      renderMathSpan kx T ::
      (if v = [] then [Span.boldText []]
        else [Span.plainText ('*' :: '*' :: v)]) := by
  have hbl : (u ++ ['*', '*']) ++ tokenId n ++ ('*' :: '*' :: v) =
      buildLine (u ++ ['*', '*']) [(n, '*' :: '*' :: v)] := by
    rw [buildLine, buildLine]
  rw [hbl]
  rw [renderSegment_buildLine toks kx (fun _ => T) [(n, '*' :: '*' :: v)]
    (u ++ ['*', '*']) hufree
    (by intro s hs; simp at hs; subst hs; exact hvfree)
    (by intro s hs; simp at hs; subst hs; exact hlook)
    hkeys]
  simp only [List.flatMap_cons, List.flatMap_nil, List.append_nil]
  by_cases hu : u = []
  · subst hu
    rw [show boldSpans (([] : List Char) ++ ['*', '*']) = [Span.boldText []]
      from by decide, if_pos rfl]
    by_cases hv : v = []
    · subst hv
      rw [show boldSpans ('*' :: '*' :: ([] : List Char)) = [Span.boldText []]
        from by decide, if_pos rfl]
    · have h2 := boldSpans_unmatched_plain [] v (by simp) hvstar (Or.inr hv)
      rw [List.nil_append] at h2
      rw [h2, if_neg hv]
  · have h1 := boldSpans_unmatched_plain u [] hustar (by simp) (Or.inl hu)
    rw [h1, if_neg hu]
    by_cases hv : v = []
    · subst hv
      rw [show boldSpans ('*' :: '*' :: ([] : List Char)) = [Span.boldText []]
        from by decide, if_pos rfl]
    · have h2 := boldSpans_unmatched_plain [] v (by simp) hvstar (Or.inr hv)
      rw [List.nil_append] at h2
      rw [h2, if_neg hv]

/-- Claim C10 amended witness: with plain text around the bold pair, the
enclosing markers survive as literal plain text around the resolved math
span. -/
theorem C10_amended_witness :
    hasSub sentinel ((['a'] : List Char) ++ ['*', '*']) = false ∧
    hasSub sentinel ('*' :: '*' :: [' ', 'b']) = false ∧
    (∀ c ∈ (['a'] : List Char), c ≠ '*') ∧
    (∀ c ∈ ([' ', 'b'] : List Char), c ≠ '*') ∧
    renderSegment [(tokenId 0, ⟨TokenType.mathInline, ['x'], tokenId 0⟩)]
        katexOff
        (((['a'] : List Char) ++ ['*', '*']) ++ tokenId 0 ++
          ('*' :: '*' :: [' ', 'b'])) =
      (if (['a'] : List Char) = [] then [Span.boldText []]
        else [Span.plainText ((['a'] : List Char) ++ ['*', '*'])]) ++
      renderMathSpan katexOff ⟨TokenType.mathInline, ['x'], tokenId 0⟩ ::
      (if ([' ', 'b'] : List Char) = [] then [Span.boldText []]
        else [Span.plainText ('*' :: '*' :: [' ', 'b'])]) :=
  ⟨by decide, by decide, by decide, by decide,
    C10_amended_theorem [(tokenId 0, ⟨TokenType.mathInline, ['x'], tokenId 0⟩)]
      katexOff ⟨TokenType.mathInline, ['x'], tokenId 0⟩ 0 ['a'] [' ', 'b']
      (by decide) (by decide) (by decide) (by decide) (by decide)
      (by intro e he; simp at he; subst he; exact ⟨0, rfl⟩)⟩

end Omnilearn

